import Mathlib

/-!
# Verification of the van Emde Boas tree implementation (src/vEBTree.c)

This file gives a shallow embedding of the vEB-tree code and settles the
specification claims against it.

Modelling conventions:
* C `int` is modelled as `Int` (the universes used are far below overflow).
* A `vEBNode*` that may be `NULL` is modelled as `Option VEB`; `vEB_member`
  is the only operation that checks for `NULL`, exactly as in the C source.
* C truncating division/remainder (`/`, `%` on `int`) are `Int.tdiv`/`Int.tmod`.
* Reading `cluster[i]` out of bounds is undefined behaviour in C; the model
  returns `none` there (`clGet`).  Code paths that would dereference such a
  `NULL`/out-of-bounds pointer in C are given harmless total results in the
  model and are marked as unreachable-for-well-formed-trees; no theorem below
  depends on what the model returns on such a path except through states that
  are reachable without ever touching one.
* The mutating C functions are modelled as functions returning the new tree.
* Each recursive C function `vEB_f` is embedded as a structurally recursive
  function `fF` on an extra fuel argument together with a wrapper `vEB_f`
  that supplies `sizeOf` of the tree as fuel.  The fuel is a purely technical
  device (it keeps every definition computable by the kernel): the lemmas
  `fF_congr` show the fuel is irrelevant once it is at least the size of the
  tree, and the lemmas `vEB_f_eq` restate each wrapper by exactly the
  recursion of the C source, with no fuel in sight.  All reasoning and all
  claims below go through the wrappers and the `vEB_f_eq` equations only.
-/

set_option maxHeartbeats 8000000

/-- The node structure `vEBNode` of the C source: universe size `u`,
cached `min`/`max`, the two square-root split sizes, the `summary`
pointer and the `cluster` pointer array. -/
inductive VEB : Type where
  | mk : (u : Int) → (mn : Int) → (mx : Int) → (lower_sqrt : Int) → (upper_sqrt : Int) →
         (summary : Option VEB) → (cluster : List VEB) → VEB

def VEB.u : VEB → Int | .mk u _ _ _ _ _ _ => u

def VEB.min : VEB → Int | .mk _ mn _ _ _ _ _ => mn

def VEB.max : VEB → Int | .mk _ _ mx _ _ _ _ => mx

def VEB.lower_sqrt : VEB → Int | .mk _ _ _ lo _ _ _ => lo

def VEB.upper_sqrt : VEB → Int | .mk _ _ _ _ up _ _ => up

def VEB.summary : VEB → Option VEB | .mk _ _ _ _ _ sm _ => sm

def VEB.cluster : VEB → List VEB | .mk _ _ _ _ _ _ cl => cl

/-- Access `cluster[i]`.  In C an index outside `[0, length)` is an
out-of-bounds read (undefined behaviour); the model yields `none` there. -/
def clGet (cl : List VEB) (i : Int) : Option VEB :=
  if i < 0 then none else cl.get? i.toNat

/-- Write `cluster[i] = c` (functional update of the C in-place store).
Out-of-bounds stores (undefined behaviour in C) leave the list unchanged. -/
def clSet (cl : List VEB) (i : Int) (c : VEB) : List VEB :=
  if i < 0 then cl else cl.set i.toNat c

/-- C helper `vEB_min`: reads `V->min`.  The C code calls it on pointers that
are non-`NULL` for every well-formed tree; on `none` (a `NULL` dereference in
C) the model returns the empty sentinel. -/
def vEB_min : Option VEB → Int
  | none => -1
  | some V => V.min

/-- C helper `vEB_max`: reads `V->max` (see `vEB_min` for the `none` case). -/
def vEB_max : Option VEB → Int
  | none => -1
  | some V => V.max

/-- C helper `high(V, x) = x / V->lower_sqrt` (truncating `int` division),
with the node's `lower_sqrt` passed explicitly. -/
def highPart (lo x : Int) : Int := Int.tdiv x lo

/-- C helper `low(V, x) = x % V->lower_sqrt` (truncating `int` remainder). -/
def lowPart (lo x : Int) : Int := Int.tmod x lo

/-- C helper `idx(V, h, l) = h * V->lower_sqrt + l`. -/
def idxPart (lo h l : Int) : Int := h * lo + l

/-- `vEB_empty_insert`: store `x` as the unique element. -/
def vEB_empty_insert : VEB → Int → VEB
  | .mk u _ _ lo up sm cl, x => .mk u x x lo up sm cl

mutual

/-- Computable size of a node, used only as recursion fuel. -/
def VEB.size : VEB → Nat
  | .mk _ _ _ _ _ sm cl => 1 + optSize sm + clsSize cl

def optSize : Option VEB → Nat
  | none => 1
  | some t => 1 + t.size

def clsSize : List VEB → Nat
  | [] => 1
  | c :: cs => 1 + c.size + clsSize cs

end

theorem VEB.size_pos (V : VEB) : 1 ≤ V.size := by
  cases V
  simp only [VEB.size]
  omega

theorem optSize_pos (o : Option VEB) : 1 ≤ optSize o := by
  cases o
  · simp only [optSize]
    omega
  · simp only [optSize]
    omega


theorem clsSize_get? : ∀ (cl : List VEB) (n : Nat), optSize (cl.get? n) ≤ clsSize cl := by
  intro cl
  induction cl with
  | nil =>
    intro n
    simp only [List.get?_nil, optSize, clsSize]
    omega
  | cons c cs ih =>
    intro n
    match n with
    | 0 =>
      simp only [List.get?_cons_zero, optSize, clsSize]
      omega
    | n + 1 =>
      have := ih n
      simp only [List.get?_cons_succ, clsSize]
      omega

theorem clGet_size (cl : List VEB) (i : Int) : optSize (clGet cl i) ≤ clsSize cl := by
  unfold clGet
  split
  · have h1 : 1 ≤ clsSize cl := by
      cases cl
      · simp only [clsSize]
        omega
      · simp only [clsSize]
        omega
    simpa [optSize] using h1
  · exact clsSize_get? cl i.toNat

theorem clGet_some_size {cl : List VEB} {i : Int} {c : VEB} (h : clGet cl i = some c) :
    c.size < clsSize cl := by
  have := clGet_size cl i
  rw [h] at this
  simp [optSize] at this
  omega

/-- Fuel-indexed body of `vEB_member` (MEMBER/find): `x` is found iff it
equals the cached `min`/`max` of some node on the high/low descent path. -/
def memberF : Nat → Option VEB → Int → Bool
  | 0, _, _ => false
  | _ + 1, none, _ => false
  | fuel + 1, some (.mk u mn mx lo _ _ cl), x =>
    if x = mn ∨ x = mx then true
    else if u ≤ 2 then false
    else memberF fuel (clGet cl (highPart lo x)) (lowPart lo x)

/-- `vEB_member` of the C source (see `vEB_member_eq` for its recursion). -/
def vEB_member (o : Option VEB) (x : Int) : Bool := memberF (optSize o) o x

theorem memberF_congr : ∀ (n m : Nat) (o : Option VEB) (x : Int),
    optSize o ≤ n → optSize o ≤ m → memberF n o x = memberF m o x := by
  intro n
  induction n with
  | zero =>
    intro m o x h1 _
    have := optSize_pos o
    omega
  | succ n ih =>
    intro m o x h1 h2
    match m with
    | 0 =>
      have := optSize_pos o
      omega
    | m + 1 =>
      match o with
      | none => simp [memberF]
      | some (.mk u mn mx lo up sm cl) =>
        simp only [memberF]
        by_cases hx : x = mn ∨ x = mx
        · rw [if_pos hx, if_pos hx]
        · rw [if_neg hx, if_neg hx]
          by_cases hu : u ≤ 2
          · rw [if_pos hu, if_pos hu]
          · rw [if_neg hu, if_neg hu]
            have hsz : 2 + clsSize cl ≤ optSize (some (VEB.mk u mn mx lo up sm cl)) := by
              have := optSize_pos sm
              simp [optSize, VEB.size]
              omega
            have hcl := clGet_size cl (highPart lo x)
            exact ih m (clGet cl (highPart lo x)) (lowPart lo x) (by omega) (by omega)

theorem memberF_eq_member (n : Nat) (o : Option VEB) (x : Int) (h : optSize o ≤ n) :
    memberF n o x = vEB_member o x :=
  memberF_congr n (optSize o) o x h (Nat.le_refl _)

theorem vEB_member_none (x : Int) : vEB_member none x = false := rfl

/-- The recursion of C `vEB_member`, fuel-free. -/
theorem vEB_member_eq (u mn mx lo up : Int) (sm : Option VEB) (cl : List VEB) (x : Int) :
    vEB_member (some (.mk u mn mx lo up sm cl)) x =
      (if x = mn ∨ x = mx then true
       else if u ≤ 2 then false
       else vEB_member (clGet cl (highPart lo x)) (lowPart lo x)) := by
  have hsz : 2 + clsSize cl ≤ optSize (some (VEB.mk u mn mx lo up sm cl)) := by
    have := optSize_pos sm
    simp [optSize, VEB.size]
    omega
  show memberF (optSize (some (VEB.mk u mn mx lo up sm cl))) _ _ = _
  rcases hk : optSize (some (VEB.mk u mn mx lo up sm cl)) with _ | k
  · omega
  · simp only [memberF]
    by_cases hx : x = mn ∨ x = mx
    · rw [if_pos hx, if_pos hx]
    · rw [if_neg hx, if_neg hx]
      by_cases hu : u ≤ 2
      · rw [if_pos hu, if_pos hu]
      · rw [if_neg hu, if_neg hu]
        have hcl := clGet_size cl (highPart lo x)
        exact memberF_eq_member k _ _ (by omega)

/-- Fuel-indexed body of `vEB_insert` (INSERT).  Out-of-range `x` is reported
and the tree is left unchanged.  A present `x` is a no-op.  Otherwise the
empty case stores `x` directly; the general case swaps `x` with `min` if
needed (`x1` is the value kept for this level, `mn1` the new cached
minimum) and pushes the retained value into its cluster, registering the
cluster in the summary when it was empty, finally raising `max` if needed. -/
def insertF : Nat → VEB → Int → VEB
  | 0, V, _ => V
  | fuel + 1, V@(.mk u mn mx lo up sm cl), x =>
    if x < 0 ∨ u ≤ x then V
    else if vEB_member (some V) x then V
    else if mn = -1 then vEB_empty_insert V x
    else
      let x1 := if x < mn then mn else x
      let mn1 := if x < mn then x else mn
      if 2 < u then
        let h := highPart lo x1
        let l := lowPart lo x1
        match clGet cl h with
        | none => V      -- C dereferences cluster[h] here; unreachable for well-formed trees
        | some c =>
          if c.min = -1 then
            let sm1 := match sm with
              | none => none   -- C dereferences summary here; unreachable for well-formed trees
              | some s => some (insertF fuel s h)
            let mx1 := if mx < x1 then x1 else mx
            .mk u mn1 mx1 lo up sm1 (clSet cl h (vEB_empty_insert c l))
          else
            let mx1 := if mx < x1 then x1 else mx
            .mk u mn1 mx1 lo up sm (clSet cl h (insertF fuel c l))
      else
        let mx1 := if mx < x1 then x1 else mx
        .mk u mn1 mx1 lo up sm cl

/-- `vEB_insert` of the C source (see `vEB_insert_eq` for its recursion). -/
def vEB_insert (V : VEB) (x : Int) : VEB := insertF V.size V x

theorem insertF_congr : ∀ (n m : Nat) (V : VEB) (x : Int),
    V.size ≤ n → V.size ≤ m → insertF n V x = insertF m V x := by
  intro n
  induction n with
  | zero =>
    intro m V x h1 _
    have := VEB.size_pos V
    omega
  | succ n ih =>
    intro m V x h1 h2
    match m with
    | 0 =>
      have := VEB.size_pos V
      omega
    | m + 1 =>
      match V with
      | .mk u mn mx lo up sm cl =>
        simp only [insertF]
        by_cases hb : x < 0 ∨ u ≤ x
        · rw [if_pos hb, if_pos hb]
        · rw [if_neg hb, if_neg hb]
          by_cases hmem : vEB_member (some (VEB.mk u mn mx lo up sm cl)) x
          · rw [if_pos hmem, if_pos hmem]
          · rw [if_neg hmem, if_neg hmem]
            by_cases hmn : mn = -1
            · rw [if_pos hmn, if_pos hmn]
            · rw [if_neg hmn, if_neg hmn]
              by_cases hu : 2 < u
              · rw [if_pos hu, if_pos hu]
                rcases hget : clGet cl (highPart lo (if x < mn then mn else x)) with _ | c
                · simp only [hget]
                · simp only [hget]
                  have hszc : c.size ≤ n ∧ c.size ≤ m := by
                    have hlt := clGet_some_size hget
                    simp only [VEB.size] at h1 h2
                    omega
                  by_cases hc : c.min = -1
                  · rw [if_pos hc, if_pos hc]
                    cases sm with
                    | none => rfl
                    | some s =>
                      have hszs : s.size ≤ n ∧ s.size ≤ m := by
                        simp only [VEB.size, optSize] at h1 h2
                        omega
                      dsimp only
                      rw [ih m s (highPart lo (if x < mn then mn else x)) hszs.1 hszs.2]
                  · rw [if_neg hc, if_neg hc]
                    rw [ih m c (lowPart lo (if x < mn then mn else x)) hszc.1 hszc.2]
              · rw [if_neg hu, if_neg hu]

theorem insertF_eq_insert (n : Nat) (V : VEB) (x : Int) (h : V.size ≤ n) :
    insertF n V x = vEB_insert V x :=
  insertF_congr n V.size V x h (Nat.le_refl _)

/-- The recursion of C `vEB_insert`, fuel-free. -/
theorem vEB_insert_eq (u mn mx lo up : Int) (sm : Option VEB) (cl : List VEB) (x : Int) :
    vEB_insert (.mk u mn mx lo up sm cl) x =
      (if x < 0 ∨ u ≤ x then .mk u mn mx lo up sm cl
       else if vEB_member (some (.mk u mn mx lo up sm cl)) x then .mk u mn mx lo up sm cl
       else if mn = -1 then vEB_empty_insert (.mk u mn mx lo up sm cl) x
       else
         let x1 := if x < mn then mn else x
         let mn1 := if x < mn then x else mn
         if 2 < u then
           let h := highPart lo x1
           let l := lowPart lo x1
           match clGet cl h with
           | none => .mk u mn mx lo up sm cl
           | some c =>
             if c.min = -1 then
               let sm1 := match sm with
                 | none => none
                 | some s => some (vEB_insert s h)
               let mx1 := if mx < x1 then x1 else mx
               .mk u mn1 mx1 lo up sm1 (clSet cl h (vEB_empty_insert c l))
             else
               let mx1 := if mx < x1 then x1 else mx
               .mk u mn1 mx1 lo up sm (clSet cl h (vEB_insert c l))
         else
           let mx1 := if mx < x1 then x1 else mx
           .mk u mn1 mx1 lo up sm cl) := by
  show insertF ((VEB.mk u mn mx lo up sm cl).size) _ _ = _
  rcases hk : (VEB.mk u mn mx lo up sm cl).size with _ | k
  · have := VEB.size_pos (VEB.mk u mn mx lo up sm cl)
    omega
  · simp only [insertF]
    by_cases hb : x < 0 ∨ u ≤ x
    · rw [if_pos hb, if_pos hb]
    · rw [if_neg hb, if_neg hb]
      by_cases hmem : vEB_member (some (VEB.mk u mn mx lo up sm cl)) x
      · rw [if_pos hmem, if_pos hmem]
      · rw [if_neg hmem, if_neg hmem]
        by_cases hmn : mn = -1
        · rw [if_pos hmn, if_pos hmn]
        · rw [if_neg hmn, if_neg hmn]
          by_cases hu : 2 < u
          · rw [if_pos hu, if_pos hu]
            rcases hget : clGet cl (highPart lo (if x < mn then mn else x)) with _ | c
            · simp only [hget]
            · simp only [hget]
              have hszc : c.size ≤ k := by
                have hlt := clGet_some_size hget
                simp only [VEB.size] at hk
                have := optSize_pos sm
                omega
              by_cases hc : c.min = -1
              · rw [if_pos hc, if_pos hc]
                cases sm with
                | none => rfl
                | some s =>
                  have hszs : s.size ≤ k := by
                    simp only [VEB.size, optSize] at hk
                    have h1 : 1 ≤ clsSize cl := by
                      cases cl
                      · simp only [clsSize]
                        omega
                      · simp only [clsSize]
                        omega
                    omega
                  dsimp only
                  rw [insertF_eq_insert k s (highPart lo (if x < mn then mn else x)) hszs]
              · rw [if_neg hc, if_neg hc]
                rw [insertF_eq_insert k c (lowPart lo (if x < mn then mn else x)) hszc]
          · rw [if_neg hu, if_neg hu]

theorem clsSize_pos (cl : List VEB) : 1 ≤ clsSize cl := by
  cases cl
  · simp only [clsSize]
    omega
  · simp only [clsSize]
    omega

/-- Fuel-indexed body of `vEB_successor` (SUCCESSOR): least stored value
strictly above `x`, or `-1`. -/
def succF : Nat → VEB → Int → Int
  | 0, _, _ => -1
  | fuel + 1, .mk u mn mx lo _ sm cl, x =>
    if u ≤ 2 then
      if x = 0 ∧ mx = 1 then 1 else -1
    else if mn ≠ -1 ∧ x < mn then mn
    else
      let h := highPart lo x
      let l := lowPart lo x
      match clGet cl h with
      | none => -1     -- C dereferences cluster[h] here; unreachable for in-range x on well-formed trees
      | some c =>
        if c.max ≠ -1 ∧ l < c.max then idxPart lo h (succF fuel c l)
        else
          match sm with
          | none => -1 -- C dereferences summary here; unreachable for well-formed trees
          | some s =>
            let succc := succF fuel s h
            if succc = -1 then -1
            else idxPart lo succc (vEB_min (clGet cl succc))

/-- `vEB_successor` of the C source (see `vEB_successor_eq` for its recursion). -/
def vEB_successor (V : VEB) (x : Int) : Int := succF V.size V x

theorem succF_congr : ∀ (n m : Nat) (V : VEB) (x : Int),
    V.size ≤ n → V.size ≤ m → succF n V x = succF m V x := by
  intro n
  induction n with
  | zero =>
    intro m V x h1 _
    have := VEB.size_pos V
    omega
  | succ n ih =>
    intro m V x h1 h2
    match m with
    | 0 =>
      have := VEB.size_pos V
      omega
    | m + 1 =>
      match V with
      | .mk u mn mx lo up sm cl =>
        simp only [succF]
        by_cases hu : u ≤ 2
        · rw [if_pos hu, if_pos hu]
        · rw [if_neg hu, if_neg hu]
          by_cases hsc : mn ≠ -1 ∧ x < mn
          · rw [if_pos hsc, if_pos hsc]
          · rw [if_neg hsc, if_neg hsc]
            rcases hget : clGet cl (highPart lo x) with _ | c
            · simp only [hget]
            · simp only [hget]
              have hszc : c.size ≤ n ∧ c.size ≤ m := by
                have hlt := clGet_some_size hget
                simp only [VEB.size] at h1 h2
                omega
              by_cases hcm : c.max ≠ -1 ∧ lowPart lo x < c.max
              · rw [if_pos hcm, if_pos hcm]
                rw [ih m c (lowPart lo x) hszc.1 hszc.2]
              · rw [if_neg hcm, if_neg hcm]
                cases sm with
                | none => rfl
                | some s =>
                  have hszs : s.size ≤ n ∧ s.size ≤ m := by
                    simp only [VEB.size, optSize] at h1 h2
                    omega
                  dsimp only
                  rw [ih m s (highPart lo x) hszs.1 hszs.2]

theorem succF_eq_succ (n : Nat) (V : VEB) (x : Int) (h : V.size ≤ n) :
    succF n V x = vEB_successor V x :=
  succF_congr n V.size V x h (Nat.le_refl _)

/-- The recursion of C `vEB_successor`, fuel-free. -/
theorem vEB_successor_eq (u mn mx lo up : Int) (sm : Option VEB) (cl : List VEB) (x : Int) :
    vEB_successor (.mk u mn mx lo up sm cl) x =
      (if u ≤ 2 then
        if x = 0 ∧ mx = 1 then 1 else -1
      else if mn ≠ -1 ∧ x < mn then mn
      else
        let h := highPart lo x
        let l := lowPart lo x
        match clGet cl h with
        | none => -1
        | some c =>
          if c.max ≠ -1 ∧ l < c.max then idxPart lo h (vEB_successor c l)
          else
            match sm with
            | none => -1
            | some s =>
              let succc := vEB_successor s h
              if succc = -1 then -1
              else idxPart lo succc (vEB_min (clGet cl succc))) := by
  show succF ((VEB.mk u mn mx lo up sm cl).size) _ _ = _
  rcases hk : (VEB.mk u mn mx lo up sm cl).size with _ | k
  · have := VEB.size_pos (VEB.mk u mn mx lo up sm cl)
    omega
  · simp only [succF]
    by_cases hu : u ≤ 2
    · rw [if_pos hu, if_pos hu]
    · rw [if_neg hu, if_neg hu]
      by_cases hsc : mn ≠ -1 ∧ x < mn
      · rw [if_pos hsc, if_pos hsc]
      · rw [if_neg hsc, if_neg hsc]
        rcases hget : clGet cl (highPart lo x) with _ | c
        · simp only [hget]
        · simp only [hget]
          have hszc : c.size ≤ k := by
            have hlt := clGet_some_size hget
            simp only [VEB.size] at hk
            have := optSize_pos sm
            omega
          by_cases hcm : c.max ≠ -1 ∧ lowPart lo x < c.max
          · rw [if_pos hcm, if_pos hcm]
            rw [succF_eq_succ k c (lowPart lo x) hszc]
          · rw [if_neg hcm, if_neg hcm]
            cases sm with
            | none => rfl
            | some s =>
              have hszs : s.size ≤ k := by
                simp only [VEB.size, optSize] at hk
                have := clsSize_pos cl
                omega
              dsimp only
              rw [succF_eq_succ k s (highPart lo x) hszs]

/-- Fuel-indexed body of `vEB_predecessor` (PREDECESSOR): greatest stored
value strictly below `x`, or `-1`; falls back to the cached `min` (which is
not mirrored in any cluster) before giving up. -/
def predF : Nat → VEB → Int → Int
  | 0, _, _ => -1
  | fuel + 1, .mk u mn mx lo _ sm cl, x =>
    if u ≤ 2 then
      if x = 1 ∧ mn = 0 then 0 else -1
    else if mx ≠ -1 ∧ mx < x then mx
    else
      let h := highPart lo x
      let l := lowPart lo x
      match clGet cl h with
      | none => -1     -- C dereferences cluster[h] here; unreachable for in-range x on well-formed trees
      | some c =>
        if c.min ≠ -1 ∧ c.min < l then idxPart lo h (predF fuel c l)
        else
          match sm with
          | none => -1 -- C dereferences summary here; unreachable for well-formed trees
          | some s =>
            let predc := predF fuel s h
            if predc = -1 then
              if mn ≠ -1 ∧ mn < x then mn else -1
            else idxPart lo predc (vEB_max (clGet cl predc))

/-- `vEB_predecessor` of the C source (see `vEB_predecessor_eq`). -/
def vEB_predecessor (V : VEB) (x : Int) : Int := predF V.size V x

theorem predF_congr : ∀ (n m : Nat) (V : VEB) (x : Int),
    V.size ≤ n → V.size ≤ m → predF n V x = predF m V x := by
  intro n
  induction n with
  | zero =>
    intro m V x h1 _
    have := VEB.size_pos V
    omega
  | succ n ih =>
    intro m V x h1 h2
    match m with
    | 0 =>
      have := VEB.size_pos V
      omega
    | m + 1 =>
      match V with
      | .mk u mn mx lo up sm cl =>
        simp only [predF]
        by_cases hu : u ≤ 2
        · rw [if_pos hu, if_pos hu]
        · rw [if_neg hu, if_neg hu]
          by_cases hsc : mx ≠ -1 ∧ mx < x
          · rw [if_pos hsc, if_pos hsc]
          · rw [if_neg hsc, if_neg hsc]
            rcases hget : clGet cl (highPart lo x) with _ | c
            · simp only [hget]
            · simp only [hget]
              have hszc : c.size ≤ n ∧ c.size ≤ m := by
                have hlt := clGet_some_size hget
                simp only [VEB.size] at h1 h2
                omega
              by_cases hcm : c.min ≠ -1 ∧ c.min < lowPart lo x
              · rw [if_pos hcm, if_pos hcm]
                rw [ih m c (lowPart lo x) hszc.1 hszc.2]
              · rw [if_neg hcm, if_neg hcm]
                cases sm with
                | none => rfl
                | some s =>
                  have hszs : s.size ≤ n ∧ s.size ≤ m := by
                    simp only [VEB.size, optSize] at h1 h2
                    omega
                  dsimp only
                  rw [ih m s (highPart lo x) hszs.1 hszs.2]

theorem predF_eq_pred (n : Nat) (V : VEB) (x : Int) (h : V.size ≤ n) :
    predF n V x = vEB_predecessor V x :=
  predF_congr n V.size V x h (Nat.le_refl _)

/-- The recursion of C `vEB_predecessor`, fuel-free. -/
theorem vEB_predecessor_eq (u mn mx lo up : Int) (sm : Option VEB) (cl : List VEB) (x : Int) :
    vEB_predecessor (.mk u mn mx lo up sm cl) x =
      (if u ≤ 2 then
        if x = 1 ∧ mn = 0 then 0 else -1
      else if mx ≠ -1 ∧ mx < x then mx
      else
        let h := highPart lo x
        let l := lowPart lo x
        match clGet cl h with
        | none => -1
        | some c =>
          if c.min ≠ -1 ∧ c.min < l then idxPart lo h (vEB_predecessor c l)
          else
            match sm with
            | none => -1
            | some s =>
              let predc := vEB_predecessor s h
              if predc = -1 then
                if mn ≠ -1 ∧ mn < x then mn else -1
              else idxPart lo predc (vEB_max (clGet cl predc))) := by
  show predF ((VEB.mk u mn mx lo up sm cl).size) _ _ = _
  rcases hk : (VEB.mk u mn mx lo up sm cl).size with _ | k
  · have := VEB.size_pos (VEB.mk u mn mx lo up sm cl)
    omega
  · simp only [predF]
    by_cases hu : u ≤ 2
    · rw [if_pos hu, if_pos hu]
    · rw [if_neg hu, if_neg hu]
      by_cases hsc : mx ≠ -1 ∧ mx < x
      · rw [if_pos hsc, if_pos hsc]
      · rw [if_neg hsc, if_neg hsc]
        rcases hget : clGet cl (highPart lo x) with _ | c
        · simp only [hget]
        · simp only [hget]
          have hszc : c.size ≤ k := by
            have hlt := clGet_some_size hget
            simp only [VEB.size] at hk
            have := optSize_pos sm
            omega
          by_cases hcm : c.min ≠ -1 ∧ c.min < lowPart lo x
          · rw [if_pos hcm, if_pos hcm]
            rw [predF_eq_pred k c (lowPart lo x) hszc]
          · rw [if_neg hcm, if_neg hcm]
            cases sm with
            | none => rfl
            | some s =>
              have hszs : s.size ≤ k := by
                simp only [VEB.size, optSize] at hk
                have := clsSize_pos cl
                omega
              dsimp only
              rw [predF_eq_pred k s (highPart lo x) hszs]

/-- Fuel-indexed body of `vEB_delete` (DELETE).  Out-of-range `x` is reported
and the tree is left unchanged.  A `min == max` node is cleared outright; a
`u == 2` node keeps the other bit; otherwise a deleted `min` is first
replaced by the next element (pulled from the first non-empty cluster, `x1`
being the value physically removed below, `mn1` the new cached minimum),
then `x1` is removed from its cluster, the summary is updated if the
cluster drained, and `max` is recomputed when the removed value was the
maximum. -/
def deleteF : Nat → VEB → Int → VEB
  | 0, V, _ => V
  | fuel + 1, V@(.mk u mn mx lo up sm cl), x =>
    if x < 0 ∨ u ≤ x then V
    else if mn = mx then .mk u (-1) (-1) lo up sm cl
    else if u = 2 then
      let v := if x = 0 then 1 else 0
      .mk u v v lo up sm cl
    else
      let x1 := if x = mn then idxPart lo (vEB_min sm) (vEB_min (clGet cl (vEB_min sm))) else x
      let mn1 := if x = mn then x1 else mn
      let h := highPart lo x1
      let l := lowPart lo x1
      match clGet cl h with
      | none => .mk u mn1 mx lo up sm cl  -- C dereferences cluster[h] here; unreachable for well-formed trees
      | some c =>
        let c1 := deleteF fuel c l
        let cl1 := clSet cl h c1
        if c1.min = -1 then
          let sm1 := match sm with
            | none => none -- C dereferences summary here; unreachable for well-formed trees
            | some s => some (deleteF fuel s h)
          let smax := vEB_max sm1
          let mx1 := if x1 = mx then
              (if smax = -1 then mn1 else idxPart lo smax (vEB_max (clGet cl1 smax)))
            else mx
          .mk u mn1 mx1 lo up sm1 cl1
        else
          let mx1 := if x1 = mx then idxPart lo h c1.max else mx
          .mk u mn1 mx1 lo up sm cl1

/-- `vEB_delete` of the C source (see `vEB_delete_eq` for its recursion). -/
def vEB_delete (V : VEB) (x : Int) : VEB := deleteF V.size V x

theorem deleteF_congr : ∀ (n m : Nat) (V : VEB) (x : Int),
    V.size ≤ n → V.size ≤ m → deleteF n V x = deleteF m V x := by
  intro n
  induction n with
  | zero =>
    intro m V x h1 _
    have := VEB.size_pos V
    omega
  | succ n ih =>
    intro m V x h1 h2
    match m with
    | 0 =>
      have := VEB.size_pos V
      omega
    | m + 1 =>
      match V with
      | .mk u mn mx lo up sm cl =>
        simp only [deleteF]
        by_cases hb : x < 0 ∨ u ≤ x
        · rw [if_pos hb, if_pos hb]
        · rw [if_neg hb, if_neg hb]
          by_cases hmm : mn = mx
          · rw [if_pos hmm, if_pos hmm]
          · rw [if_neg hmm, if_neg hmm]
            by_cases hu2 : u = 2
            · rw [if_pos hu2, if_pos hu2]
            · rw [if_neg hu2, if_neg hu2]
              rcases hget : clGet cl (highPart lo
                  (if x = mn then idxPart lo (vEB_min sm) (vEB_min (clGet cl (vEB_min sm))) else x))
                with _ | c
              · simp only [hget]
              · simp only [hget]
                have hszc : c.size ≤ n ∧ c.size ≤ m := by
                  have hlt := clGet_some_size hget
                  simp only [VEB.size] at h1 h2
                  omega
                rw [ih m c (lowPart lo
                  (if x = mn then idxPart lo (vEB_min sm) (vEB_min (clGet cl (vEB_min sm))) else x))
                  hszc.1 hszc.2]
                by_cases hcm : (deleteF m c (lowPart lo
                    (if x = mn then idxPart lo (vEB_min sm) (vEB_min (clGet cl (vEB_min sm))) else x))).min = -1
                · rw [if_pos hcm, if_pos hcm]
                  cases sm with
                  | none => rfl
                  | some s =>
                    have hszs : s.size ≤ n ∧ s.size ≤ m := by
                      simp only [VEB.size, optSize] at h1 h2
                      omega
                    dsimp only
                    rw [ih m s (highPart lo
                      (if x = mn then idxPart lo (vEB_min (some s)) (vEB_min (clGet cl (vEB_min (some s)))) else x))
                      hszs.1 hszs.2]
                · rw [if_neg hcm, if_neg hcm]

theorem deleteF_eq_delete (n : Nat) (V : VEB) (x : Int) (h : V.size ≤ n) :
    deleteF n V x = vEB_delete V x :=
  deleteF_congr n V.size V x h (Nat.le_refl _)

/-- The recursion of C `vEB_delete`, fuel-free. -/
theorem vEB_delete_eq (u mn mx lo up : Int) (sm : Option VEB) (cl : List VEB) (x : Int) :
    vEB_delete (.mk u mn mx lo up sm cl) x =
      (if x < 0 ∨ u ≤ x then .mk u mn mx lo up sm cl
       else if mn = mx then .mk u (-1) (-1) lo up sm cl
       else if u = 2 then
         let v := if x = 0 then 1 else 0
         .mk u v v lo up sm cl
       else
         let x1 := if x = mn then idxPart lo (vEB_min sm) (vEB_min (clGet cl (vEB_min sm))) else x
         let mn1 := if x = mn then x1 else mn
         let h := highPart lo x1
         let l := lowPart lo x1
         match clGet cl h with
         | none => .mk u mn1 mx lo up sm cl
         | some c =>
           let c1 := vEB_delete c l
           let cl1 := clSet cl h c1
           if c1.min = -1 then
             let sm1 := match sm with
               | none => none
               | some s => some (vEB_delete s h)
             let smax := vEB_max sm1
             let mx1 := if x1 = mx then
                 (if smax = -1 then mn1 else idxPart lo smax (vEB_max (clGet cl1 smax)))
               else mx
             .mk u mn1 mx1 lo up sm1 cl1
           else
             let mx1 := if x1 = mx then idxPart lo h c1.max else mx
             .mk u mn1 mx1 lo up sm cl1) := by
  show deleteF ((VEB.mk u mn mx lo up sm cl).size) _ _ = _
  rcases hk : (VEB.mk u mn mx lo up sm cl).size with _ | k
  · have := VEB.size_pos (VEB.mk u mn mx lo up sm cl)
    omega
  · simp only [deleteF]
    by_cases hb : x < 0 ∨ u ≤ x
    · rw [if_pos hb, if_pos hb]
    · rw [if_neg hb, if_neg hb]
      by_cases hmm : mn = mx
      · rw [if_pos hmm, if_pos hmm]
      · rw [if_neg hmm, if_neg hmm]
        by_cases hu2 : u = 2
        · rw [if_pos hu2, if_pos hu2]
        · rw [if_neg hu2, if_neg hu2]
          rcases hget : clGet cl (highPart lo
              (if x = mn then idxPart lo (vEB_min sm) (vEB_min (clGet cl (vEB_min sm))) else x))
            with _ | c
          · simp only [hget]
          · simp only [hget]
            have hszc : c.size ≤ k := by
              have hlt := clGet_some_size hget
              simp only [VEB.size] at hk
              have := optSize_pos sm
              omega
            rw [deleteF_eq_delete k c (lowPart lo
              (if x = mn then idxPart lo (vEB_min sm) (vEB_min (clGet cl (vEB_min sm))) else x))
              hszc]
            by_cases hcm : (vEB_delete c (lowPart lo
                (if x = mn then idxPart lo (vEB_min sm) (vEB_min (clGet cl (vEB_min sm))) else x))).min = -1
            · rw [if_pos hcm, if_pos hcm]
              cases sm with
              | none => rfl
              | some s =>
                have hszs : s.size ≤ k := by
                  simp only [VEB.size, optSize] at hk
                  have := clsSize_pos cl
                  omega
                dsimp only
                rw [deleteF_eq_delete k s (highPart lo
                  (if x = mn then idxPart lo (vEB_min (some s)) (vEB_min (clGet cl (vEB_min (some s)))) else x))
                  hszs]
            · rw [if_neg hcm, if_neg hcm]

/-- Models C's `1 << n` on a non-negative shift amount. -/
def pow2 (n : Int) : Int := 2 ^ n.toNat

/-- Fuel-indexed base-2 logarithm on `Nat` (kernel-computable version of
`Nat.log2`; the fuel argument only bounds the recursion depth). -/
def log2F : Nat → Nat → Nat
  | 0, _ => 0
  | fuel + 1, n => if 2 ≤ n then log2F fuel (n / 2) + 1 else 0

theorem log2F_eq : ∀ (fuel n : Nat), n ≤ fuel → log2F fuel n = Nat.log2 n := by
  intro fuel
  induction fuel with
  | zero =>
    intro n h
    have : n = 0 := by omega
    subst this
    simp [log2F, Nat.log2]
  | succ fuel ih =>
    intro n h
    simp only [log2F]
    by_cases h2 : 2 ≤ n
    · rw [if_pos h2]
      have hlt : n / 2 ≤ fuel := by omega
      rw [ih (n / 2) hlt]
      conv_rhs => rw [Nat.log2]
      rw [if_pos h2]
    · rw [if_neg h2]
      rw [Nat.log2]
      rw [if_neg h2]

/-- C helper `log2_int`: `(int)round(log2(x))`, exact on powers of two
(the only inputs `vEB_create` accepts). -/
def log2_int (x : Int) : Int := (log2F x.toNat x.toNat : Int)

theorem log2_int_eq (x : Int) : log2_int x = (Nat.log2 x.toNat : Int) := by
  simp [log2_int, log2F_eq x.toNat x.toNat (Nat.le_refl _)]

theorem pow2_pos (n : Int) : 0 < pow2 n := by
  simp only [pow2]
  positivity

/-- Both split sizes computed by `vEB_create` are strictly smaller than `U`
when `U > 2`, which is what makes the eager construction terminate. -/
theorem create_meas (U : Int) (hU : 2 < U) :
    pow2 (log2_int U - Int.tdiv (log2_int U) 2) < U ∧
    pow2 (Int.tdiv (log2_int U) 2) < U := by
  have hn : 3 ≤ U.toNat := by omega
  have hn0 : U.toNat ≠ 0 := by omega
  have h2L : 2 ^ Nat.log2 U.toNat ≤ U.toNat := Nat.log2_self_le hn0
  have hL1 : 1 ≤ Nat.log2 U.toNat := (Nat.le_log2 hn0).mpr (by omega)
  set L := Nat.log2 U.toNat with hLdef
  have hlg : log2_int U = (L : Int) := by simp [log2_int_eq]
  have htd : Int.tdiv (L : Int) 2 = ((L / 2 : Nat) : Int) := (Int.ofNat_tdiv L 2).symm
  have hsub : (L : Int) - ((L / 2 : Nat) : Int) = ((L - L / 2 : Nat) : Int) := by
    have : L / 2 ≤ L := Nat.div_le_self L 2
    omega
  have hpow : ∀ k : Nat, pow2 ((k : Nat) : Int) = ((2 ^ k : Nat) : Int) := by
    intro k
    simp [pow2]
  have hup : 2 ^ (L - L / 2) < U.toNat := by
    rcases Nat.lt_or_ge L 2 with hL2 | hL2
    · have hEq : L = 1 := by omega
      rw [hEq]
      norm_num
      omega
    · have h1 : L - L / 2 ≤ L - 1 := by omega
      have h2 : (2 : Nat) ^ (L - L / 2) ≤ 2 ^ (L - 1) := Nat.pow_le_pow_right (by omega) h1
      have h3 : (2 : Nat) ^ (L - 1) < 2 ^ L := Nat.pow_lt_pow_right (by omega) (by omega)
      omega
  have hlow : 2 ^ (L / 2) ≤ 2 ^ (L - L / 2) := Nat.pow_le_pow_right (by omega) (by omega)
  rw [hlg, htd, hsub, hpow, hpow]
  omega

/-- Fuel-indexed body of `vEB_create`: eager recursive construction.  For
`U ≤ 2` a base node; otherwise the balanced power-of-two split with a
summary of size `upper_sqrt` and `upper_sqrt` clusters of size
`lower_sqrt`.  (For invalid `U` the C code terminates the process; such `U`
is never used below.) -/
def createF : Nat → Int → VEB
  | 0, U => .mk U (-1) (-1) 0 0 none []
  | fuel + 1, U =>
    if 2 < U then
      let lg := log2_int U
      let half := Int.tdiv lg 2
      let lower := pow2 half
      let upper := pow2 (lg - half)
      .mk U (-1) (-1) lower upper (some (createF fuel upper))
        (List.replicate upper.toNat (createF fuel lower))
    else .mk U (-1) (-1) 0 0 none []

/-- `vEB_create` of the C source (see `vEB_create_eq` for its recursion). -/
def vEB_create (U : Int) : VEB := createF U.toNat U

theorem createF_congr : ∀ (n m : Nat) (U : Int),
    U.toNat ≤ n → U.toNat ≤ m → createF n U = createF m U := by
  intro n
  induction n with
  | zero =>
    intro m U h1 _
    have hU : ¬2 < U := by omega
    match m with
    | 0 => rfl
    | m + 1 =>
      simp only [createF]
      rw [if_neg hU]
  | succ n ih =>
    intro m U h1 h2
    match m with
    | 0 =>
      have hU : ¬2 < U := by omega
      simp only [createF]
      rw [if_neg hU]
    | m + 1 =>
      simp only [createF]
      by_cases hU : 2 < U
      · rw [if_pos hU, if_pos hU]
        have hm := create_meas U hU
        have hupnn := pow2_pos (log2_int U - Int.tdiv (log2_int U) 2)
        have hlonn := pow2_pos (Int.tdiv (log2_int U) 2)
        rw [ih m (pow2 (log2_int U - Int.tdiv (log2_int U) 2)) (by omega) (by omega)]
        rw [ih m (pow2 (Int.tdiv (log2_int U) 2)) (by omega) (by omega)]
      · rw [if_neg hU, if_neg hU]

theorem createF_eq_create (n : Nat) (U : Int) (h : U.toNat ≤ n) :
    createF n U = vEB_create U :=
  createF_congr n U.toNat U h (Nat.le_refl _)

/-- The recursion of C `vEB_create`, fuel-free. -/
theorem vEB_create_eq (U : Int) :
    vEB_create U =
      (if 2 < U then
        let lg := log2_int U
        let half := Int.tdiv lg 2
        let lower := pow2 half
        let upper := pow2 (lg - half)
        .mk U (-1) (-1) lower upper (some (vEB_create upper))
          (List.replicate upper.toNat (vEB_create lower))
      else .mk U (-1) (-1) 0 0 none []) := by
  show createF U.toNat U = _
  by_cases hU : 2 < U
  · rcases hk : U.toNat with _ | k
    · omega
    · simp only [createF]
      rw [if_pos hU, if_pos hU]
      have hm := create_meas U hU
      have hupnn := pow2_pos (log2_int U - Int.tdiv (log2_int U) 2)
      have hlonn := pow2_pos (Int.tdiv (log2_int U) 2)
      rw [createF_eq_create k (pow2 (log2_int U - Int.tdiv (log2_int U) 2)) (by omega)]
      rw [createF_eq_create k (pow2 (Int.tdiv (log2_int U) 2)) (by omega)]
  · rcases hk : U.toNat with _ | k
    · simp only [createF]
      rw [if_neg hU]
    · simp only [createF]
      rw [if_neg hU, if_neg hU]

/-! ## Arithmetic facts about the high/low/idx key split -/

theorem highPart_eq_ediv (lo x : Int) (hx : 0 ≤ x) (hlo : 0 ≤ lo) :
    highPart lo x = x / lo := Int.tdiv_eq_ediv hx hlo

theorem lowPart_eq_emod (lo x : Int) (hx : 0 ≤ x) (hlo : 0 ≤ lo) :
    lowPart lo x = x % lo := Int.tmod_eq_emod hx hlo

theorem highPart_nonneg (lo x : Int) (hx : 0 ≤ x) (hlo : 0 < lo) : 0 ≤ highPart lo x := by
  rw [highPart_eq_ediv lo x hx (le_of_lt hlo)]
  exact Int.ediv_nonneg hx (le_of_lt hlo)

theorem highPart_lt (lo up x : Int) (hx : 0 ≤ x) (hlo : 0 < lo)
    (h : x < lo * up) : highPart lo x < up := by
  rw [highPart_eq_ediv lo x hx (le_of_lt hlo)]
  rw [Int.ediv_lt_iff_lt_mul hlo]
  nlinarith

theorem lowPart_bounds (lo x : Int) (hx : 0 ≤ x) (hlo : 0 < lo) :
    0 ≤ lowPart lo x ∧ lowPart lo x < lo := by
  rw [lowPart_eq_emod lo x hx (le_of_lt hlo)]
  exact ⟨Int.emod_nonneg x (by omega), Int.emod_lt_of_pos x hlo⟩

theorem idx_split (lo x : Int) (hx : 0 ≤ x) (hlo : 0 < lo) :
    idxPart lo (highPart lo x) (lowPart lo x) = x := by
  rw [highPart_eq_ediv lo x hx (le_of_lt hlo), lowPart_eq_emod lo x hx (le_of_lt hlo)]
  unfold idxPart
  rw [Int.mul_comm]
  exact Int.ediv_add_emod x lo

theorem idx_high (lo h l : Int) (hh : 0 ≤ h) (hl : 0 ≤ l) (hllo : l < lo) :
    highPart lo (idxPart lo h l) = h := by
  have hlo : 0 < lo := by omega
  have hnn : 0 ≤ idxPart lo h l := by
    unfold idxPart
    positivity
  rw [highPart_eq_ediv lo _ hnn (le_of_lt hlo)]
  unfold idxPart
  rw [show h * lo + l = l + lo * h by ring]
  rw [Int.add_mul_ediv_left l h (by omega : lo ≠ 0)]
  rw [Int.ediv_eq_zero_of_lt hl hllo]
  omega

theorem idx_low (lo h l : Int) (hh : 0 ≤ h) (hl : 0 ≤ l) (hllo : l < lo) :
    lowPart lo (idxPart lo h l) = l := by
  have hlo : 0 < lo := by omega
  have hnn : 0 ≤ idxPart lo h l := by
    unfold idxPart
    positivity
  rw [lowPart_eq_emod lo _ hnn (le_of_lt hlo)]
  unfold idxPart
  rw [show h * lo + l = l + h * lo by ring]
  rw [Int.add_mul_emod_self]
  exact Int.emod_eq_of_lt hl hllo

theorem idx_lt (lo up h l : Int) (hh : h < up) (hl : 0 ≤ l) (hllo : l < lo) :
    idxPart lo h l < lo * up := by
  unfold idxPart
  nlinarith [hllo, hl, hh]

theorem idx_nonneg (lo h l : Int) (hh : 0 ≤ h) (hl : 0 ≤ l) (hlo : 0 < lo) :
    0 ≤ idxPart lo h l := by
  unfold idxPart
  positivity

/-- Base-`lo` comparison: splitting orders keys lexicographically. -/
theorem idx_lt_idx (lo h1 l1 h2 l2 : Int) (hl1 : 0 ≤ l1) (hl1lo : l1 < lo)
    (hl2 : 0 ≤ l2) (hl2lo : l2 < lo) :
    idxPart lo h1 l1 < idxPart lo h2 l2 ↔ (h1 < h2 ∨ (h1 = h2 ∧ l1 < l2)) := by
  unfold idxPart
  constructor
  · intro h
    rcases lt_trichotomy h1 h2 with hc | hc | hc
    · exact Or.inl hc
    · exact Or.inr ⟨hc, by nlinarith⟩
    · exfalso
      nlinarith
  · intro h
    rcases h with hc | ⟨hc, hl⟩
    · nlinarith
    · nlinarith

/-! ## Cluster array access and update -/

theorem clSet_length (cl : List VEB) (i : Int) (c : VEB) :
    (clSet cl i c).length = cl.length := by
  unfold clSet
  split
  · rfl
  · exact List.length_set cl i.toNat c

theorem mem_clSet (cl : List VEB) (i : Int) (c d : VEB) (h : d ∈ clSet cl i c) :
    d ∈ cl ∨ d = c := by
  unfold clSet at h
  split at h
  · exact Or.inl h
  · rcases List.mem_or_eq_of_mem_set h with h1 | h1
    · exact Or.inl h1
    · exact Or.inr h1

theorem clGet_pos (cl : List VEB) (i : Int) (h0 : 0 ≤ i) (hlen : i.toNat < cl.length) :
    ∃ c, clGet cl i = some c ∧ c ∈ cl := by
  unfold clGet
  rw [if_neg (by omega)]
  rcases List.get?_eq_get hlen with h
  exact ⟨cl.get ⟨i.toNat, hlen⟩, h, List.get_mem cl _ _⟩

theorem clGet_mem {cl : List VEB} {i : Int} {c : VEB} (h : clGet cl i = some c) : c ∈ cl := by
  unfold clGet at h
  split at h
  · exact absurd h (by simp)
  · exact List.get?_mem h

theorem clGet_clSet_self (cl : List VEB) (i : Int) (c : VEB)
    (h0 : 0 ≤ i) (hlen : i.toNat < cl.length) :
    clGet (clSet cl i c) i = some c := by
  unfold clGet clSet
  rw [if_neg (show ¬i < 0 by omega), if_neg (show ¬i < 0 by omega)]
  exact List.get?_set_eq_of_lt c hlen

theorem clGet_clSet_ne (cl : List VEB) (i j : Int) (c : VEB)
    (h0 : 0 ≤ i) (hne : j ≠ i) :
    clGet (clSet cl i c) j = clGet cl j := by
  by_cases hj : j < 0
  · unfold clGet clSet
    rw [if_pos hj, if_pos hj]
  · have hi : ¬i < 0 := by omega
    unfold clGet clSet
    rw [if_neg hj, if_neg hi, if_neg hj]
    have hne2 : i.toNat ≠ j.toNat := by omega
    exact List.get?_set_ne c cl hne2

/-! ## The structural skeleton of every tree built by `vEB_create`

`Skel` records exactly the shape facts that no operation ever mutates:
the power-of-two split at internal nodes, the presence and size of the
summary, the cluster count and sizes, and (at base nodes) that the cached
fields stay in `{-1, 0, 1}`. -/

inductive Skel : VEB → Prop where
  | base (mn mx : Int) :
      (mn = -1 ∨ mn = 0 ∨ mn = 1) → (mx = -1 ∨ mx = 0 ∨ mx = 1) →
      Skel (.mk 2 mn mx 0 0 none [])
  | node (mn mx lo up : Int) (s : VEB) (cl : List VEB) (a b : Nat) :
      1 ≤ a → 1 ≤ b → lo = (2 : Int) ^ a → up = (2 : Int) ^ b →
      mn < lo * up →
      Skel s → s.u = up →
      cl.length = up.toNat →
      (∀ c ∈ cl, Skel c) → (∀ c ∈ cl, c.u = lo) →
      Skel (.mk (lo * up) mn mx lo up (some s) cl)

/-- Trees reachable through the public API with in-range arguments
(this is the reading of "reachable" used by the claims: any sequence of
`Insert`/`Delete` calls whose argument passes the bounds check). -/
inductive Reach : VEB → Prop where
  | create (U : Int) (k : Nat) : 1 ≤ k → U = 2 ^ k → Reach (vEB_create U)
  | ins (V : VEB) (x : Int) : Reach V → 0 ≤ x → x < V.u → Reach (vEB_insert V x)
  | del (V : VEB) (x : Int) : Reach V → 0 ≤ x → x < V.u → Reach (vEB_delete V x)

/-- Trees reachable when `Delete` is only ever applied to a value that is
currently a member (the CLRS precondition for vEB deletion). -/
inductive GoodReach : VEB → Prop where
  | create (U : Int) (k : Nat) : 1 ≤ k → U = 2 ^ k → GoodReach (vEB_create U)
  | ins (V : VEB) (x : Int) : GoodReach V → 0 ≤ x → x < V.u → GoodReach (vEB_insert V x)
  | del (V : VEB) (x : Int) : GoodReach V → 0 ≤ x → vEB_member (some V) x = true →
      GoodReach (vEB_delete V x)

/-! ## Facts used throughout: operations never change the universe size -/

theorem vEB_insert_u (V : VEB) (x : Int) : (vEB_insert V x).u = V.u := by
  rcases V with ⟨u, mn, mx, lo, up, sm, cl⟩
  rw [vEB_insert_eq]
  dsimp only
  repeat' split
  all_goals simp [VEB.u, vEB_empty_insert]

theorem vEB_delete_u (V : VEB) (x : Int) : (vEB_delete V x).u = V.u := by
  rcases V with ⟨u, mn, mx, lo, up, sm, cl⟩
  rw [vEB_delete_eq]
  dsimp only
  repeat' split
  all_goals simp [VEB.u]

theorem vEB_create_u (U : Int) : (vEB_create U).u = U := by
  rw [vEB_create_eq]
  dsimp only
  split
  · simp [VEB.u]
  · simp [VEB.u]

/-! ## `vEB_create` on a power of two builds the skeleton -/

theorem two_pow_toNat (k : Nat) : ((2 : Int) ^ k).toNat = 2 ^ k := by
  have h : ((2 : Int) ^ k) = ((2 ^ k : Nat) : Int) := by
    push_cast
    ring
  rw [h]
  exact Int.toNat_natCast _

theorem pow2_natCast (j : Nat) : pow2 ((j : Nat) : Int) = (2 : Int) ^ j := by
  simp [pow2]

theorem log2_int_two_pow (k : Nat) : log2_int ((2 : Int) ^ k) = (k : Int) := by
  rw [log2_int_eq, two_pow_toNat, Nat.log2_two_pow]

theorem two_le_two_pow (a : Nat) (ha : 1 ≤ a) : (2 : Int) ≤ 2 ^ a := by
  calc (2 : Int) = 2 ^ 1 := by norm_num
  _ ≤ 2 ^ a := pow_le_pow_right (by norm_num) ha

theorem create_two_pow_skel : ∀ (k : Nat), 1 ≤ k → Skel (vEB_create ((2 : Int) ^ k)) := by
  intro k
  induction k using Nat.strong_induction_on with
  | _ k ih =>
    intro hk
    by_cases hk1 : k = 1
    · subst hk1
      rw [vEB_create_eq]
      rw [if_neg (by norm_num)]
      exact Skel.base (-1) (-1) (Or.inl rfl) (Or.inl rfl)
    · have hk2 : 2 ≤ k := by omega
      have hU : (2 : Int) < 2 ^ k := by
        calc (2 : Int) < 4 := by norm_num
        _ = 2 ^ 2 := by norm_num
        _ ≤ 2 ^ k := pow_le_pow_right (by norm_num) hk2
      rw [vEB_create_eq]
      rw [if_pos hU]
      dsimp only
      rw [log2_int_two_pow]
      rw [show Int.tdiv (k : Int) 2 = ((k / 2 : Nat) : Int) from (Int.ofNat_tdiv k 2).symm]
      rw [show (k : Int) - ((k / 2 : Nat) : Int) = ((k - k / 2 : Nat) : Int) from by
        have : k / 2 ≤ k := Nat.div_le_self k 2
        omega]
      rw [pow2_natCast, pow2_natCast]
      have hsplit : (2 : Int) ^ k = 2 ^ (k / 2) * 2 ^ (k - k / 2) := by
        rw [← pow_add]
        congr 1
        omega
      rw [hsplit]
      have hlow1 : 1 ≤ k / 2 := by omega
      have hup1 : 1 ≤ k - k / 2 := by omega
      have hlowlt : k / 2 < k := by omega
      have huplt : k - k / 2 < k := by omega
      have hposuu : (0 : Int) < 2 ^ (k / 2) * 2 ^ (k - k / 2) := by positivity
      refine Skel.node (-1) (-1) _ _ _ _ (k / 2) (k - k / 2) hlow1 hup1 rfl rfl (by omega)
        (ih (k - k / 2) huplt hup1) (vEB_create_u _) ?_ ?_ ?_
      · exact List.length_replicate _ _
      · intro c hc
        rw [List.eq_of_mem_replicate hc]
        exact ih (k / 2) hlowlt hlow1
      · intro c hc
        rw [List.eq_of_mem_replicate hc]
        exact vEB_create_u _

/-! ## The operations preserve the skeleton (for any argument, member or
not, in range or not: the bounds guards and the fixed array layout make the
shape immutable) -/

theorem skel_min_lt (V : VEB) (h : Skel V) : V.min < V.u := by
  cases h with
  | base mn mx hmn hmx =>
    simp only [VEB.min, VEB.u]
    omega
  | node mn mx lo up s cl a b ha1 hb1 hloPow hupPow hmnu hSs hsu hlen hSallc hallu =>
    simpa only [VEB.min, VEB.u] using hmnu

theorem skel_empty_insert (c : VEB) (l : Int) (hS : Skel c) (h0 : 0 ≤ l) (hu : l < c.u) :
    Skel (vEB_empty_insert c l) := by
  cases hS with
  | base mn mx hmn hmx =>
    simp only [VEB.u] at hu
    exact Skel.base l l (by omega) (by omega)
  | node mn mx lo up s cl a b ha1 hb1 hloPow hupPow hmnu hSs hsu hlen hSallc hallu =>
    simp only [VEB.u] at hu
    exact Skel.node l l lo up s cl a b ha1 hb1 hloPow hupPow hu hSs hsu hlen hSallc hallu

theorem empty_insert_u (c : VEB) (l : Int) : (vEB_empty_insert c l).u = c.u := by
  cases c
  rfl

theorem skel_insert (V : VEB) (hS : Skel V) : ∀ x : Int, Skel (vEB_insert V x) := by
  induction hS with
  | base mn mx hmn hmx =>
    intro x
    rw [vEB_insert_eq]
    by_cases hbnd : x < 0 ∨ (2 : Int) ≤ x
    · rw [if_pos hbnd]
      exact Skel.base mn mx hmn hmx
    · rw [if_neg hbnd]
      by_cases hmem : vEB_member (some (VEB.mk 2 mn mx 0 0 none [])) x = true
      · rw [if_pos hmem]
        exact Skel.base mn mx hmn hmx
      · rw [if_neg hmem]
        by_cases hmn1 : mn = -1
        · rw [if_pos hmn1]
          exact Skel.base x x (by omega) (by omega)
        · rw [if_neg hmn1]
          dsimp only
          rw [if_neg (by norm_num : ¬(2 : Int) < 2)]
          refine Skel.base _ _ ?_ ?_
          · split
            · omega
            · omega
          · repeat' split
            all_goals omega
  | node mn mx lo up s cl a b ha1 hb1 hloPow hupPow hmnu hSs hsu hlen hSallc hallu ih_s ih_cl =>
    intro x
    have hlo2 : (2 : Int) ≤ lo := hloPow ▸ two_le_two_pow a ha1
    have hup2 : (2 : Int) ≤ up := hupPow ▸ two_le_two_pow b hb1
    have hu4 : (4 : Int) ≤ lo * up := by nlinarith
    rw [vEB_insert_eq]
    by_cases hbnd : x < 0 ∨ lo * up ≤ x
    · rw [if_pos hbnd]
      exact Skel.node mn mx lo up s cl a b ha1 hb1 hloPow hupPow hmnu hSs hsu hlen hSallc hallu
    · rw [if_neg hbnd]
      by_cases hmem : vEB_member (some (VEB.mk (lo * up) mn mx lo up (some s) cl)) x = true
      · rw [if_pos hmem]
        exact Skel.node mn mx lo up s cl a b ha1 hb1 hloPow hupPow hmnu hSs hsu hlen hSallc hallu
      · rw [if_neg hmem]
        by_cases hmn1 : mn = -1
        · rw [if_pos hmn1]
          exact Skel.node x x lo up s cl a b ha1 hb1 hloPow hupPow (by omega) hSs hsu hlen hSallc hallu
        · rw [if_neg hmn1]
          dsimp only
          rw [if_pos (by omega : (2 : Int) < lo * up)]
          have hx1nn : 0 ≤ (if x < mn then mn else x) := by
            split
            · omega
            · omega
          rcases hget : clGet cl (highPart lo (if x < mn then mn else x)) with _ | c
          · simp only [hget]
            exact Skel.node mn mx lo up s cl a b ha1 hb1 hloPow hupPow hmnu hSs hsu hlen hSallc hallu
          · simp only [hget]
            have hcmem : c ∈ cl := clGet_mem hget
            have hcu : c.u = lo := hallu c hcmem
            have hlbounds := lowPart_bounds lo (if x < mn then mn else x) hx1nn (by omega)
            by_cases hcmin : c.min = -1
            · rw [if_pos hcmin]
              try dsimp only
              refine Skel.node _ _ lo up _ _ a b ha1 hb1 hloPow hupPow
                (by split <;> omega)
                (ih_s (highPart lo (if x < mn then mn else x)))
                (by rw [vEB_insert_u]; exact hsu)
                (by rw [clSet_length]; exact hlen) ?_ ?_
              · intro d hd
                rcases mem_clSet _ _ _ _ hd with hdin | hdeq
                · exact hSallc d hdin
                · subst hdeq
                  exact skel_empty_insert c _ (hSallc c hcmem) hlbounds.1 (by omega)
              · intro d hd
                rcases mem_clSet _ _ _ _ hd with hdin | hdeq
                · exact hallu d hdin
                · subst hdeq
                  rw [empty_insert_u]
                  exact hcu
            · rw [if_neg hcmin]
              try dsimp only
              refine Skel.node _ _ lo up s _ a b ha1 hb1 hloPow hupPow
                (by split <;> omega) hSs hsu
                (by rw [clSet_length]; exact hlen) ?_ ?_
              · intro d hd
                rcases mem_clSet _ _ _ _ hd with hdin | hdeq
                · exact hSallc d hdin
                · subst hdeq
                  exact ih_cl c hcmem _
              · intro d hd
                rcases mem_clSet _ _ _ _ hd with hdin | hdeq
                · exact hallu d hdin
                · subst hdeq
                  rw [vEB_insert_u]
                  exact hcu

theorem skel_delete (V : VEB) (hS : Skel V) : ∀ x : Int, Skel (vEB_delete V x) := by
  induction hS with
  | base mn mx hmn hmx =>
    intro x
    rw [vEB_delete_eq]
    by_cases hbnd : x < 0 ∨ (2 : Int) ≤ x
    · rw [if_pos hbnd]
      exact Skel.base mn mx hmn hmx
    · rw [if_neg hbnd]
      by_cases hmm : mn = mx
      · rw [if_pos hmm]
        exact Skel.base (-1) (-1) (Or.inl rfl) (Or.inl rfl)
      · rw [if_neg hmm]
        rw [if_pos (rfl : (2 : Int) = 2)]
        dsimp only
        refine Skel.base _ _ ?_ ?_
        · split
          · omega
          · omega
        · split
          · omega
          · omega
  | node mn mx lo up s cl a b ha1 hb1 hloPow hupPow hmnu hSs hsu hlen hSallc hallu ih_s ih_cl =>
    intro x
    have hlo2 : (2 : Int) ≤ lo := hloPow ▸ two_le_two_pow a ha1
    have hup2 : (2 : Int) ≤ up := hupPow ▸ two_le_two_pow b hb1
    have hu4 : (4 : Int) ≤ lo * up := by nlinarith
    have hsmin : s.min < up := by
      have h1 := skel_min_lt s hSs
      rwa [hsu] at h1
    have hofflt : vEB_min (clGet cl (vEB_min (some s))) < lo := by
      rcases hoc : clGet cl (vEB_min (some s)) with _ | c0
      · simp only [vEB_min]
        omega
      · have h1 := skel_min_lt c0 (hSallc c0 (clGet_mem hoc))
        have h2 := hallu c0 (clGet_mem hoc)
        simp only [vEB_min]
        omega
    have hPlt : idxPart lo (vEB_min (some s)) (vEB_min (clGet cl (vEB_min (some s)))) < lo * up := by
      simp only [vEB_min]
      unfold idxPart
      have h3 : s.min * lo ≤ (up - 1) * lo := mul_le_mul_of_nonneg_right (by omega) (by omega)
      simp only [vEB_min] at hofflt
      nlinarith
    rw [vEB_delete_eq]
    by_cases hbnd : x < 0 ∨ lo * up ≤ x
    · rw [if_pos hbnd]
      exact Skel.node mn mx lo up s cl a b ha1 hb1 hloPow hupPow hmnu hSs hsu hlen hSallc hallu
    · rw [if_neg hbnd]
      by_cases hmm : mn = mx
      · rw [if_pos hmm]
        exact Skel.node (-1) (-1) lo up s cl a b ha1 hb1 hloPow hupPow (by omega) hSs hsu hlen hSallc hallu
      · rw [if_neg hmm]
        rw [if_neg (by omega : ¬lo * up = 2)]
        dsimp only
        rcases hget : clGet cl (highPart lo (if x = mn then
            idxPart lo (vEB_min (some s)) (vEB_min (clGet cl (vEB_min (some s)))) else x)) with _ | c
        · simp only [hget]
          refine Skel.node _ mx lo up s cl a b ha1 hb1 hloPow hupPow ?_ hSs hsu hlen hSallc hallu
          repeat' split
          all_goals omega
        · simp only [hget]
          have hcmem : c ∈ cl := clGet_mem hget
          have hcu : c.u = lo := hallu c hcmem
          by_cases hc1 : (vEB_delete c (lowPart lo (if x = mn then
              idxPart lo (vEB_min (some s)) (vEB_min (clGet cl (vEB_min (some s)))) else x))).min = -1
          · rw [if_pos hc1]
            try dsimp only
            refine Skel.node _ _ lo up _ _ a b ha1 hb1 hloPow hupPow
              (by repeat' split
                  all_goals omega)
              (ih_s _) (by rw [vEB_delete_u]; exact hsu)
              (by rw [clSet_length]; exact hlen) ?_ ?_
            · intro d hd
              rcases mem_clSet _ _ _ _ hd with hdin | hdeq
              · exact hSallc d hdin
              · subst hdeq
                exact ih_cl c hcmem _
            · intro d hd
              rcases mem_clSet _ _ _ _ hd with hdin | hdeq
              · exact hallu d hdin
              · subst hdeq
                rw [vEB_delete_u]
                exact hcu
          · rw [if_neg hc1]
            try dsimp only
            refine Skel.node _ _ lo up s _ a b ha1 hb1 hloPow hupPow
              (by repeat' split
                  all_goals omega) hSs hsu
              (by rw [clSet_length]; exact hlen) ?_ ?_
            · intro d hd
              rcases mem_clSet _ _ _ _ hd with hdin | hdeq
              · exact hSallc d hdin
              · subst hdeq
                exact ih_cl c hcmem _
            · intro d hd
              rcases mem_clSet _ _ _ _ hd with hdin | hdeq
              · exact hallu d hdin
              · subst hdeq
                rw [vEB_delete_u]
                exact hcu

theorem reach_skel (V : VEB) (hR : Reach V) : Skel V := by
  induction hR with
  | create U k hk hU =>
    subst hU
    exact create_two_pow_skel k hk
  | ins V x _ _ _ ih => exact skel_insert V ih x
  | del V x _ _ _ ih => exact skel_delete V ih x

theorem member_empty_insert_self (c : VEB) (l : Int) :
    vEB_member (some (vEB_empty_insert c l)) l = true := by
  rcases c with ⟨cu, cmn, cmx, clo, cup, csm, ccl⟩
  show vEB_member (some (VEB.mk cu l l clo cup csm ccl)) l = true
  rw [vEB_member_eq]
  rw [if_pos (Or.inl rfl)]

/-- Inserting an in-range value into any tree of the create-skeleton makes
it a member (this needs no semantic invariant at all: only the immutable
shape and the `min < u` bound). -/
theorem skel_insert_member (V : VEB) (hS : Skel V) :
    ∀ x : Int, 0 ≤ x → x < V.u → vEB_member (some (vEB_insert V x)) x = true := by
  induction hS with
  | base mn mx hmn hmx =>
    intro x h0 hu
    simp only [VEB.u] at hu
    rw [vEB_insert_eq]
    rw [if_neg (by omega : ¬(x < 0 ∨ (2 : Int) ≤ x))]
    by_cases hmem : vEB_member (some (VEB.mk 2 mn mx 0 0 none [])) x = true
    · rw [if_pos hmem]
      exact hmem
    · rw [if_neg hmem]
      have hne : ¬(x = mn ∨ x = mx) := by
        intro hor
        apply hmem
        rw [vEB_member_eq]
        rw [if_pos hor]
      push_neg at hne
      by_cases hmn1 : mn = -1
      · rw [if_pos hmn1]
        exact member_empty_insert_self _ x
      · rw [if_neg hmn1]
        dsimp only
        rw [if_neg (by norm_num : ¬(2 : Int) < 2)]
        by_cases hx : x < mn
        · rw [if_pos hx, if_pos hx]
          rw [vEB_member_eq]
          rw [if_pos (Or.inl rfl)]
        · rw [if_neg hx, if_neg hx]
          rw [vEB_member_eq]
          by_cases hmx1 : mx < x
          · rw [if_pos hmx1]
            rw [if_pos (Or.inr rfl)]
          · exfalso
            omega
  | node mn mx lo up s cl a b ha1 hb1 hloPow hupPow hmnu hSs hsu hlen hSallc hallu ih_s ih_cl =>
    intro x h0 hu
    simp only [VEB.u] at hu
    have hlo2 : (2 : Int) ≤ lo := hloPow ▸ two_le_two_pow a ha1
    have hup2 : (2 : Int) ≤ up := hupPow ▸ two_le_two_pow b hb1
    have hu4 : (4 : Int) ≤ lo * up := by nlinarith
    rw [vEB_insert_eq]
    rw [if_neg (by omega : ¬(x < 0 ∨ lo * up ≤ x))]
    by_cases hmem : vEB_member (some (VEB.mk (lo * up) mn mx lo up (some s) cl)) x = true
    · rw [if_pos hmem]
      exact hmem
    · rw [if_neg hmem]
      have hne : ¬(x = mn ∨ x = mx) := by
        intro hor
        apply hmem
        rw [vEB_member_eq]
        rw [if_pos hor]
      push_neg at hne
      by_cases hmn1 : mn = -1
      · rw [if_pos hmn1]
        exact member_empty_insert_self _ x
      · rw [if_neg hmn1]
        dsimp only
        rw [if_pos (by omega : (2 : Int) < lo * up)]
        by_cases hx : x < mn
        · rw [if_pos hx, if_pos hx]
          have hmn0 : 0 ≤ mn := by omega
          have hh0 : 0 ≤ highPart lo mn := highPart_nonneg lo mn hmn0 (by omega)
          have hhlt : highPart lo mn < up := highPart_lt lo up mn hmn0 (by omega) hmnu
          obtain ⟨c, hget, hcmem⟩ := clGet_pos cl (highPart lo mn) hh0 (by omega)
          simp only [hget]
          by_cases hcmin : c.min = -1
          · rw [if_pos hcmin]
            try dsimp only
            rw [vEB_member_eq]
            rw [if_pos (Or.inl rfl)]
          · rw [if_neg hcmin]
            try dsimp only
            rw [vEB_member_eq]
            rw [if_pos (Or.inl rfl)]
        · rw [if_neg hx, if_neg hx]
          have hh0 : 0 ≤ highPart lo x := highPart_nonneg lo x h0 (by omega)
          have hhlt : highPart lo x < up := highPart_lt lo up x h0 (by omega) hu
          obtain ⟨c, hget, hcmem⟩ := clGet_pos cl (highPart lo x) hh0 (by omega)
          simp only [hget]
          have hlb := lowPart_bounds lo x h0 (by omega)
          by_cases hcmin : c.min = -1
          · rw [if_pos hcmin]
            try dsimp only
            rw [vEB_member_eq]
            by_cases hfst : x = mn ∨ x = (if mx < x then x else mx)
            · rw [if_pos hfst]
            · rw [if_neg hfst]
              rw [if_neg (by omega : ¬lo * up ≤ 2)]
              rw [clGet_clSet_self cl (highPart lo x) _ hh0 (by omega)]
              exact member_empty_insert_self c (lowPart lo x)
          · rw [if_neg hcmin]
            try dsimp only
            rw [vEB_member_eq]
            by_cases hfst : x = mn ∨ x = (if mx < x then x else mx)
            · rw [if_pos hfst]
            · rw [if_neg hfst]
              rw [if_neg (by omega : ¬lo * up ≤ 2)]
              rw [clGet_clSet_self cl (highPart lo x) _ hh0 (by omega)]
              exact ih_cl c hcmem (lowPart lo x) hlb.1 (by rw [hallu c hcmem]; exact hlb.2)

/-- Inserting a value that is already a member is a literal no-op. -/
theorem vEB_insert_of_member (V : VEB) (x : Int) (hb : ¬(x < 0 ∨ V.u ≤ x))
    (h : vEB_member (some V) x = true) : vEB_insert V x = V := by
  rcases V with ⟨u, mn, mx, lo, up, sm, cl⟩
  simp only [VEB.u] at hb
  rw [vEB_insert_eq]
  rw [if_neg hb, if_pos h]

/-- Per-node recursion structure: every node either is a base case (`u ≤ 2`,
no children) or has a summary and clusters of strictly smaller universe
sizes; stated hereditarily for all descendants. -/
inductive DescOk : VEB → Prop where
  | base (V : VEB) : V.u ≤ 2 → V.summary = none → V.cluster = [] → DescOk V
  | node (V : VEB) (s : VEB) : 2 < V.u → V.summary = some s →
      2 ≤ V.lower_sqrt → V.lower_sqrt < V.u → 2 ≤ V.upper_sqrt → V.upper_sqrt < V.u →
      V.u = V.lower_sqrt * V.upper_sqrt →
      s.u = V.upper_sqrt → (∀ c ∈ V.cluster, c.u = V.lower_sqrt) →
      DescOk s → (∀ c ∈ V.cluster, DescOk c) → DescOk V

theorem skel_descok (V : VEB) (h : Skel V) : DescOk V := by
  induction h with
  | base mn mx hmn hmx =>
    exact DescOk.base _ (by simp [VEB.u]) rfl rfl
  | node mn mx lo up s cl a b ha1 hb1 hloPow hupPow hmnu hSs hsu hlen hSallc hallu ih_s ih_cl =>
    have hlo2 : (2 : Int) ≤ lo := hloPow ▸ two_le_two_pow a ha1
    have hup2 : (2 : Int) ≤ up := hupPow ▸ two_le_two_pow b hb1
    refine DescOk.node _ s (by simp only [VEB.u]; nlinarith) rfl
      (by simp only [VEB.lower_sqrt]; omega)
      (by simp only [VEB.lower_sqrt, VEB.u]; nlinarith)
      (by simp only [VEB.upper_sqrt]; omega)
      (by simp only [VEB.upper_sqrt, VEB.u]; nlinarith)
      (by simp only [VEB.u, VEB.lower_sqrt, VEB.upper_sqrt])
      (by simp only [VEB.upper_sqrt]; exact hsu)
      (by simp only [VEB.cluster, VEB.lower_sqrt]; exact hallu)
      ih_s
      (by simp only [VEB.cluster]; exact ih_cl)

/-! ## The claims -/

/-- C7: for every tree and every `x` outside `[0, U)`, `Insert` and `Delete`
report the out-of-range condition and perform no mutation at all — the tree
value is unchanged; in particular on a fresh `Create(16)` both `Insert(16)`
and `Insert(-1)` leave `minimum = maximum = -1`. -/
theorem claim_C7 (V : VEB) (x : Int) (h : x < 0 ∨ V.u ≤ x) :
    vEB_insert V x = V ∧ vEB_delete V x = V ∧
    (vEB_insert (vEB_create 16) 16).min = -1 ∧ (vEB_insert (vEB_create 16) 16).max = -1 ∧
    (vEB_insert (vEB_create 16) (-1)).min = -1 ∧ (vEB_insert (vEB_create 16) (-1)).max = -1 := by
  rcases V with ⟨u, mn, mx, lo, up, sm, cl⟩
  simp only [VEB.u] at h
  refine ⟨?_, ?_, by decide, by decide, by decide, by decide⟩
  · rw [vEB_insert_eq]
    rw [if_pos h]
  · rw [vEB_delete_eq]
    rw [if_pos h]

/-- Witness for C7 at `Create(16)` and `x = 16`. -/
theorem claim_C7_witness :
    vEB_insert (vEB_create 16) 16 = vEB_create 16 ∧
    vEB_delete (vEB_create 16) 16 = vEB_create 16 :=
  ⟨(claim_C7 (vEB_create 16) 16 (by decide)).1,
   (claim_C7 (vEB_create 16) 16 (by decide)).2.1⟩

/-- C10: on any tree whose cached `min` equals its cached `max` (empty tree
or a single stored element `e`), `Delete(tree, x)` for any in-range `x`
clears the node to empty — the collapse path never compares `x` with the
stored element, so deleting any in-range value from a one-element tree
removes the stored element; the rest of the node is untouched. -/
theorem claim_C10 (V : VEB) (x : Int) (hone : V.min = V.max) (h0 : 0 ≤ x) (hu : x < V.u) :
    (vEB_delete V x).min = -1 ∧ (vEB_delete V x).max = -1 ∧
    (vEB_delete V x).u = V.u ∧ (vEB_delete V x).summary = V.summary ∧
    (vEB_delete V x).cluster = V.cluster := by
  rcases V with ⟨u, mn, mx, lo, up, sm, cl⟩
  simp only [VEB.u] at hu
  simp only [VEB.min, VEB.max] at hone
  have hd : vEB_delete (VEB.mk u mn mx lo up sm cl) x = VEB.mk u (-1) (-1) lo up sm cl := by
    rw [vEB_delete_eq]
    rw [if_neg (by omega), if_pos hone]
  rw [hd]
  exact ⟨rfl, rfl, rfl, rfl, rfl⟩

/-- Witness for C10: deleting `1` from the singleton tree `{2}` (universe 4)
empties it even though `1` is not the stored element. -/
theorem claim_C10_witness :
    (vEB_delete (vEB_insert (vEB_create 4) 2) 1).min = -1 ∧
    (vEB_delete (vEB_insert (vEB_create 4) 2) 1).max = -1 :=
  ⟨(claim_C10 (vEB_insert (vEB_create 4) 2) 1 (by decide) (by decide) (by decide)).1,
   (claim_C10 (vEB_insert (vEB_create 4) 2) 1 (by decide) (by decide) (by decide)).2.1⟩

/-- C6: insertion is idempotent on every reachable tree (even one corrupted
by the non-member-delete anomaly): the second insert of the same in-range
`x` is a literal no-op, so `Member`, `minimum` and `maximum` all agree with
the single-insert tree. -/
theorem claim_C6 (V : VEB) (x : Int) (hR : Reach V) (h0 : 0 ≤ x) (hu : x < V.u) :
    vEB_insert (vEB_insert V x) x = vEB_insert V x ∧
    (∀ y : Int, vEB_member (some (vEB_insert (vEB_insert V x) x)) y =
      vEB_member (some (vEB_insert V x)) y) ∧
    (vEB_insert (vEB_insert V x) x).min = (vEB_insert V x).min ∧
    (vEB_insert (vEB_insert V x) x).max = (vEB_insert V x).max := by
  have hS := reach_skel V hR
  have hm := skel_insert_member V hS x h0 hu
  have hb : ¬(x < 0 ∨ (vEB_insert V x).u ≤ x) := by
    rw [vEB_insert_u]
    omega
  have heq := vEB_insert_of_member (vEB_insert V x) x hb hm
  exact ⟨heq, fun y => by rw [heq], by rw [heq], by rw [heq]⟩

/-- Witness for C6 at `Create(4)` and `x = 2`. -/
theorem claim_C6_witness :
    vEB_insert (vEB_insert (vEB_create 4) 2) 2 = vEB_insert (vEB_create 4) 2 :=
  (claim_C6 (vEB_create 4) 2 (Reach.create 4 2 (by decide) (by decide))
    (by decide) (by decide)).1

/-- C9: on every reachable tree, every node either is a base case
(`u ≤ 2`, no children) or delegates only to its summary child and cluster
children, each of a strictly smaller universe size
(`2 ≤ lower_sqrt < u`, `2 ≤ upper_sqrt < u`, `u = lower_sqrt * upper_sqrt`);
together with the totality of all five Lean functions this is the
termination argument of the C recursion. -/
theorem claim_C9 (V : VEB) (hR : Reach V) : DescOk V :=
  skel_descok V (reach_skel V hR)

/-- Witness for C9 at `Create(4)`. -/
theorem claim_C9_witness : DescOk (vEB_create 4) :=
  claim_C9 (vEB_create 4) (Reach.create 4 2 (by decide) (by decide))

/-- C1 (counterexample): there is a reachable tree (built by in-range public
operations only: create 4; insert 0; insert 1; insert 2; delete 3; delete 2)
on which inserting the in-range value 1 makes it a member, but the
subsequent `Delete(tree, 1)` leaves `Member(tree, 1)` still true — the
claimed insert/delete round trip fails on reachable trees. -/
theorem claim_C1_counterexample :
    Reach (vEB_delete (vEB_delete (vEB_insert (vEB_insert (vEB_insert
      (vEB_create 4) 0) 1) 2) 3) 2) ∧
    (0 : Int) ≤ 1 ∧
    (1 : Int) < (vEB_delete (vEB_delete (vEB_insert (vEB_insert (vEB_insert
      (vEB_create 4) 0) 1) 2) 3) 2).u ∧
    vEB_member (some (vEB_insert (vEB_delete (vEB_delete (vEB_insert
      (vEB_insert (vEB_insert (vEB_create 4) 0) 1) 2) 3) 2) 1)) 1 = true ∧
    vEB_member (some (vEB_delete (vEB_insert (vEB_delete (vEB_delete
      (vEB_insert (vEB_insert (vEB_insert (vEB_create 4) 0) 1) 2) 3) 2) 1) 1)) 1 = true := by
  refine ⟨?_, by decide, by decide, by decide, by decide⟩
  exact Reach.del _ 2 (Reach.del _ 3 (Reach.ins _ 2 (Reach.ins _ 1 (Reach.ins _ 0
    (Reach.create 4 2 (by decide) (by decide)) (by decide) (by decide))
    (by decide) (by decide)) (by decide) (by decide)) (by decide) (by decide))
    (by decide) (by decide)

/-- C2 (counterexample): on the reachable tree built by
create 8; insert 1; insert 5; delete 3 (all arguments in range), the value 5
is still a member and exceeds 1, yet `Successor(tree, 1)` returns the empty
sentinel `-1` instead of the smallest member strictly greater than 1. -/
theorem claim_C2_counterexample :
    Reach (vEB_delete (vEB_insert (vEB_insert (vEB_create 8) 1) 5) 3) ∧
    (0 : Int) ≤ 1 ∧
    (1 : Int) < (vEB_delete (vEB_insert (vEB_insert (vEB_create 8) 1) 5) 3).u ∧
    vEB_member (some (vEB_delete (vEB_insert (vEB_insert (vEB_create 8) 1) 5) 3)) 5 = true ∧
    (1 : Int) < 5 ∧
    vEB_successor (vEB_delete (vEB_insert (vEB_insert (vEB_create 8) 1) 5) 3) 1 = -1 := by
  refine ⟨?_, by decide, by decide, by decide, by decide, by decide⟩
  exact Reach.del _ 3 (Reach.ins _ 5 (Reach.ins _ 1
    (Reach.create 8 3 (by decide) (by decide)) (by decide) (by decide))
    (by decide) (by decide)) (by decide) (by decide)

/-- C3 (counterexample): on the reachable tree built by
create 4; insert 1; insert 3; delete 0 (all arguments in range), the summary
does not contain index 1 although `clusters[1]` is non-empty, so the
summary/cluster invariant does not survive every in-range public operation. -/
theorem claim_C3_counterexample :
    Reach (vEB_delete (vEB_insert (vEB_insert (vEB_create 4) 1) 3) 0) ∧
    2 < (vEB_delete (vEB_insert (vEB_insert (vEB_create 4) 1) 3) 0).u ∧
    vEB_member (VEB.summary (vEB_delete (vEB_insert (vEB_insert (vEB_create 4) 1) 3) 0)) 1 = false ∧
    vEB_min (clGet (VEB.cluster (vEB_delete (vEB_insert (vEB_insert (vEB_create 4) 1) 3) 0)) 1) ≠ -1 := by
  refine ⟨?_, by decide, by decide, by decide⟩
  exact Reach.del _ 0 (Reach.ins _ 3 (Reach.ins _ 1
    (Reach.create 4 2 (by decide) (by decide)) (by decide) (by decide))
    (by decide) (by decide)) (by decide) (by decide)

/-- C4 (counterexample): deleting the absent in-range value 3 from the
reachable tree `{1, 2, 5}` (universe 8, which has at least two elements) is
not a structural no-op: it silently removes the present element 2. -/
theorem claim_C4_counterexample :
    Reach (vEB_insert (vEB_insert (vEB_insert (vEB_create 8) 1) 2) 5) ∧
    vEB_member (some (vEB_insert (vEB_insert (vEB_insert (vEB_create 8) 1) 2) 5)) 3 = false ∧
    (0 : Int) ≤ 3 ∧
    (3 : Int) < (vEB_insert (vEB_insert (vEB_insert (vEB_create 8) 1) 2) 5).u ∧
    (vEB_insert (vEB_insert (vEB_insert (vEB_create 8) 1) 2) 5).min ≠
      (vEB_insert (vEB_insert (vEB_insert (vEB_create 8) 1) 2) 5).max ∧
    vEB_member (some (vEB_insert (vEB_insert (vEB_insert (vEB_create 8) 1) 2) 5)) 2 = true ∧
    vEB_member (some (vEB_delete (vEB_insert (vEB_insert (vEB_insert
      (vEB_create 8) 1) 2) 5) 3)) 2 = false := by
  refine ⟨?_, by decide, by decide, by decide, by decide, by decide, by decide⟩
  exact Reach.ins _ 5 (Reach.ins _ 2 (Reach.ins _ 1
    (Reach.create 8 3 (by decide) (by decide)) (by decide) (by decide))
    (by decide) (by decide)) (by decide) (by decide)

/-- C4 (amended): when the cached `min` equals the cached `max` (empty or
single-element subtree), `Delete` on any in-range `x` empties the subtree;
but deleting an absent value from a subtree with at least two elements is
not in general a structural no-op — there is a reachable tree, an absent
in-range value `y` and a present value `z` such that deleting `y` removes
`z` from the stored set. -/
theorem claim_C4 (V : VEB) (x : Int) (h0 : 0 ≤ x) (hu : x < V.u) :
    (V.min = V.max → (vEB_delete V x).min = -1 ∧ (vEB_delete V x).max = -1) ∧
    ∃ (W : VEB) (y z : Int), Reach W ∧ 0 ≤ y ∧ y < W.u ∧
      vEB_member (some W) y = false ∧ W.min ≠ W.max ∧
      vEB_member (some W) z = true ∧
      vEB_member (some (vEB_delete W y)) z = false := by
  constructor
  · intro hone
    rcases V with ⟨u, mn, mx, lo, up, sm, cl⟩
    simp only [VEB.u] at hu
    simp only [VEB.min, VEB.max] at hone
    have hd : vEB_delete (VEB.mk u mn mx lo up sm cl) x = VEB.mk u (-1) (-1) lo up sm cl := by
      rw [vEB_delete_eq]
      rw [if_neg (by omega), if_pos hone]
    rw [hd]
    exact ⟨rfl, rfl⟩
  · refine ⟨vEB_insert (vEB_insert (vEB_insert (vEB_create 8) 1) 2) 5, 3, 2,
      ?_, by decide, by decide, by decide, by decide, by decide, by decide⟩
    exact Reach.ins _ 5 (Reach.ins _ 2 (Reach.ins _ 1
      (Reach.create 8 3 (by decide) (by decide)) (by decide) (by decide))
      (by decide) (by decide)) (by decide) (by decide)

/-- Witness for C4 at the singleton tree `{2}` (universe 4) and `x = 1`. -/
theorem claim_C4_witness :
    ((vEB_insert (vEB_create 4) 2).min = (vEB_insert (vEB_create 4) 2).max →
      (vEB_delete (vEB_insert (vEB_create 4) 2) 1).min = -1 ∧
      (vEB_delete (vEB_insert (vEB_create 4) 2) 1).max = -1) ∧
    ∃ (W : VEB) (y z : Int), Reach W ∧ 0 ≤ y ∧ y < W.u ∧
      vEB_member (some W) y = false ∧ W.min ≠ W.max ∧
      vEB_member (some W) z = true ∧
      vEB_member (some (vEB_delete W y)) z = false :=
  claim_C4 (vEB_insert (vEB_create 4) 2) 1 (by decide) (by decide)

/-- C5 (counterexample): `Member` indeed performs no bounds validation, but
an out-of-range `x` is not always reported as "not found": on the freshly
created (reachable, empty) tree of universe 16, `Member(tree, -1)` returns
true, because `-1` equals the empty sentinel stored in `minimum`. -/
theorem claim_C5_counterexample :
    Reach (vEB_create 16) ∧ (-1 : Int) < 0 ∧
    vEB_member (some (vEB_create 16)) (-1) = true := by
  refine ⟨Reach.create 16 4 (by decide) (by decide), by decide, by decide⟩

/-- C8 (counterexample): on the reachable tree built by
create 4; insert 0; insert 1; insert 2; delete 3; delete 2 (all arguments in
range), the cached `maximum` is 0 while the in-range value 1 is still a
member, so `maximum` is not the largest stored element after every in-range
public operation. -/
theorem claim_C8_counterexample :
    Reach (vEB_delete (vEB_delete (vEB_insert (vEB_insert (vEB_insert
      (vEB_create 4) 0) 1) 2) 3) 2) ∧
    (vEB_delete (vEB_delete (vEB_insert (vEB_insert (vEB_insert
      (vEB_create 4) 0) 1) 2) 3) 2).max = 0 ∧
    (0 : Int) ≤ 1 ∧
    (1 : Int) < (vEB_delete (vEB_delete (vEB_insert (vEB_insert (vEB_insert
      (vEB_create 4) 0) 1) 2) 3) 2).u ∧
    vEB_member (some (vEB_delete (vEB_delete (vEB_insert (vEB_insert
      (vEB_insert (vEB_create 4) 0) 1) 2) 3) 2)) 1 = true ∧
    (0 : Int) < 1 := by
  refine ⟨?_, by decide, by decide, by decide, by decide, by decide⟩
  exact Reach.del _ 2 (Reach.del _ 3 (Reach.ins _ 2 (Reach.ins _ 1 (Reach.ins _ 0
    (Reach.create 4 2 (by decide) (by decide)) (by decide) (by decide))
    (by decide) (by decide)) (by decide) (by decide)) (by decide) (by decide))
    (by decide) (by decide)

/-! ## The semantic invariant of correctly used trees

`VInv` is the full van Emde Boas representation invariant: the create
skeleton, the `min`/`max` cache discipline (`min` is never mirrored inside
the clusters, `max` is mirrored whenever the node has at least two
elements), the summary tracking exactly the non-empty clusters, and all
cluster elements lying strictly between `min` (exclusive) and `max`
(inclusive) after reassembly. -/
inductive VInv : VEB → Prop where
  | base (mn mx : Int) :
      (mn = -1 ∧ mx = -1) ∨ (mn = 0 ∧ mx = 0) ∨ (mn = 1 ∧ mx = 1) ∨ (mn = 0 ∧ mx = 1) →
      VInv (.mk 2 mn mx 0 0 none [])
  | node (mn mx lo up : Int) (s : VEB) (cl : List VEB) (a b : Nat) :
      1 ≤ a → 1 ≤ b → lo = (2 : Int) ^ a → up = (2 : Int) ^ b →
      VInv s → s.u = up →
      cl.length = up.toNat →
      (∀ c ∈ cl, VInv c) → (∀ c ∈ cl, c.u = lo) →
      (mn = -1 → mx = -1) →
      (mn ≠ -1 → 0 ≤ mn ∧ mn ≤ mx ∧ mx < lo * up) →
      (∀ h : Int, 0 ≤ h → h < up →
         (vEB_member (some s) h = true ↔ vEB_min (clGet cl h) ≠ -1)) →
      (∀ h l : Int, 0 ≤ h → h < up → 0 ≤ l → l < lo →
         vEB_member (clGet cl h) l = true → mn < idxPart lo h l ∧ idxPart lo h l ≤ mx) →
      (mn ≠ -1 → mn ≠ mx →
         vEB_member (clGet cl (highPart lo mx)) (lowPart lo mx) = true) →
      (mn = mx → ∀ c ∈ cl, c.min = -1) →
      VInv (.mk (lo * up) mn mx lo up (some s) cl)

theorem vinv_u_ge (V : VEB) (h : VInv V) : 2 ≤ V.u := by
  cases h with
  | base mn mx hst => simp [VEB.u]
  | node mn mx lo up s cl a b ha1 hb1 hloPow hupPow hIs hsu hlen hIc hcu hm1 hbnds hsum hclb hmaxw hsing =>
    have hlo2 : (2 : Int) ≤ lo := hloPow ▸ two_le_two_pow a ha1
    have hup2 : (2 : Int) ≤ up := hupPow ▸ two_le_two_pow b hb1
    simp only [VEB.u]
    nlinarith

theorem member_min_self (V : VEB) : vEB_member (some V) V.min = true := by
  rcases V with ⟨u, mn, mx, lo, up, sm, cl⟩
  rw [vEB_member_eq]
  exact if_pos (Or.inl rfl)

theorem member_max_self (V : VEB) : vEB_member (some V) V.max = true := by
  rcases V with ⟨u, mn, mx, lo, up, sm, cl⟩
  rw [vEB_member_eq]
  exact if_pos (Or.inr rfl)

theorem clGet_some_bounds {cl : List VEB} {i : Int} {c : VEB} (h : clGet cl i = some c) :
    0 ≤ i ∧ i.toNat < cl.length := by
  unfold clGet at h
  split at h
  · exact absurd h (by simp)
  · rename_i hneg
    constructor
    · omega
    · exact List.get?_eq_some.mp h |>.1

/-- On an empty invariant-satisfying tree, no non-negative value is a
member (only the sentinel `-1` matches the cached fields). -/
theorem vinv_empty_no_mem (n : Nat) : ∀ (V : VEB), V.u.toNat ≤ n → VInv V → V.min = -1 →
    ∀ x : Int, 0 ≤ x → vEB_member (some V) x = false := by
  induction n with
  | zero =>
    intro V hn hI
    have := vinv_u_ge V hI
    omega
  | succ n ih =>
    intro V hn hI hmn x hx
    cases hI with
    | base mn mx hst =>
      rw [vEB_member_eq]
      simp only [VEB.min] at hmn
      subst hmn
      rcases hst with ⟨h1, h2⟩ | ⟨h1, h2⟩ | ⟨h1, h2⟩ | ⟨h1, h2⟩ <;>
        [skip; omega; omega; omega]
      subst h2
      rw [if_neg (by omega), if_pos (by norm_num)]
    | node mn mx lo up s cl a b ha1 hb1 hloPow hupPow hIs hsu hlen hIc hcu hm1 hbnds hsum hclb hmaxw hsing =>
      simp only [VEB.min] at hmn
      subst hmn
      have hlo2 : (2 : Int) ≤ lo := hloPow ▸ two_le_two_pow a ha1
      have hup2 : (2 : Int) ≤ up := hupPow ▸ two_le_two_pow b hb1
      have hmx : mx = -1 := hm1 rfl
      subst hmx
      rw [vEB_member_eq]
      rw [if_neg (by omega : ¬(x = -1 ∨ x = -1))]
      rw [if_neg (by simp only [VEB.u] at hn ⊢; nlinarith : ¬lo * up ≤ 2)]
      rcases hoc : clGet cl (highPart lo x) with _ | c
      · rfl
      · have hcmem : c ∈ cl := clGet_mem hoc
        have hcmin : c.min = -1 := hsing rfl c hcmem
        have hcusz : c.u = lo := hcu c hcmem
        have hlb := lowPart_bounds lo x hx (by omega)
        have hszc : c.u.toNat ≤ n := by
          simp only [VEB.u] at hn
          have h1 : lo < lo * up := by nlinarith
          rw [hcusz]
          omega
        exact ih c hszc (hIc c hcmem) hcmin (lowPart lo x) hlb.1

theorem vinv_empty_no_mem' (V : VEB) (hI : VInv V) (hmn : V.min = -1) (x : Int) (hx : 0 ≤ x) :
    vEB_member (some V) x = false :=
  vinv_empty_no_mem V.u.toNat V (Nat.le_refl _) hI hmn x hx

/-- Every non-negative member lies between the cached `min` and `max`. -/
theorem vinv_mem_bounds (n : Nat) : ∀ (V : VEB), V.u.toNat ≤ n → VInv V →
    ∀ x : Int, 0 ≤ x → vEB_member (some V) x = true →
    0 ≤ V.min ∧ V.min ≤ x ∧ x ≤ V.max ∧ V.max < V.u := by
  induction n with
  | zero =>
    intro V hn hI
    have := vinv_u_ge V hI
    omega
  | succ n ih =>
    intro V hn hI x hx hm
    cases hI with
    | base mn mx hst =>
      rw [vEB_member_eq] at hm
      simp only [VEB.min, VEB.max, VEB.u]
      by_cases hor : x = mn ∨ x = mx
      · rcases hst with ⟨h1, h2⟩ | ⟨h1, h2⟩ | ⟨h1, h2⟩ | ⟨h1, h2⟩ <;> omega
      · rw [if_neg hor, if_pos (by norm_num)] at hm
        exact absurd hm (by simp)
    | node mn mx lo up s cl a b ha1 hb1 hloPow hupPow hIs hsu hlen hIc hcu hm1 hbnds hsum hclb hmaxw hsing =>
      have hlo2 : (2 : Int) ≤ lo := hloPow ▸ two_le_two_pow a ha1
      have hup2 : (2 : Int) ≤ up := hupPow ▸ two_le_two_pow b hb1
      have hu4 : (4 : Int) ≤ lo * up := by nlinarith
      have hmne : mn ≠ -1 := by
        intro hmn
        have := vinv_empty_no_mem' _ (VInv.node mn mx lo up s cl a b ha1 hb1 hloPow hupPow hIs hsu
          hlen hIc hcu hm1 hbnds hsum hclb hmaxw hsing) (by simpa [VEB.min] using hmn) x hx
        rw [hm] at this
        exact absurd this (by simp)
      have hb3 := hbnds hmne
      simp only [VEB.min, VEB.max, VEB.u]
      rw [vEB_member_eq] at hm
      by_cases hor : x = mn ∨ x = mx
      · rcases hor with h | h <;> omega
      · rw [if_neg hor, if_neg (by nlinarith : ¬lo * up ≤ 2)] at hm
        rcases hoc : clGet cl (highPart lo x) with _ | c
        · rw [hoc] at hm
          exact absurd hm (by simp [vEB_member_none])
        · rw [hoc] at hm
          have hcb := clGet_some_bounds hoc
          have hhlt : highPart lo x < up := by
            have := hcb.2
            omega
          have hlb := lowPart_bounds lo x hx (by omega)
          have h5 := hclb (highPart lo x) (lowPart lo x) hcb.1 hhlt hlb.1 hlb.2 (by rw [hoc]; exact hm)
          rw [idx_split lo x hx (by omega)] at h5
          omega

theorem vinv_mem_bounds' (V : VEB) (hI : VInv V) (x : Int) (hx : 0 ≤ x)
    (hm : vEB_member (some V) x = true) :
    0 ≤ V.min ∧ V.min ≤ x ∧ x ≤ V.max ∧ V.max < V.u :=
  vinv_mem_bounds V.u.toNat V (Nat.le_refl _) hI x hx hm

/-- A tree satisfying the invariant is empty exactly when `min = -1`. -/
theorem vinv_empty_iff (V : VEB) (hI : VInv V) :
    V.min = -1 ↔ ∀ y : Int, 0 ≤ y → vEB_member (some V) y = false := by
  constructor
  · intro hmn y hy
    exact vinv_empty_no_mem' V hI hmn y hy
  · intro hall
    by_contra hmn
    have h1 := member_min_self V
    have h2 := vinv_mem_bounds' V hI V.min (by
      cases hI with
      | base mn mx hst =>
        simp only [VEB.min] at hmn ⊢
        rcases hst with ⟨ha, hb⟩ | ⟨ha, hb⟩ | ⟨ha, hb⟩ | ⟨ha, hb⟩ <;> omega
      | node mn mx lo up s cl a b ha1 hb1 hloPow hupPow hIs hsu hlen hIc hcu hm1 hbnds hsum hclb hmaxw hsing =>
        simp only [VEB.min] at hmn ⊢
        have := hbnds hmn
        omega) h1
    have h3 := hall V.min (by omega)
    rw [h1] at h3
    exact absurd h3 (by simp)

/-- Membership normal form at an internal node: a non-negative value is a
member iff it is the cached `min` or it is physically present in its
cluster (`max` is always mirrored in a cluster when the node has two or
more elements, and equals `min` otherwise). -/
theorem vinv_mem_norm (V : VEB) (hI : VInv V) (hu2 : 2 < V.u) (y : Int) (hy : 0 ≤ y) :
    vEB_member (some V) y = true ↔
      (y = V.min ∨
       vEB_member (clGet V.cluster (highPart V.lower_sqrt y)) (lowPart V.lower_sqrt y) = true) := by
  cases hI with
  | base mn mx hst =>
    simp only [VEB.u] at hu2
    omega
  | node mn mx lo up s cl a b ha1 hb1 hloPow hupPow hIs hsu hlen hIc hcu hm1 hbnds hsum hclb hmaxw hsing =>
    simp only [VEB.u] at hu2
    simp only [VEB.min, VEB.cluster, VEB.lower_sqrt]
    rw [vEB_member_eq]
    rw [if_neg (by omega : ¬lo * up ≤ 2)]
    constructor
    · intro hm
      by_cases hor : y = mn ∨ y = mx
      · rcases hor with h | h
        · exact Or.inl h
        · by_cases hmm : mn = mx
          · exact Or.inl (by omega)
          · have hmne : mn ≠ -1 := by
              intro hmn
              have hmx := hm1 hmn
              omega
            subst h
            exact Or.inr (hmaxw hmne hmm)
      · rw [if_neg hor] at hm
        exact Or.inr hm
    · intro hm
      rcases hm with h | h
      · rw [if_pos (Or.inl h)]
      · by_cases hor : y = mn ∨ y = mx
        · rw [if_pos hor]
        · rw [if_neg hor]
          exact h

/-- Cluster members of an invariant node lie strictly above `min` and at
most at `max` after reassembly. -/
theorem vinv_cm_bounds (V : VEB) (hI : VInv V) (hu2 : 2 < V.u) (y : Int) (hy : 0 ≤ y)
    (hm : vEB_member (clGet V.cluster (highPart V.lower_sqrt y)) (lowPart V.lower_sqrt y) = true) :
    V.min < y ∧ y ≤ V.max := by
  cases hI with
  | base mn mx hst =>
    simp only [VEB.u] at hu2
    omega
  | node mn mx lo up s cl a b ha1 hb1 hloPow hupPow hIs hsu hlen hIc hcu hm1 hbnds hsum hclb hmaxw hsing =>
    have hlo2 : (2 : Int) ≤ lo := hloPow ▸ two_le_two_pow a ha1
    simp only [VEB.cluster, VEB.lower_sqrt] at hm
    simp only [VEB.min, VEB.max]
    rcases hoc : clGet cl (highPart lo y) with _ | c
    · rw [hoc] at hm
      exact absurd hm (by simp [vEB_member_none])
    · rw [hoc] at hm
      have hcb := clGet_some_bounds hoc
      have hhlt : highPart lo y < up := by
        have := hcb.2
        omega
      have hlb := lowPart_bounds lo y hy (by omega)
      have h5 := hclb (highPart lo y) (lowPart lo y) hcb.1 hhlt hlb.1 hlb.2 (by rw [hoc]; exact hm)
      rw [idx_split lo y hy (by omega)] at h5
      exact h5

theorem empty_insert_min (c : VEB) (l : Int) : (vEB_empty_insert c l).min = l := by
  rcases c with ⟨u, mn, mx, lo, up, sm, cl⟩
  rfl

theorem empty_insert_max (c : VEB) (l : Int) : (vEB_empty_insert c l).max = l := by
  rcases c with ⟨u, mn, mx, lo, up, sm, cl⟩
  rfl

/-- Base-case membership is just the two cached fields. -/
theorem member_base_iff (mn mx x : Int) :
    vEB_member (some (.mk 2 mn mx 0 0 none [])) x = true ↔ (x = mn ∨ x = mx) := by
  rw [vEB_member_eq]
  by_cases h : x = mn ∨ x = mx
  · rw [if_pos h]
    simp [h]
  · rw [if_neg h, if_pos (by norm_num)]
    simp [h]

theorem vinv_min_cases (V : VEB) (hI : VInv V) : V.min = -1 ∨ 0 ≤ V.min := by
  cases hI with
  | base mn mx hst =>
    simp only [VEB.min]
    rcases hst with ⟨h1, h2⟩ | ⟨h1, h2⟩ | ⟨h1, h2⟩ | ⟨h1, h2⟩ <;> omega
  | node mn mx lo up s cl a b ha1 hb1 hloPow hupPow hIs hsu hlen hIc hcu hm1 hbnds hsum hclb hmaxw hsing =>
    simp only [VEB.min]
    by_cases h : mn = -1
    · exact Or.inl h
    · exact Or.inr (hbnds h).1

/-- When every cluster is empty, no cluster lookup finds anything. -/
theorem clusters_no_mem (cl : List VEB) (hIc : ∀ c ∈ cl, VInv c)
    (hemp : ∀ c ∈ cl, c.min = -1) (h l : Int) (hl : 0 ≤ l) :
    vEB_member (clGet cl h) l = false := by
  rcases hoc : clGet cl h with _ | c
  · exact vEB_member_none l
  · have hcin := clGet_mem hoc
    exact vinv_empty_no_mem' c (hIc c hcin) (hemp c hcin) l hl

/-- Inserting an already-present value returns the exact same structure,
so all observable outputs are those of the original tree. -/
theorem vinv_noop_out (V : VEB) (hI : VInv V) (x : Int) (hx : 0 ≤ x)
    (hmem : vEB_member (some V) x = true) :
    VInv V ∧ V.min = (if V.min = -1 then x else min V.min x) ∧
    V.max = (if V.max = -1 then x else max V.max x) ∧
    (∀ y : Int, 0 ≤ y →
      (vEB_member (some V) y = true ↔ (vEB_member (some V) y = true ∨ y = x))) := by
  have hb := vinv_mem_bounds' V hI x hx hmem
  refine ⟨hI, ?_, ?_, ?_⟩
  · rw [if_neg (by omega), min_eq_left (by omega)]
  · rw [if_neg (by omega), max_eq_left (by omega)]
  · intro y hy
    constructor
    · exact Or.inl
    · intro h
      rcases h with h | h
      · exact h
      · rw [h]
        exact hmem

/-- `vEB_empty_insert` on an empty invariant node yields an invariant
singleton. -/
theorem vinv_empty_insert (c : VEB) (hI : VInv c) (hmn : c.min = -1) (l : Int)
    (hl : 0 ≤ l) (hlu : l < c.u) : VInv (vEB_empty_insert c l) := by
  cases hI with
  | base mn mx hst =>
    simp only [VEB.min] at hmn
    simp only [VEB.u] at hlu
    dsimp only [vEB_empty_insert]
    exact VInv.base l l (by omega)
  | node mn mx lo up s cl a b ha1 hb1 hloPow hupPow hIs hsu hlen hIc hcu hm1 hbnds hsum hclb hmaxw hsing =>
    simp only [VEB.min] at hmn
    simp only [VEB.u] at hlu
    subst hmn
    have hmx : mx = -1 := hm1 rfl
    subst hmx
    have hce : ∀ d ∈ cl, d.min = -1 := hsing rfl
    dsimp only [vEB_empty_insert]
    refine VInv.node l l lo up s cl a b ha1 hb1 hloPow hupPow hIs hsu hlen hIc hcu
      (fun h => h) (fun _ => ⟨hl, le_refl l, hlu⟩) hsum ?_ (fun _ h => absurd rfl h)
      (fun _ => hce)
    intro h2 l2 h20 h2up l20 l2lo hm2
    rw [clusters_no_mem cl hIc hce h2 l2 l20] at hm2
    exact absurd hm2 (by simp)

/-- Membership in the singleton produced by `vEB_empty_insert`. -/
theorem vinv_member_empty_insert (c : VEB) (hI : VInv c) (hmn : c.min = -1)
    (l y : Int) (hy : 0 ≤ y) :
    (vEB_member (some (vEB_empty_insert c l)) y = true ↔ y = l) := by
  cases hI with
  | base mn mx hst =>
    dsimp only [vEB_empty_insert]
    rw [member_base_iff]
    omega
  | node mn mx lo up s cl a b ha1 hb1 hloPow hupPow hIs hsu hlen hIc hcu hm1 hbnds hsum hclb hmaxw hsing =>
    simp only [VEB.min] at hmn
    subst hmn
    have hmx : mx = -1 := hm1 rfl
    subst hmx
    have hce : ∀ d ∈ cl, d.min = -1 := hsing rfl
    have hlo2 : (2 : Int) ≤ lo := hloPow ▸ two_le_two_pow a ha1
    have hup2 : (2 : Int) ≤ up := hupPow ▸ two_le_two_pow b hb1
    dsimp only [vEB_empty_insert]
    rw [vEB_member_eq]
    by_cases h : y = l ∨ y = l
    · rw [if_pos h]
      exact ⟨fun _ => h.elim id id, fun _ => rfl⟩
    · rw [if_neg h, if_neg (by nlinarith : ¬lo * up ≤ 2)]
      rw [clusters_no_mem cl hIc hce (highPart lo y) (lowPart lo y)
        (lowPart_bounds lo y hy (by omega)).1]
      exact ⟨fun hc => absurd hc (by simp), fun hy2 => absurd (Or.inl hy2) h⟩


theorem vinv_insert_empty_cluster
    (mn mx lo up x1 mn1 : Int) (s c : VEB) (cl : List VEB) (a b : Nat)
    (ha1 : 1 ≤ a) (hb1 : 1 ≤ b) (hloPow : lo = (2 : Int) ^ a) (hupPow : up = (2 : Int) ^ b)
    (hsu : s.u = up) (hlen : cl.length = up.toNat)
    (hIc : ∀ d ∈ cl, VInv d) (hcu : ∀ d ∈ cl, d.u = lo)
    (hmn1 : mn ≠ -1) (hb3 : 0 ≤ mn ∧ mn ≤ mx ∧ mx < lo * up)
    (hsum : ∀ h : Int, 0 ≤ h → h < up →
       (vEB_member (some s) h = true ↔ vEB_min (clGet cl h) ≠ -1))
    (hclb : ∀ h l : Int, 0 ≤ h → h < up → 0 ≤ l → l < lo →
       vEB_member (clGet cl h) l = true → mn < idxPart lo h l ∧ idxPart lo h l ≤ mx)
    (hmaxw : mn ≠ -1 → mn ≠ mx →
       vEB_member (clGet cl (highPart lo mx)) (lowPart lo mx) = true)
    (hx1nn : 0 ≤ x1) (hx1lt : x1 < lo * up) (hmn1nn : 0 ≤ mn1) (hmlt : mn1 < x1)
    (hmnle : mn1 ≤ mn)
    (hhb : 0 ≤ highPart lo x1) (hhlt : highPart lo x1 < up)
    (hlb : 0 ≤ lowPart lo x1 ∧ lowPart lo x1 < lo)
    (hget : clGet cl (highPart lo x1) = some c)
    (hIcc : VInv c) (hcuc : c.u = lo) (hcmin : c.min = -1)
    (hsInv : VInv (vEB_insert s (highPart lo x1)))
    (hsMem : ∀ y : Int, 0 ≤ y →
      (vEB_member (some (vEB_insert s (highPart lo x1))) y = true ↔
        (vEB_member (some s) y = true ∨ y = highPart lo x1)))
    (hcorner : mn = mx → (x1 = mx ∨ mn1 = mx)) :
    VInv (VEB.mk (lo * up) mn1 (if mx < x1 then x1 else mx) lo up
      (some (vEB_insert s (highPart lo x1)))
      (clSet cl (highPart lo x1) (vEB_empty_insert c (lowPart lo x1)))) := by
  have hlo2 : (2 : Int) ≤ lo := hloPow ▸ two_le_two_pow a ha1
  have hhlen : (highPart lo x1).toNat < cl.length := by
    rw [hlen]
    omega
  have hcee : ∀ l2 : Int, 0 ≤ l2 → vEB_member (some c) l2 = false :=
    fun l2 hl2 => vinv_empty_no_mem' c hIcc hcmin l2 hl2
  have hcmemE : ∀ y : Int, 0 ≤ y →
      (vEB_member (some (vEB_empty_insert c (lowPart lo x1))) y = true ↔
        y = lowPart lo x1) :=
    fun y hy => vinv_member_empty_insert c hIcc hcmin _ y hy
  refine VInv.node mn1 _ lo up _ _ a b ha1 hb1 hloPow hupPow hsInv
    (by rw [vEB_insert_u]; exact hsu) (by rw [clSet_length]; exact hlen)
    ?_ ?_ ?_ ?_ ?_ ?_ ?_ ?_
  · intro d hd
    rcases mem_clSet _ _ _ _ hd with h | h
    · exact hIc d h
    · rw [h]
      exact vinv_empty_insert c hIcc hcmin _ hlb.1 (by rw [hcuc]; exact hlb.2)
  · intro d hd
    rcases mem_clSet _ _ _ _ hd with h | h
    · exact hcu d h
    · rw [h, empty_insert_u]
      exact hcuc
  · intro h
    exact absurd h (by omega)
  · intro _
    refine ⟨hmn1nn, ?_, ?_⟩
    · by_cases hc2 : mx < x1
      · rw [if_pos hc2]
        omega
      · rw [if_neg hc2]
        omega
    · by_cases hc2 : mx < x1
      · rw [if_pos hc2]
        omega
      · rw [if_neg hc2]
        omega
  · intro h2 h20 h2up
    rw [hsMem h2 h20]
    by_cases hh2 : h2 = highPart lo x1
    · subst hh2
      rw [clGet_clSet_self cl _ _ hhb hhlen]
      simp only [vEB_min, empty_insert_min]
      constructor
      · intro _
        omega
      · intro _
        exact Or.inr trivial
    · rw [clGet_clSet_ne cl _ _ _ hhb hh2, or_iff_left hh2]
      exact hsum h2 h20 h2up
  · intro h2 l2 h20 h2up l20 l2lo hm2
    by_cases hh2 : h2 = highPart lo x1
    · subst hh2
      rw [clGet_clSet_self cl _ _ hhb hhlen] at hm2
      have hl2e : l2 = lowPart lo x1 := (hcmemE l2 l20).mp hm2
      have hidx : idxPart lo (highPart lo x1) l2 = x1 := by
        rw [hl2e]
        exact idx_split lo x1 hx1nn (by omega)
      rw [hidx]
      refine ⟨hmlt, ?_⟩
      by_cases hc2 : mx < x1
      · rw [if_pos hc2]
      · rw [if_neg hc2]
        omega
    · rw [clGet_clSet_ne cl _ _ _ hhb hh2] at hm2
      have hold := hclb h2 l2 h20 h2up l20 l2lo hm2
      refine ⟨by omega, ?_⟩
      by_cases hc2 : mx < x1
      · rw [if_pos hc2]
        omega
      · rw [if_neg hc2]
        omega
  · intro hmn1ne hnem
    by_cases hc2 : mx < x1
    · rw [if_pos hc2] at hnem ⊢
      rw [clGet_clSet_self cl _ _ hhb hhlen]
      exact (hcmemE _ hlb.1).mpr rfl
    · rw [if_neg hc2] at hnem ⊢
      by_cases hmnmx : mn = mx
      · rcases hcorner hmnmx with hxx | hmm
        · rw [← hxx]
          rw [clGet_clSet_self cl _ _ hhb hhlen]
          exact (hcmemE _ hlb.1).mpr rfl
        · exact absurd (hmm.trans hmnmx.symm) (by omega)
      · by_cases hhmx : highPart lo mx = highPart lo x1
        · exfalso
          have hmw := hmaxw hmn1 hmnmx
          rw [hhmx, hget] at hmw
          rw [hcee _ (lowPart_bounds lo mx (by omega) (by omega)).1] at hmw
          exact absurd hmw (by simp)
        · rw [clGet_clSet_ne cl _ _ _ hhb hhmx]
          exact hmaxw hmn1 hmnmx
  · intro hmm
    exfalso
    by_cases hc2 : mx < x1
    · rw [if_pos hc2] at hmm
      omega
    · rw [if_neg hc2] at hmm
      omega

/-- Membership after an internal-node insert, shared by the empty-cluster and
occupied-cluster paths: the updated cluster gains exactly the low part of the
inserted key. -/
theorem insert_member_formula
    (mn mx lo up x1 mn1 mx1 x : Int) (s c cnew : VEB) (cl : List VEB)
    (sm1 : Option VEB)
    (hlo2 : (2 : Int) ≤ lo) (hup2 : (2 : Int) ≤ up)
    (hlen : cl.length = up.toNat)
    (hx1nn : 0 ≤ x1)
    (hhb : 0 ≤ highPart lo x1) (hhlt : highPart lo x1 < up)
    (hget : clGet cl (highPart lo x1) = some c)
    (hnewInv : VInv (VEB.mk (lo * up) mn1 mx1 lo up sm1
      (clSet cl (highPart lo x1) cnew)))
    (hcnewMem : ∀ l2 : Int, 0 ≤ l2 →
      (vEB_member (some cnew) l2 = true ↔
        (vEB_member (some c) l2 = true ∨ l2 = lowPart lo x1)))
    (hnormV : ∀ y : Int, 0 ≤ y →
      (vEB_member (some (VEB.mk (lo * up) mn mx lo up (some s) cl)) y = true ↔
        (y = mn ∨ vEB_member (clGet cl (highPart lo y)) (lowPart lo y) = true)))
    (hkeep : ∀ y : Int, ∀ P : Prop,
      ((y = mn1 ∨ P ∨ y = x1) ↔ ((y = mn ∨ P) ∨ y = x))) :
    ∀ y : Int, 0 ≤ y →
      (vEB_member (some (VEB.mk (lo * up) mn1 mx1 lo up sm1
          (clSet cl (highPart lo x1) cnew))) y = true ↔
        (vEB_member (some (VEB.mk (lo * up) mn mx lo up (some s) cl)) y = true ∨ y = x)) := by
  have hhlen : (highPart lo x1).toNat < cl.length := by
    rw [hlen]
    omega
  intro y hy
  rw [vinv_mem_norm _ hnewInv (by simp only [VEB.u]; nlinarith) y hy]
  simp only [VEB.min, VEB.cluster, VEB.lower_sqrt]
  rw [hnormV y hy]
  by_cases hhy : highPart lo y = highPart lo x1
  · rw [hhy, clGet_clSet_self cl _ _ hhb hhlen]
    rw [hcnewMem (lowPart lo y) (lowPart_bounds lo y hy (by omega)).1]
    have hiffl : lowPart lo y = lowPart lo x1 ↔ y = x1 := by
      constructor
      · intro h
        have h1 := idx_split lo y hy (by omega : (0 : Int) < lo)
        have h2 := idx_split lo x1 hx1nn (by omega : (0 : Int) < lo)
        rw [← h1, ← h2, hhy, h]
      · intro h
        rw [h]
    rw [hiffl, hget]
    exact hkeep y (vEB_member (some c) (lowPart lo y) = true)
  · rw [clGet_clSet_ne cl _ _ _ hhb hhy]
    have hyx1 : y ≠ x1 := by
      intro h
      rw [h] at hhy
      exact hhy rfl
    rw [← hkeep y (vEB_member (clGet cl (highPart lo y)) (lowPart lo y) = true)]
    constructor
    · rintro (h | h)
      · exact Or.inl h
      · exact Or.inr (Or.inl h)
    · rintro (h | h | h)
      · exact Or.inl h
      · exact Or.inr h
      · exact absurd h hyx1

/-- Invariant preservation when inserting into an occupied cluster. -/
theorem vinv_insert_full_cluster
    (mn mx lo up x1 mn1 : Int) (s c : VEB) (cl : List VEB) (a b : Nat)
    (ha1 : 1 ≤ a) (hb1 : 1 ≤ b) (hloPow : lo = (2 : Int) ^ a) (hupPow : up = (2 : Int) ^ b)
    (hIs : VInv s) (hsu : s.u = up) (hlen : cl.length = up.toNat)
    (hIc : ∀ d ∈ cl, VInv d) (hcu : ∀ d ∈ cl, d.u = lo)
    (hmn1 : mn ≠ -1) (hb3 : 0 ≤ mn ∧ mn ≤ mx ∧ mx < lo * up)
    (hsum : ∀ h : Int, 0 ≤ h → h < up →
       (vEB_member (some s) h = true ↔ vEB_min (clGet cl h) ≠ -1))
    (hclb : ∀ h l : Int, 0 ≤ h → h < up → 0 ≤ l → l < lo →
       vEB_member (clGet cl h) l = true → mn < idxPart lo h l ∧ idxPart lo h l ≤ mx)
    (hmaxw : mn ≠ -1 → mn ≠ mx →
       vEB_member (clGet cl (highPart lo mx)) (lowPart lo mx) = true)
    (hsing : mn = mx → ∀ d ∈ cl, d.min = -1)
    (hx1nn : 0 ≤ x1) (hx1lt : x1 < lo * up) (hmn1nn : 0 ≤ mn1) (hmlt : mn1 < x1)
    (hmnle : mn1 ≤ mn)
    (hhb : 0 ≤ highPart lo x1) (hhlt : highPart lo x1 < up)
    (hlb : 0 ≤ lowPart lo x1 ∧ lowPart lo x1 < lo)
    (hget : clGet cl (highPart lo x1) = some c)
    (hIcc : VInv c) (hcuc : c.u = lo) (hcmin : ¬c.min = -1)
    (hcInv1 : VInv (vEB_insert c (lowPart lo x1)))
    (hcMin1 : (vEB_insert c (lowPart lo x1)).min =
      (if c.min = -1 then lowPart lo x1 else min c.min (lowPart lo x1)))
    (hcMem1 : ∀ y : Int, 0 ≤ y →
      (vEB_member (some (vEB_insert c (lowPart lo x1))) y = true ↔
        (vEB_member (some c) y = true ∨ y = lowPart lo x1))) :
    VInv (VEB.mk (lo * up) mn1 (if mx < x1 then x1 else mx) lo up
      (some s) (clSet cl (highPart lo x1) (vEB_insert c (lowPart lo x1)))) := by
  have hlo2 : (2 : Int) ≤ lo := hloPow ▸ two_le_two_pow a ha1
  have hhlen : (highPart lo x1).toNat < cl.length := by
    rw [hlen]
    omega
  have hcin : c ∈ cl := clGet_mem hget
  have hcmin0 : 0 ≤ c.min := by
    rcases vinv_min_cases c hIcc with h | h
    · exact absurd h hcmin
    · exact h
  have hc1ne : (vEB_insert c (lowPart lo x1)).min ≠ -1 := by
    rw [hcMin1, if_neg hcmin]
    have h1 : 0 ≤ min c.min (lowPart lo x1) := le_min hcmin0 hlb.1
    omega
  refine VInv.node mn1 _ lo up s _ a b ha1 hb1 hloPow hupPow hIs hsu
    (by rw [clSet_length]; exact hlen) ?_ ?_ ?_ ?_ ?_ ?_ ?_ ?_
  · intro d hd
    rcases mem_clSet _ _ _ _ hd with h | h
    · exact hIc d h
    · rw [h]
      exact hcInv1
  · intro d hd
    rcases mem_clSet _ _ _ _ hd with h | h
    · exact hcu d h
    · rw [h, vEB_insert_u]
      exact hcuc
  · intro h
    exact absurd h (by omega)
  · intro _
    refine ⟨hmn1nn, ?_, ?_⟩
    · by_cases hc2 : mx < x1
      · rw [if_pos hc2]
        omega
      · rw [if_neg hc2]
        omega
    · by_cases hc2 : mx < x1
      · rw [if_pos hc2]
        omega
      · rw [if_neg hc2]
        omega
  · intro h2 h20 h2up
    by_cases hh2 : h2 = highPart lo x1
    · subst hh2
      rw [clGet_clSet_self cl _ _ hhb hhlen]
      simp only [vEB_min]
      constructor
      · intro _
        exact hc1ne
      · intro _
        refine (hsum _ hhb hhlt).mpr ?_
        rw [hget]
        simpa [vEB_min] using hcmin
    · rw [clGet_clSet_ne cl _ _ _ hhb hh2]
      exact hsum h2 h20 h2up
  · intro h2 l2 h20 h2up l20 l2lo hm2
    by_cases hh2 : h2 = highPart lo x1
    · subst hh2
      rw [clGet_clSet_self cl _ _ hhb hhlen] at hm2
      rcases (hcMem1 l2 l20).mp hm2 with hold | heq
      · have h5 := hclb _ l2 hhb hhlt l20 l2lo (by rw [hget]; exact hold)
        refine ⟨by omega, ?_⟩
        by_cases hc2 : mx < x1
        · rw [if_pos hc2]
          omega
        · rw [if_neg hc2]
          omega
      · have hidx : idxPart lo (highPart lo x1) l2 = x1 := by
          rw [heq]
          exact idx_split lo x1 hx1nn (by omega)
        rw [hidx]
        refine ⟨hmlt, ?_⟩
        by_cases hc2 : mx < x1
        · rw [if_pos hc2]
        · rw [if_neg hc2]
          omega
    · rw [clGet_clSet_ne cl _ _ _ hhb hh2] at hm2
      have hold := hclb h2 l2 h20 h2up l20 l2lo hm2
      refine ⟨by omega, ?_⟩
      by_cases hc2 : mx < x1
      · rw [if_pos hc2]
        omega
      · rw [if_neg hc2]
        omega
  · intro hmn1ne hnem
    by_cases hc2 : mx < x1
    · rw [if_pos hc2] at hnem ⊢
      rw [clGet_clSet_self cl _ _ hhb hhlen]
      exact (hcMem1 _ hlb.1).mpr (Or.inr rfl)
    · rw [if_neg hc2] at hnem ⊢
      have hmnmx : mn ≠ mx := fun h => hcmin (hsing h c hcin)
      have hmw := hmaxw hmn1 hmnmx
      by_cases hhmx : highPart lo mx = highPart lo x1
      · rw [hhmx] at hmw ⊢
        rw [hget] at hmw
        rw [clGet_clSet_self cl _ _ hhb hhlen]
        exact (hcMem1 _ (lowPart_bounds lo mx (by omega) (by omega)).1).mpr (Or.inl hmw)
      · rw [clGet_clSet_ne cl _ _ _ hhb hhmx]
        exact hmw
  · intro hmm
    exfalso
    by_cases hc2 : mx < x1
    · rw [if_pos hc2] at hmm
      omega
    · rw [if_neg hc2] at hmm
      omega

/-- Case analysis for the two symmetric insert paths (`x` below or above the
cached `min`): the value routed into the clusters and the new cached `min`. -/
theorem insert_case_bundle
    (mn mx lo up x : Int) (s : VEB) (cl : List VEB)
    (hIV : VInv (VEB.mk (lo * up) mn mx lo up (some s) cl))
    (hlo2 : (2 : Int) ≤ lo) (hup2 : (2 : Int) ≤ up)
    (hx : 0 ≤ x) (hxu : x < lo * up)
    (hmn1 : mn ≠ -1) (hb3 : 0 ≤ mn ∧ mn ≤ mx ∧ mx < lo * up)
    (hxnm : ¬(x = mn ∨ x = mx))
    (hmemF : vEB_member (clGet cl (highPart lo x)) (lowPart lo x) = false) :
    ∃ x1 mn1 : Int, (if x < mn then mn else x) = x1 ∧
      (if x < mn then x else mn) = mn1 ∧
      0 ≤ x1 ∧ x1 < lo * up ∧ 0 ≤ mn1 ∧ mn1 < x1 ∧ mn1 ≤ mn ∧
      vEB_member (clGet cl (highPart lo x1)) (lowPart lo x1) = false ∧
      (if mx < x1 then x1 else mx) = max mx x ∧ mn1 = min mn x ∧
      (mn = mx → (x1 = mx ∨ mn1 = mx)) ∧
      (∀ y : Int, ∀ P : Prop,
        ((y = mn1 ∨ P ∨ y = x1) ↔ ((y = mn ∨ P) ∨ y = x))) := by
  by_cases hxmn : x < mn
  · refine ⟨mn, x, if_pos hxmn, if_pos hxmn, by omega, by omega, hx, hxmn,
      le_of_lt hxmn, ?_, ?_, ?_, ?_, ?_⟩
    · by_contra hc
      have hc2 : vEB_member (clGet cl (highPart lo mn)) (lowPart lo mn) = true := by
        simpa using hc
      have := vinv_cm_bounds _ hIV (by simp only [VEB.u]; nlinarith) mn (by omega) hc2
      simp only [VEB.min] at this
      omega
    · rw [if_neg (by omega : ¬mx < mn)]
      exact (max_eq_left (by omega)).symm
    · exact (min_eq_right (le_of_lt hxmn)).symm
    · intro h
      exact Or.inl h
    · intro y P
      constructor
      · rintro (h | h | h)
        · exact Or.inr h
        · exact Or.inl (Or.inr h)
        · exact Or.inl (Or.inl h)
      · rintro ((h | h) | h)
        · exact Or.inr (Or.inr h)
        · exact Or.inr (Or.inl h)
        · exact Or.inl h
  · refine ⟨x, mn, if_neg hxmn, if_neg hxmn, hx, hxu, by omega, by omega,
      le_refl mn, hmemF, ?_, ?_, ?_, ?_⟩
    · by_cases hmxx : mx < x
      · rw [if_pos hmxx, max_eq_right (le_of_lt hmxx)]
      · rw [if_neg hmxx, max_eq_left (by omega)]
    · exact (min_eq_left (by omega)).symm
    · intro h
      exact Or.inr h
    · intro y P
      constructor
      · rintro (h | h | h)
        · exact Or.inl (Or.inl h)
        · exact Or.inl (Or.inr h)
        · exact Or.inr h
      · rintro ((h | h) | h)
        · exact Or.inl h
        · exact Or.inr (Or.inl h)
        · exact Or.inr (Or.inr h)

theorem empty_insert_mem_or (c : VEB) (hIcc : VInv c) (hcmin : c.min = -1) (l : Int) :
    ∀ l2 : Int, 0 ≤ l2 →
      (vEB_member (some (vEB_empty_insert c l)) l2 = true ↔
        (vEB_member (some c) l2 = true ∨ l2 = l)) := by
  intro l2 hl2
  rw [vinv_member_empty_insert c hIcc hcmin l l2 hl2, vinv_empty_no_mem' c hIcc hcmin l2 hl2]
  constructor
  · exact Or.inr
  · rintro (h | h)
    · exact absurd h (by simp)
    · exact h

/-- `vEB_insert` on an invariant tree with an in-range argument preserves
the invariant and acts on the represented set as insertion of `x`:
membership gains exactly `x`, `min`/`max` are updated to the new extremes. -/
theorem insert_ok : ∀ (n : Nat) (V : VEB), V.u.toNat ≤ n → VInv V →
    ∀ x : Int, 0 ≤ x → x < V.u →
    VInv (vEB_insert V x) ∧
    (vEB_insert V x).min = (if V.min = -1 then x else min V.min x) ∧
    (vEB_insert V x).max = (if V.max = -1 then x else max V.max x) ∧
    (∀ y : Int, 0 ≤ y → (vEB_member (some (vEB_insert V x)) y = true ↔
        (vEB_member (some V) y = true ∨ y = x))) := by
  intro n
  induction n with
  | zero =>
    intro V hn hI
    have := vinv_u_ge V hI
    omega
  | succ n ih =>
    intro V hn hI x hx hxu
    cases hI with
    | base mn mx hst =>
      simp only [VEB.u] at hn hxu
      rw [vEB_insert_eq]
      rw [if_neg (by omega : ¬(x < 0 ∨ (2 : Int) ≤ x))]
      by_cases hmem : vEB_member (some (VEB.mk 2 mn mx 0 0 none [])) x = true
      · rw [if_pos hmem]
        exact vinv_noop_out _ (VInv.base mn mx hst) x hx hmem
      · rw [if_neg hmem]
        have hmemF : vEB_member (some (VEB.mk 2 mn mx 0 0 none [])) x = false := by
          simpa using hmem
        have hxnm : ¬(x = mn ∨ x = mx) := by
          intro h
          rw [vEB_member_eq, if_pos h] at hmemF
          exact absurd hmemF (by simp)
        by_cases hmn1 : mn = -1
        · rw [if_pos hmn1]
          subst hmn1
          have hmx1 : mx = -1 := by
            rcases hst with ⟨h1, h2⟩ | ⟨h1, h2⟩ | ⟨h1, h2⟩ | ⟨h1, h2⟩ <;> omega
          subst hmx1
          dsimp only [vEB_empty_insert]
          refine ⟨VInv.base x x (by omega), ?_, ?_, ?_⟩
          · simp [VEB.min]
          · simp [VEB.max]
          · intro y hy
            rw [member_base_iff, member_base_iff]
            constructor
            · rintro (h | h) <;> exact Or.inr h
            · rintro (h | h)
              · rcases h with h | h <;> omega
              · exact Or.inl h
        · rw [if_neg hmn1]
          dsimp only
          rw [if_neg (by norm_num : ¬(2 : Int) < 2)]
          have hstate : (mn = 0 ∧ mx = 0 ∧ x = 1) ∨ (mn = 1 ∧ mx = 1 ∧ x = 0) := by
            rcases hst with ⟨h1, h2⟩ | ⟨h1, h2⟩ | ⟨h1, h2⟩ | ⟨h1, h2⟩ <;> omega
          rcases hstate with ⟨h1, h2, h3⟩ | ⟨h1, h2, h3⟩ <;> subst h1 <;> subst h2 <;> subst h3
          · rw [if_neg (by norm_num : ¬(1 : Int) < 0)]
            rw [if_neg (by norm_num : ¬(1 : Int) < 0)]
            rw [if_pos (by norm_num : (0 : Int) < 1)]
            refine ⟨VInv.base 0 1 (by norm_num), ?_, ?_, ?_⟩
            · simp only [VEB.min]
              norm_num
            · simp only [VEB.max]
              norm_num
            · intro y hy
              rw [member_base_iff, member_base_iff]
              constructor
              · rintro (h | h)
                · exact Or.inl (Or.inl h)
                · exact Or.inr h
              · rintro ((h | h) | h)
                · exact Or.inl h
                · exact Or.inl h
                · exact Or.inr h
          · rw [if_pos (by norm_num : (0 : Int) < 1)]
            rw [if_pos (by norm_num : (0 : Int) < 1)]
            rw [if_neg (by norm_num : ¬(1 : Int) < 1)]
            refine ⟨VInv.base 0 1 (by norm_num), ?_, ?_, ?_⟩
            · simp only [VEB.min]
              norm_num
            · simp only [VEB.max]
              norm_num
            · intro y hy
              rw [member_base_iff, member_base_iff]
              constructor
              · rintro (h | h)
                · exact Or.inr h
                · exact Or.inl (Or.inl h)
              · rintro ((h | h) | h)
                · exact Or.inr h
                · exact Or.inr h
                · exact Or.inl h
    | node mn mx lo up s cl a b ha1 hb1 hloPow hupPow hIs hsu hlen hIc hcu hm1 hbnds hsum hclb hmaxw hsing =>
      have hIV : VInv (VEB.mk (lo * up) mn mx lo up (some s) cl) :=
        VInv.node mn mx lo up s cl a b ha1 hb1 hloPow hupPow hIs hsu hlen hIc hcu hm1 hbnds
          hsum hclb hmaxw hsing
      have hlo2 : (2 : Int) ≤ lo := hloPow ▸ two_le_two_pow a ha1
      have hup2 : (2 : Int) ≤ up := hupPow ▸ two_le_two_pow b hb1
      have hu4 : (4 : Int) ≤ lo * up := by nlinarith
      simp only [VEB.u] at hn hxu
      have hlon : lo.toNat ≤ n := by
        have h1 : lo < lo * up := by nlinarith
        omega
      have hupn : up.toNat ≤ n := by
        have h1 : up < lo * up := by nlinarith
        omega
      rw [vEB_insert_eq]
      rw [if_neg (by omega : ¬(x < 0 ∨ lo * up ≤ x))]
      by_cases hmem : vEB_member (some (VEB.mk (lo * up) mn mx lo up (some s) cl)) x = true
      · rw [if_pos hmem]
        exact vinv_noop_out _ hIV x hx hmem
      · rw [if_neg hmem]
        have hmemF : vEB_member (some (VEB.mk (lo * up) mn mx lo up (some s) cl)) x = false := by
          simpa using hmem
        rw [vEB_member_eq] at hmemF
        have hxnm : ¬(x = mn ∨ x = mx) := by
          intro h
          rw [if_pos h] at hmemF
          exact absurd hmemF (by simp)
        rw [if_neg hxnm, if_neg (by omega : ¬lo * up ≤ 2)] at hmemF
        have hnormV := fun (y : Int) (hy : 0 ≤ y) =>
          vinv_mem_norm _ hIV (by simp only [VEB.u]; omega) y hy
        simp only [VEB.min, VEB.cluster, VEB.lower_sqrt] at hnormV
        by_cases hmn1 : mn = -1
        · rw [if_pos hmn1]
          subst hmn1
          have hmx1 : mx = -1 := hm1 rfl
          subst hmx1
          have hce : ∀ d ∈ cl, d.min = -1 := hsing rfl
          dsimp only [vEB_empty_insert]
          have hnewInv : VInv (VEB.mk (lo * up) x x lo up (some s) cl) := by
            refine VInv.node x x lo up s cl a b ha1 hb1 hloPow hupPow hIs hsu hlen hIc hcu
              (fun h => h) (fun _ => ⟨hx, le_refl x, hxu⟩) hsum ?_ (fun _ h => absurd rfl h)
              (fun _ => hce)
            intro h2 l2 h20 h2up l20 l2lo hm2
            rw [clusters_no_mem cl hIc hce h2 l2 l20] at hm2
            exact absurd hm2 (by simp)
          refine ⟨hnewInv, ?_, ?_, ?_⟩
          · simp [VEB.min]
          · simp [VEB.max]
          · intro y hy
            rw [vinv_mem_norm _ hnewInv (by simp only [VEB.u]; omega) y hy]
            simp only [VEB.min, VEB.cluster, VEB.lower_sqrt]
            rw [hnormV y hy]
            rw [clusters_no_mem cl hIc hce (highPart lo y) (lowPart lo y)
              (lowPart_bounds lo y hy (by omega)).1]
            constructor
            · rintro (h | h)
              · exact Or.inr h
              · exact absurd h (by simp)
            · rintro ((h | h) | h)
              · omega
              · exact absurd h (by simp)
              · exact Or.inl h
        · rw [if_neg hmn1]
          dsimp only
          rw [if_pos (by omega : (2 : Int) < lo * up)]
          have hb3 := hbnds hmn1
          obtain ⟨x1, mn1, hx1e, hmn1e, hx1nn, hx1lt, hmn1nn, hmlt, hmnle, hx1nc, hmaxE,
              hminE, hcorner, hkeep⟩ :=
            insert_case_bundle mn mx lo up x s cl hIV hlo2 hup2 hx hxu hmn1 hb3 hxnm hmemF
          rw [hx1e, hmn1e]
          have hhb : 0 ≤ highPart lo x1 := highPart_nonneg lo x1 hx1nn (by omega)
          have hhlt : highPart lo x1 < up := highPart_lt lo up x1 hx1nn (by omega) hx1lt
          have hlb := lowPart_bounds lo x1 hx1nn (by omega)
          rcases hget : clGet cl (highPart lo x1) with _ | c
          · exfalso
            obtain ⟨c, hc, _⟩ := clGet_pos cl (highPart lo x1) hhb (by rw [hlen]; omega)
            rw [hget] at hc
            exact absurd hc (by simp)
          · simp only [hget]
            have hcin : c ∈ cl := clGet_mem hget
            have hIcc : VInv c := hIc c hcin
            have hcuc : c.u = lo := hcu c hcin
            have hcn2 : c.u.toNat ≤ n := by
              rw [hcuc]
              exact hlon
            by_cases hcmin : c.min = -1
            · rw [if_pos hcmin]
              try dsimp only
              obtain ⟨hsInv, hsMin, hsMax, hsMem⟩ :=
                ih s (by rw [hsu]; exact hupn) hIs (highPart lo x1) hhb (by rw [hsu]; exact hhlt)
              have hnewInv := vinv_insert_empty_cluster mn mx lo up x1 mn1 s c cl a b
                ha1 hb1 hloPow hupPow hsu hlen hIc hcu hmn1 hb3 hsum hclb hmaxw
                hx1nn hx1lt hmn1nn hmlt hmnle hhb hhlt hlb hget hIcc hcuc hcmin hsInv hsMem hcorner
              refine ⟨hnewInv, ?_, ?_, ?_⟩
              · simp only [VEB.min]
                rw [if_neg hmn1]
                exact hminE
              · simp only [VEB.max]
                rw [if_neg (by omega : ¬mx = -1)]
                exact hmaxE
              · exact insert_member_formula mn mx lo up x1 mn1 _ x s c _ cl _
                  hlo2 hup2 hlen hx1nn hhb hhlt hget hnewInv
                  (empty_insert_mem_or c hIcc hcmin (lowPart lo x1)) hnormV hkeep
            · rw [if_neg hcmin]
              try dsimp only
              obtain ⟨hcInv1, hcMin1, hcMax1, hcMem1⟩ :=
                ih c hcn2 hIcc (lowPart lo x1) hlb.1 (by rw [hcuc]; exact hlb.2)
              have hnewInv := vinv_insert_full_cluster mn mx lo up x1 mn1 s c cl a b
                ha1 hb1 hloPow hupPow hIs hsu hlen hIc hcu hmn1 hb3 hsum hclb hmaxw hsing
                hx1nn hx1lt hmn1nn hmlt hmnle hhb hhlt hlb hget hIcc hcuc hcmin
                hcInv1 hcMin1 hcMem1
              refine ⟨hnewInv, ?_, ?_, ?_⟩
              · simp only [VEB.min]
                rw [if_neg hmn1]
                exact hminE
              · simp only [VEB.max]
                rw [if_neg (by omega : ¬mx = -1)]
                exact hmaxE
              · exact insert_member_formula mn mx lo up x1 mn1 _ x s c _ cl _
                  hlo2 hup2 hlen hx1nn hhb hhlt hget hnewInv hcMem1 hnormV hkeep

theorem clGet_of_mem {cl : List VEB} {d : VEB} (h : d ∈ cl) :
    ∃ i : Int, 0 ≤ i ∧ i.toNat < cl.length ∧ clGet cl i = some d := by
  obtain ⟨k, hk⟩ := List.get?_of_mem h
  have hklen : k < cl.length := List.get?_eq_some.mp hk |>.1
  refine ⟨(k : Int), by positivity, ?_, ?_⟩
  · simpa using hklen
  · unfold clGet
    rw [if_neg (by omega)]
    simpa using hk

theorem vinv_minmax_link (W : VEB) (hI : VInv W) : W.min = -1 ↔ W.max = -1 := by
  cases hI with
  | base mn mx hst =>
    simp only [VEB.min, VEB.max]
    rcases hst with ⟨h1, h2⟩ | ⟨h1, h2⟩ | ⟨h1, h2⟩ | ⟨h1, h2⟩ <;> omega
  | node mn mx lo up s cl a b ha1 hb1 hloPow hupPow hIs hsu hlen hIc hcu hm1 hbnds hsum hclb hmaxw hsing =>
    simp only [VEB.min, VEB.max]
    constructor
    · exact hm1
    · intro h
      by_contra hmn
      have := hbnds hmn
      omega

/-- The single-element (or empty) collapse of `vEB_delete` preserves the
invariant: with `min = max` every cluster is empty, so resetting the caches
to the sentinel leaves a valid empty node. -/
theorem vinv_delete_singleton
    (mn mx lo up : Int) (s : VEB) (cl : List VEB) (a b : Nat)
    (ha1 : 1 ≤ a) (hb1 : 1 ≤ b) (hloPow : lo = (2 : Int) ^ a) (hupPow : up = (2 : Int) ^ b)
    (hIs : VInv s) (hsu : s.u = up) (hlen : cl.length = up.toNat)
    (hIc : ∀ d ∈ cl, VInv d) (hcu : ∀ d ∈ cl, d.u = lo)
    (hsum : ∀ h : Int, 0 ≤ h → h < up →
       (vEB_member (some s) h = true ↔ vEB_min (clGet cl h) ≠ -1))
    (hsing : ∀ d ∈ cl, d.min = -1) :
    VInv (VEB.mk (lo * up) (-1) (-1) lo up (some s) cl) := by
  refine VInv.node (-1) (-1) lo up s cl a b ha1 hb1 hloPow hupPow hIs hsu hlen hIc hcu
    (fun _ => rfl) (fun h => absurd rfl h) hsum ?_ (fun h => absurd rfl h) (fun _ => hsing)
  intro h2 l2 h20 h2up l20 l2lo hm2
  rw [clusters_no_mem cl hIc hsing h2 l2 l20] at hm2
  exact absurd hm2 (by simp)

theorem vinv_nonempty_bounds (W : VEB) (hI : VInv W) (hne : W.min ≠ -1) :
    0 ≤ W.min ∧ W.min ≤ W.max ∧ W.max < W.u := by
  cases hI with
  | base mn mx hst =>
    simp only [VEB.min, VEB.max, VEB.u] at hne ⊢
    rcases hst with ⟨h1, h2⟩ | ⟨h1, h2⟩ | ⟨h1, h2⟩ | ⟨h1, h2⟩ <;> omega
  | node mn mx lo up s cl a b ha1 hb1 hloPow hupPow hIs hsu hlen hIc hcu hm1 hbnds hsum hclb hmaxw hsing =>
    simp only [VEB.min, VEB.max, VEB.u] at hne ⊢
    exact hbnds hne

/-- Invariant preservation for a delete that leaves its cluster non-empty:
only the cluster and (possibly) the cached extremes change. -/
theorem vinv_delete_full_cluster
    (mn mx lo up x1 mn1 : Int) (s c : VEB) (cl : List VEB) (a b : Nat)
    (ha1 : 1 ≤ a) (hb1 : 1 ≤ b) (hloPow : lo = (2 : Int) ^ a) (hupPow : up = (2 : Int) ^ b)
    (hIs : VInv s) (hsu : s.u = up) (hlen : cl.length = up.toNat)
    (hIc : ∀ d ∈ cl, VInv d) (hcu : ∀ d ∈ cl, d.u = lo)
    (hsum : ∀ h : Int, 0 ≤ h → h < up →
       (vEB_member (some s) h = true ↔ vEB_min (clGet cl h) ≠ -1))
    (hclb : ∀ h l : Int, 0 ≤ h → h < up → 0 ≤ l → l < lo →
       vEB_member (clGet cl h) l = true → mn < idxPart lo h l ∧ idxPart lo h l ≤ mx)
    (hmaxw : mn ≠ -1 → mn ≠ mx →
       vEB_member (clGet cl (highPart lo mx)) (lowPart lo mx) = true)
    (hmnx : mn ≠ mx) (hb3 : 0 ≤ mn ∧ mn ≤ mx ∧ mx < lo * up)
    (hx1nn : 0 ≤ x1) (hx1lt : x1 < lo * up) (hmn1nn : 0 ≤ mn1)
    (hmn1mx : mn1 ≤ mx) (hx1mx : x1 ≤ mx)
    (hmn1mxne : x1 ≠ mx → mn1 ≠ mx)
    (hrem : ∀ h2 l2 : Int, 0 ≤ h2 → h2 < up → 0 ≤ l2 → l2 < lo →
      vEB_member (clGet cl h2) l2 = true → idxPart lo h2 l2 ≠ x1 →
      mn1 < idxPart lo h2 l2)
    (hhb : 0 ≤ highPart lo x1) (hhlt : highPart lo x1 < up)
    (hlb : 0 ≤ lowPart lo x1 ∧ lowPart lo x1 < lo)
    (hget : clGet cl (highPart lo x1) = some c)
    (hIcc : VInv c) (hcuc : c.u = lo)
    (hmemc : vEB_member (some c) (lowPart lo x1) = true)
    (hc1Inv : VInv (vEB_delete c (lowPart lo x1)))
    (hc1Mem : ∀ l2 : Int, 0 ≤ l2 →
      (vEB_member (some (vEB_delete c (lowPart lo x1))) l2 = true ↔
        (vEB_member (some c) l2 = true ∧ l2 ≠ lowPart lo x1)))
    (hc1ne : ¬(vEB_delete c (lowPart lo x1)).min = -1) :
    VInv (VEB.mk (lo * up) mn1
      (if x1 = mx then idxPart lo (highPart lo x1) ((vEB_delete c (lowPart lo x1)).max)
       else mx) lo up (some s) (clSet cl (highPart lo x1) (vEB_delete c (lowPart lo x1)))) := by
  have hlo2 : (2 : Int) ≤ lo := hloPow ▸ two_le_two_pow a ha1
  have hhlen : (highPart lo x1).toNat < cl.length := by
    rw [hlen]
    omega
  have hcne : c.min ≠ -1 := by
    intro he
    rw [vinv_empty_no_mem' c hIcc he _ hlb.1] at hmemc
    exact absurd hmemc (by simp)
  have hc1b := vinv_nonempty_bounds _ hc1Inv hc1ne
  have hc1u : (vEB_delete c (lowPart lo x1)).u = lo := by
    rw [vEB_delete_u]
    exact hcuc
  rw [hc1u] at hc1b
  -- the recomputed max is a surviving member of the same cluster
  have hc1mxc : vEB_member (some c) (vEB_delete c (lowPart lo x1)).max = true ∧
      (vEB_delete c (lowPart lo x1)).max ≠ lowPart lo x1 :=
    (hc1Mem _ (by omega)).mp (member_max_self _)
  have hmxidx : idxPart lo (highPart lo x1) ((vEB_delete c (lowPart lo x1)).max) ≠ x1 := by
    intro he
    have hl := idx_low lo (highPart lo x1) ((vEB_delete c (lowPart lo x1)).max) hhb
      (by omega) (by omega)
    rw [he] at hl
    exact hc1mxc.2 hl.symm
  have hmxrem : mn1 < idxPart lo (highPart lo x1) ((vEB_delete c (lowPart lo x1)).max) :=
    hrem _ _ hhb hhlt (by omega) (by omega) (by rw [hget]; exact hc1mxc.1) hmxidx
  refine VInv.node mn1 _ lo up s _ a b ha1 hb1 hloPow hupPow hIs hsu
    (by rw [clSet_length]; exact hlen) ?_ ?_ ?_ ?_ ?_ ?_ ?_ ?_
  · intro d hd
    rcases mem_clSet _ _ _ _ hd with h | h
    · exact hIc d h
    · rw [h]
      exact hc1Inv
  · intro d hd
    rcases mem_clSet _ _ _ _ hd with h | h
    · exact hcu d h
    · rw [h]
      exact hc1u
  · intro h
    exact absurd h (by omega)
  · intro _
    refine ⟨hmn1nn, ?_, ?_⟩
    · by_cases hc2 : x1 = mx
      · rw [if_pos hc2]
        omega
      · rw [if_neg hc2]
        omega
    · by_cases hc2 : x1 = mx
      · rw [if_pos hc2]
        exact idx_lt lo up _ _ hhlt (by omega) (by omega)
      · rw [if_neg hc2]
        omega
  · intro h2 h20 h2up
    by_cases hh2 : h2 = highPart lo x1
    · subst hh2
      rw [clGet_clSet_self cl _ _ hhb hhlen]
      simp only [vEB_min]
      constructor
      · intro _
        exact hc1ne
      · intro _
        refine (hsum _ hhb hhlt).mpr ?_
        rw [hget]
        simpa [vEB_min] using hcne
    · rw [clGet_clSet_ne cl _ _ _ hhb hh2]
      exact hsum h2 h20 h2up
  · intro h2 l2 h20 h2up l20 l2lo hm2
    by_cases hh2 : h2 = highPart lo x1
    · subst hh2
      rw [clGet_clSet_self cl _ _ hhb hhlen] at hm2
      obtain ⟨hmc, hlne⟩ := (hc1Mem l2 l20).mp hm2
      have hneidx : idxPart lo (highPart lo x1) l2 ≠ x1 := by
        intro he
        have hl := idx_low lo (highPart lo x1) l2 hhb l20 l2lo
        rw [he] at hl
        exact hlne hl.symm
      have hmc2 : vEB_member (clGet cl (highPart lo x1)) l2 = true := by
        rw [hget]
        exact hmc
      refine ⟨hrem _ _ hhb hhlt l20 l2lo hmc2 hneidx, ?_⟩
      by_cases hc2 : x1 = mx
      · rw [if_pos hc2]
        have hub := vinv_mem_bounds' _ hc1Inv l2 l20 hm2
        rcases lt_or_eq_of_le hub.2.2.1 with h | h
        · exact le_of_lt ((idx_lt_idx lo (highPart lo x1) l2 (highPart lo x1)
            ((vEB_delete c (lowPart lo x1)).max) l20 l2lo (by omega) (by omega)).mpr
            (Or.inr ⟨rfl, h⟩))
        · exact le_of_eq (by rw [h])
      · rw [if_neg hc2]
        exact (hclb _ l2 hhb hhlt l20 l2lo hmc2).2
    · rw [clGet_clSet_ne cl _ _ _ hhb hh2] at hm2
      have hold := hclb h2 l2 h20 h2up l20 l2lo hm2
      refine ⟨hrem h2 l2 h20 h2up l20 l2lo hm2 ?_, ?_⟩
      · intro he
        have := idx_high lo h2 l2 h20 l20 l2lo
        rw [he] at this
        exact hh2 this.symm
      · by_cases hc2 : x1 = mx
        · rw [if_pos hc2]
          have hylt : idxPart lo h2 l2 < x1 := by
            rcases lt_or_eq_of_le hold.2 with h | h
            · omega
            · exfalso
              have := idx_high lo h2 l2 h20 l20 l2lo
              rw [h] at this
              exact hh2 (by rw [hc2]; exact this.symm)
          have hx1split : idxPart lo (highPart lo x1) (lowPart lo x1) = x1 :=
            idx_split lo x1 hx1nn (by omega)
          have hh2lt : h2 < highPart lo x1 := by
            rw [← hx1split] at hylt
            rcases (idx_lt_idx lo h2 l2 (highPart lo x1) (lowPart lo x1) l20 l2lo
              hlb.1 hlb.2).mp hylt with h | ⟨h, _⟩
            · exact h
            · exact absurd h hh2
          exact le_of_lt ((idx_lt_idx lo h2 l2 (highPart lo x1)
            ((vEB_delete c (lowPart lo x1)).max) l20 l2lo (by omega) (by omega)).mpr
            (Or.inl hh2lt))
        · rw [if_neg hc2]
          omega
  · intro hmn1ne hnem
    by_cases hc2 : x1 = mx
    · rw [if_pos hc2] at hnem ⊢
      rw [idx_high lo _ _ hhb (by omega) (by omega), idx_low lo _ _ hhb (by omega) (by omega)]
      rw [clGet_clSet_self cl _ _ hhb hhlen]
      exact member_max_self _
    · rw [if_neg hc2] at hnem ⊢
      have hmw := hmaxw (by omega) hmnx
      by_cases hhmx : highPart lo mx = highPart lo x1
      · rw [hhmx, hget] at hmw
        have hlowne : lowPart lo mx ≠ lowPart lo x1 := by
          intro he
          have h1 := idx_split lo mx (by omega) (by omega : (0 : Int) < lo)
          have h2 := idx_split lo x1 hx1nn (by omega : (0 : Int) < lo)
          rw [← h1, hhmx, he, h2] at hc2
          exact hc2 rfl
        rw [hhmx, clGet_clSet_self cl _ _ hhb hhlen]
        exact (hc1Mem _ (lowPart_bounds lo mx (by omega) (by omega)).1).mpr ⟨hmw, hlowne⟩
      · rw [clGet_clSet_ne cl _ _ _ hhb hhmx]
        exact hmw
  · intro hmm
    exfalso
    by_cases hc2 : x1 = mx
    · rw [if_pos hc2] at hmm
      omega
    · rw [if_neg hc2] at hmm
      omega

/-- Invariant preservation for a delete that empties its cluster: the high
part is also removed from the summary, and `max` is recomputed from the new
summary maximum (or collapses onto the new `min` when the summary empties). -/
theorem vinv_delete_empty_cluster
    (mn mx lo up x1 mn1 : Int) (s c : VEB) (cl : List VEB) (a b : Nat)
    (ha1 : 1 ≤ a) (hb1 : 1 ≤ b) (hloPow : lo = (2 : Int) ^ a) (hupPow : up = (2 : Int) ^ b)
    (hIs : VInv s) (hsu : s.u = up) (hlen : cl.length = up.toNat)
    (hIc : ∀ d ∈ cl, VInv d) (hcu : ∀ d ∈ cl, d.u = lo)
    (hsum : ∀ h : Int, 0 ≤ h → h < up →
       (vEB_member (some s) h = true ↔ vEB_min (clGet cl h) ≠ -1))
    (hclb : ∀ h l : Int, 0 ≤ h → h < up → 0 ≤ l → l < lo →
       vEB_member (clGet cl h) l = true → mn < idxPart lo h l ∧ idxPart lo h l ≤ mx)
    (hmaxw : mn ≠ -1 → mn ≠ mx →
       vEB_member (clGet cl (highPart lo mx)) (lowPart lo mx) = true)
    (hmnx : mn ≠ mx) (hb3 : 0 ≤ mn ∧ mn ≤ mx ∧ mx < lo * up)
    (hx1nn : 0 ≤ x1) (hx1lt : x1 < lo * up) (hmn1nn : 0 ≤ mn1)
    (hmn1mx : mn1 ≤ mx) (hx1mx : x1 ≤ mx)
    (hmn1mxne : x1 ≠ mx → mn1 ≠ mx)
    (hrem : ∀ h2 l2 : Int, 0 ≤ h2 → h2 < up → 0 ≤ l2 → l2 < lo →
      vEB_member (clGet cl h2) l2 = true → idxPart lo h2 l2 ≠ x1 →
      mn1 < idxPart lo h2 l2)
    (hhb : 0 ≤ highPart lo x1) (hhlt : highPart lo x1 < up)
    (hlb : 0 ≤ lowPart lo x1 ∧ lowPart lo x1 < lo)
    (hget : clGet cl (highPart lo x1) = some c)
    (hIcc : VInv c) (hcuc : c.u = lo)
    (hmemc : vEB_member (some c) (lowPart lo x1) = true)
    (hc1Inv : VInv (vEB_delete c (lowPart lo x1)))
    (hc1Mem : ∀ l2 : Int, 0 ≤ l2 →
      (vEB_member (some (vEB_delete c (lowPart lo x1))) l2 = true ↔
        (vEB_member (some c) l2 = true ∧ l2 ≠ lowPart lo x1)))
    (hc1min : (vEB_delete c (lowPart lo x1)).min = -1)
    (hs1Inv : VInv (vEB_delete s (highPart lo x1)))
    (hs1Mem : ∀ h : Int, 0 ≤ h →
      (vEB_member (some (vEB_delete s (highPart lo x1))) h = true ↔
        (vEB_member (some s) h = true ∧ h ≠ highPart lo x1))) :
    VInv (VEB.mk (lo * up) mn1
      (if x1 = mx then
        (if (vEB_delete s (highPart lo x1)).max = -1 then mn1
         else idxPart lo ((vEB_delete s (highPart lo x1)).max)
           (vEB_max (clGet (clSet cl (highPart lo x1) (vEB_delete c (lowPart lo x1)))
             ((vEB_delete s (highPart lo x1)).max))))
       else mx) lo up
      (some (vEB_delete s (highPart lo x1)))
      (clSet cl (highPart lo x1) (vEB_delete c (lowPart lo x1)))) := by
  have hlo2 : (2 : Int) ≤ lo := hloPow ▸ two_le_two_pow a ha1
  have hhlen : (highPart lo x1).toNat < cl.length := by
    rw [hlen]
    omega
  have hs1u : (vEB_delete s (highPart lo x1)).u = up := by
    rw [vEB_delete_u]
    exact hsu
  have hc1u : (vEB_delete c (lowPart lo x1)).u = lo := by
    rw [vEB_delete_u]
    exact hcuc
  -- the new summary-cluster synchronisation
  have hsum1 : ∀ h2 : Int, 0 ≤ h2 → h2 < up →
      (vEB_member (some (vEB_delete s (highPart lo x1))) h2 = true ↔
        vEB_min (clGet (clSet cl (highPart lo x1) (vEB_delete c (lowPart lo x1))) h2) ≠ -1) := by
    intro h2 h20 h2up
    rw [hs1Mem h2 h20]
    by_cases hh2 : h2 = highPart lo x1
    · subst hh2
      rw [clGet_clSet_self cl _ _ hhb hhlen]
      simp only [vEB_min]
      constructor
      · rintro ⟨_, hne⟩
        exact absurd rfl hne
      · intro h
        exact absurd hc1min h
    · rw [clGet_clSet_ne cl _ _ _ hhb hh2, and_iff_left hh2]
      exact hsum h2 h20 h2up
  -- any surviving cluster entry is a surviving summary entry
  have hsurv : ∀ h2 l2 : Int, 0 ≤ h2 → h2 < up → 0 ≤ l2 → l2 < lo →
      vEB_member (clGet (clSet cl (highPart lo x1) (vEB_delete c (lowPart lo x1))) h2) l2 = true →
      h2 ≠ highPart lo x1 ∧ vEB_member (clGet cl h2) l2 = true ∧
        vEB_member (some (vEB_delete s (highPart lo x1))) h2 = true := by
    intro h2 l2 h20 h2up l20 l2lo hm2
    by_cases hh2 : h2 = highPart lo x1
    · subst hh2
      rw [clGet_clSet_self cl _ _ hhb hhlen] at hm2
      rw [vinv_empty_no_mem' _ hc1Inv hc1min l2 l20] at hm2
      exact absurd hm2 (by simp)
    · rw [clGet_clSet_ne cl _ _ _ hhb hh2] at hm2
      refine ⟨hh2, hm2, ?_⟩
      rcases hg2 : clGet cl h2 with _ | c2
      · rw [hg2] at hm2
        exact absurd hm2 (by simp [vEB_member_none])
      · rw [hg2] at hm2
        have hc2ne : c2.min ≠ -1 := by
          intro he
          rw [vinv_empty_no_mem' c2 (hIc c2 (clGet_mem hg2)) he _ l20] at hm2
          exact absurd hm2 (by simp)
        refine (hs1Mem h2 h20).mpr ⟨?_, hh2⟩
        exact (hsum _ h20 h2up).mpr (by rw [hg2]; simpa [vEB_min] using hc2ne)
  refine VInv.node mn1 _ lo up _ _ a b ha1 hb1 hloPow hupPow hs1Inv hs1u
    (by rw [clSet_length]; exact hlen) ?_ ?_ ?_ ?_ hsum1 ?_ ?_ ?_
  · intro d hd
    rcases mem_clSet _ _ _ _ hd with h | h
    · exact hIc d h
    · rw [h]
      exact hc1Inv
  · intro d hd
    rcases mem_clSet _ _ _ _ hd with h | h
    · exact hcu d h
    · rw [h]
      exact hc1u
  · intro h
    exact absurd h (by omega)
  · -- cached bounds
    intro _
    refine ⟨hmn1nn, ?_, ?_⟩
    · by_cases hc2 : x1 = mx
      · rw [if_pos hc2]
        by_cases hsm : (vEB_delete s (highPart lo x1)).max = -1
        · rw [if_pos hsm]
        · rw [if_neg hsm]
          have hs1ne : (vEB_delete s (highPart lo x1)).min ≠ -1 :=
            fun h => hsm ((vinv_minmax_link _ hs1Inv).mp h)
          have hs1b := vinv_nonempty_bounds _ hs1Inv hs1ne
          rw [hs1u] at hs1b
          obtain ⟨hsmem, hsneq⟩ := (hs1Mem _ (by omega)).mp (member_max_self _)
          have h4m := (hsum _ (by omega) (by omega)).mp hsmem
          rcases hgm : clGet cl (vEB_delete s (highPart lo x1)).max with _ | cm
          · rw [hgm] at h4m
            exact absurd rfl h4m
          · rw [hgm] at h4m
            simp only [vEB_min] at h4m
            have hcmb := vinv_nonempty_bounds cm (hIc cm (clGet_mem hgm)) h4m
            rw [hcu cm (clGet_mem hgm)] at hcmb
            rw [clGet_clSet_ne cl _ _ _ hhb hsneq, hgm]
            simp only [vEB_max]
            have : vEB_member (clGet cl (vEB_delete s (highPart lo x1)).max) cm.max = true := by
              rw [hgm]
              exact member_max_self cm
            have hneq : idxPart lo ((vEB_delete s (highPart lo x1)).max) cm.max ≠ x1 := by
              intro he
              have hh := idx_high lo ((vEB_delete s (highPart lo x1)).max) cm.max (by omega) (by omega) (by omega)
              rw [he] at hh
              exact hsneq hh.symm
            exact le_of_lt (hrem _ _ (by omega) (by omega) (by omega) (by omega) this hneq)
      · rw [if_neg hc2]
        omega
    · by_cases hc2 : x1 = mx
      · rw [if_pos hc2]
        by_cases hsm : (vEB_delete s (highPart lo x1)).max = -1
        · rw [if_pos hsm]
          omega
        · rw [if_neg hsm]
          have hs1ne : (vEB_delete s (highPart lo x1)).min ≠ -1 :=
            fun h => hsm ((vinv_minmax_link _ hs1Inv).mp h)
          have hs1b := vinv_nonempty_bounds _ hs1Inv hs1ne
          rw [hs1u] at hs1b
          obtain ⟨hsmem, hsneq⟩ := (hs1Mem _ (by omega)).mp (member_max_self _)
          have h4m := (hsum _ (by omega) (by omega)).mp hsmem
          rcases hgm : clGet cl (vEB_delete s (highPart lo x1)).max with _ | cm
          · rw [hgm] at h4m
            exact absurd rfl h4m
          · rw [hgm] at h4m
            simp only [vEB_min] at h4m
            have hcmb := vinv_nonempty_bounds cm (hIc cm (clGet_mem hgm)) h4m
            rw [hcu cm (clGet_mem hgm)] at hcmb
            rw [clGet_clSet_ne cl _ _ _ hhb hsneq, hgm]
            simp only [vEB_max]
            exact idx_lt lo up _ _ (by omega) (by omega) (by omega)
      · rw [if_neg hc2]
        omega
  · -- cluster elements lie in (min1, max1]
    intro h2 l2 h20 h2up l20 l2lo hm2
    obtain ⟨hh2, hmold, hs1m⟩ := hsurv h2 l2 h20 h2up l20 l2lo hm2
    have hneidx : idxPart lo h2 l2 ≠ x1 := by
      intro he
      have := idx_high lo h2 l2 h20 l20 l2lo
      rw [he] at this
      exact hh2 this.symm
    refine ⟨hrem h2 l2 h20 h2up l20 l2lo hmold hneidx, ?_⟩
    have hold := hclb h2 l2 h20 h2up l20 l2lo hmold
    by_cases hc2 : x1 = mx
    · rw [if_pos hc2]
      by_cases hsm : (vEB_delete s (highPart lo x1)).max = -1
      · exfalso
        have hs1e : (vEB_delete s (highPart lo x1)).min = -1 :=
          (vinv_minmax_link _ hs1Inv).mpr hsm
        rw [vinv_empty_no_mem' _ hs1Inv hs1e h2 h20] at hs1m
        exact absurd hs1m (by simp)
      · rw [if_neg hsm]
        have hs1ne : (vEB_delete s (highPart lo x1)).min ≠ -1 :=
          fun h => hsm ((vinv_minmax_link _ hs1Inv).mp h)
        have hs1b := vinv_nonempty_bounds _ hs1Inv hs1ne
        rw [hs1u] at hs1b
        obtain ⟨hsmem, hsneq⟩ := (hs1Mem _ (by omega)).mp (member_max_self _)
        have h4m := (hsum _ (by omega) (by omega)).mp hsmem
        rcases hgm : clGet cl (vEB_delete s (highPart lo x1)).max with _ | cm
        · rw [hgm] at h4m
          exact absurd rfl h4m
        · rw [hgm] at h4m
          simp only [vEB_min] at h4m
          have hcmb := vinv_nonempty_bounds cm (hIc cm (clGet_mem hgm)) h4m
          rw [hcu cm (clGet_mem hgm)] at hcmb
          rw [clGet_clSet_ne cl _ _ _ hhb hsneq, hgm]
          simp only [vEB_max]
          have hb2 := vinv_mem_bounds' _ hs1Inv h2 h20 hs1m
          rcases lt_or_eq_of_le hb2.2.2.1 with hlt | heq
          · exact le_of_lt ((idx_lt_idx lo h2 l2 _ cm.max l20 l2lo (by omega)
              (by omega)).mpr (Or.inl hlt))
          · rw [heq] at hmold
            rw [hgm] at hmold
            have hl2b := vinv_mem_bounds' cm (hIc cm (clGet_mem hgm)) l2 l20 hmold
            rcases lt_or_eq_of_le hl2b.2.2.1 with hlt2 | heq2
            · exact le_of_lt ((idx_lt_idx lo h2 l2 _ cm.max l20 l2lo (by omega)
                (by omega)).mpr (Or.inr ⟨heq, hlt2⟩))
            · rw [heq, heq2]
    · rw [if_neg hc2]
      exact hold.2
  · -- the recomputed max is mirrored in its cluster
    intro hmn1ne hnem
    by_cases hc2 : x1 = mx
    · rw [if_pos hc2] at hnem ⊢
      by_cases hsm : (vEB_delete s (highPart lo x1)).max = -1
      · rw [if_pos hsm] at hnem
        exact absurd rfl hnem
      · rw [if_neg hsm] at hnem ⊢
        have hs1ne : (vEB_delete s (highPart lo x1)).min ≠ -1 :=
          fun h => hsm ((vinv_minmax_link _ hs1Inv).mp h)
        have hs1b := vinv_nonempty_bounds _ hs1Inv hs1ne
        rw [hs1u] at hs1b
        obtain ⟨hsmem, hsneq⟩ := (hs1Mem _ (by omega)).mp (member_max_self _)
        have h4m := (hsum _ (by omega) (by omega)).mp hsmem
        rcases hgm : clGet cl (vEB_delete s (highPart lo x1)).max with _ | cm
        · rw [hgm] at h4m
          exact absurd rfl h4m
        · rw [hgm] at h4m
          simp only [vEB_min] at h4m
          have hcmb := vinv_nonempty_bounds cm (hIc cm (clGet_mem hgm)) h4m
          rw [hcu cm (clGet_mem hgm)] at hcmb
          rw [clGet_clSet_ne cl _ _ _ hhb hsneq, hgm]
          simp only [vEB_max]
          rw [idx_high lo _ cm.max (by omega) (by omega) (by omega),
            idx_low lo _ cm.max (by omega) (by omega) (by omega)]
          rw [clGet_clSet_ne cl _ _ _ hhb hsneq, hgm]
          exact member_max_self cm
    · rw [if_neg hc2] at hnem ⊢
      have hmw := hmaxw (by omega) hmnx
      by_cases hhmx : highPart lo mx = highPart lo x1
      · exfalso
        rw [hhmx, hget] at hmw
        have hlowne : lowPart lo mx ≠ lowPart lo x1 := by
          intro he
          have h1 := idx_split lo mx (by omega) (by omega : (0 : Int) < lo)
          have h2 := idx_split lo x1 hx1nn (by omega : (0 : Int) < lo)
          rw [← h1, hhmx, he, h2] at hc2
          exact hc2 rfl
        have hc1memall := (hc1Mem _ (lowPart_bounds lo mx (by omega) (by omega)).1).mpr
          ⟨hmw, hlowne⟩
        rw [vinv_empty_no_mem' _ hc1Inv hc1min _
          (lowPart_bounds lo mx (by omega) (by omega)).1] at hc1memall
        exact absurd hc1memall (by simp)
      · rw [clGet_clSet_ne cl _ _ _ hhb hhmx]
        exact hmw
  · -- a collapsed node has all clusters empty
    intro hmm d hd
    by_cases hc2 : x1 = mx
    · rw [if_pos hc2] at hmm
      by_cases hsm : (vEB_delete s (highPart lo x1)).max = -1
      · have hs1e : (vEB_delete s (highPart lo x1)).min = -1 :=
          (vinv_minmax_link _ hs1Inv).mpr hsm
        obtain ⟨i, hi0, hilen, hig⟩ := clGet_of_mem hd
        rw [clSet_length, hlen] at hilen
        have hiup : i < up := by omega
        by_cases hih : i = highPart lo x1
        · subst hih
          rw [clGet_clSet_self cl _ _ hhb hhlen] at hig
          injection hig with h
          rw [← h]
          exact hc1min
        · by_contra hdne
          have : vEB_member (some (vEB_delete s (highPart lo x1))) i = true := by
            refine (hsum1 i hi0 hiup).mpr ?_
            rw [hig]
            simpa [vEB_min] using hdne
          rw [vinv_empty_no_mem' _ hs1Inv hs1e i hi0] at this
          exact absurd this (by simp)
      · exfalso
        rw [if_neg hsm] at hmm
        have hs1ne : (vEB_delete s (highPart lo x1)).min ≠ -1 :=
          fun h => hsm ((vinv_minmax_link _ hs1Inv).mp h)
        have hs1b := vinv_nonempty_bounds _ hs1Inv hs1ne
        rw [hs1u] at hs1b
        obtain ⟨hsmem, hsneq⟩ := (hs1Mem _ (by omega)).mp (member_max_self _)
        have h4m := (hsum _ (by omega) (by omega)).mp hsmem
        rcases hgm : clGet cl (vEB_delete s (highPart lo x1)).max with _ | cm
        · rw [hgm] at h4m
          exact absurd rfl h4m
        · rw [hgm] at h4m
          simp only [vEB_min] at h4m
          have hcmb := vinv_nonempty_bounds cm (hIc cm (clGet_mem hgm)) h4m
          rw [hcu cm (clGet_mem hgm)] at hcmb
          rw [clGet_clSet_ne cl _ _ _ hhb hsneq, hgm] at hmm
          simp only [vEB_max] at hmm
          have hmm2 : vEB_member (clGet cl (vEB_delete s (highPart lo x1)).max) cm.max = true := by
            rw [hgm]
            exact member_max_self cm
          have hneq : idxPart lo ((vEB_delete s (highPart lo x1)).max) cm.max ≠ x1 := by
            intro he
            have hh := idx_high lo ((vEB_delete s (highPart lo x1)).max) cm.max (by omega) (by omega) (by omega)
            rw [he] at hh
            exact hsneq hh.symm
          have := hrem _ _ (by omega) (by omega) (by omega) (by omega) hmm2 hneq
          omega
    · exfalso
      rw [if_neg hc2] at hmm
      exact (hmn1mxne hc2) hmm

/-- Case analysis for the general delete path: the value `x1` actually
removed from the clusters (either `x` itself, or the successor of the old
`min` promoted from the first non-empty cluster) and the new cached `min`. -/
theorem delete_case_bundle
    (mn mx lo up x : Int) (s : VEB) (cl : List VEB)
    (hIV : VInv (VEB.mk (lo * up) mn mx lo up (some s) cl))
    (hIs : VInv s) (hsu : s.u = up) (hlen : cl.length = up.toNat)
    (hIc : ∀ d ∈ cl, VInv d) (hcu : ∀ d ∈ cl, d.u = lo)
    (hsum : ∀ h : Int, 0 ≤ h → h < up →
       (vEB_member (some s) h = true ↔ vEB_min (clGet cl h) ≠ -1))
    (hclb : ∀ h l : Int, 0 ≤ h → h < up → 0 ≤ l → l < lo →
       vEB_member (clGet cl h) l = true → mn < idxPart lo h l ∧ idxPart lo h l ≤ mx)
    (hmaxw : mn ≠ -1 → mn ≠ mx →
       vEB_member (clGet cl (highPart lo mx)) (lowPart lo mx) = true)
    (hlo2 : (2 : Int) ≤ lo) (hup2 : (2 : Int) ≤ up)
    (hmnx : mn ≠ mx)
    (hb3 : 0 ≤ mn ∧ mn ≤ mx ∧ mx < lo * up)
    (hx : 0 ≤ x)
    (hxmemN : x = mn ∨ vEB_member (clGet cl (highPart lo x)) (lowPart lo x) = true) :
    ∃ x1 mn1 : Int,
      (if x = mn then idxPart lo (vEB_min (some s)) (vEB_min (clGet cl (vEB_min (some s))))
       else x) = x1 ∧
      (if x = mn then x1 else mn) = mn1 ∧
      0 ≤ x1 ∧ x1 < lo * up ∧ 0 ≤ mn1 ∧ mn1 ≤ mx ∧ x1 ≤ mx ∧
      vEB_member (clGet cl (highPart lo x1)) (lowPart lo x1) = true ∧
      (x1 ≠ mx → mn1 ≠ mx) ∧
      (∀ h2 l2 : Int, 0 ≤ h2 → h2 < up → 0 ≤ l2 → l2 < lo →
        vEB_member (clGet cl h2) l2 = true → idxPart lo h2 l2 ≠ x1 →
        mn1 < idxPart lo h2 l2) ∧
      (∀ y : Int, 0 ≤ y → ∀ P : Prop,
        (P ↔ vEB_member (clGet cl (highPart lo y)) (lowPart lo y) = true) →
        ((y = mn1 ∨ (P ∧ y ≠ x1)) ↔ ((y = mn ∨ P) ∧ y ≠ x))) := by
  have hmn0 : 0 ≤ mn := hb3.1
  have hcmB := fun (y : Int) (hy : 0 ≤ y)
      (hcm : vEB_member (clGet cl (highPart lo y)) (lowPart lo y) = true) =>
    vinv_cm_bounds _ hIV (by simp only [VEB.u]; nlinarith) y hy hcm
  simp only [VEB.min, VEB.max] at hcmB
  by_cases hxmn : x = mn
  · -- delete-min: promote the smallest cluster element
    subst hxmn
    have hmw := hmaxw (by omega) hmnx
    have hmx0 : 0 ≤ mx := by omega
    have hmxlb := lowPart_bounds lo mx hmx0 (by omega)
    have hmxhb : 0 ≤ highPart lo mx := highPart_nonneg lo mx hmx0 (by omega)
    have hmxhlt : highPart lo mx < up := highPart_lt lo up mx hmx0 (by omega) (by omega)
    rcases hgmx : clGet cl (highPart lo mx) with _ | cmx
    · rw [hgmx] at hmw
      exact absurd hmw (by simp [vEB_member_none])
    · rw [hgmx] at hmw
      have hcmxne : cmx.min ≠ -1 := by
        intro he
        rw [vinv_empty_no_mem' cmx (hIc cmx (clGet_mem hgmx)) he _ hmxlb.1] at hmw
        exact absurd hmw (by simp)
      have hsmx : vEB_member (some s) (highPart lo mx) = true :=
        (hsum _ hmxhb hmxhlt).mpr (by rw [hgmx]; simpa [vEB_min] using hcmxne)
      have hsb := vinv_mem_bounds' s hIs (highPart lo mx) hmxhb hsmx
      have hsmin0 : 0 ≤ s.min := hsb.1
      have hsminlt : s.min < up := by
        rw [hsu] at hsb
        omega
      have h4smin := (hsum s.min hsmin0 hsminlt).mp (member_min_self s)
      rcases hgf : clGet cl s.min with _ | cf
      · rw [hgf] at h4smin
        exact absurd rfl h4smin
      · rw [hgf] at h4smin
        simp only [vEB_min] at h4smin
        have hIcf := hIc cf (clGet_mem hgf)
        have hcfu := hcu cf (clGet_mem hgf)
        have hcfmin0 : 0 ≤ cf.min := (vinv_min_cases cf hIcf).resolve_left h4smin
        have hcfb := vinv_mem_bounds' cf hIcf cf.min hcfmin0 (member_min_self cf)
        have hcfminlt : cf.min < lo := by
          rw [hcfu] at hcfb
          omega
        have hx1e : idxPart lo (vEB_min (some s)) (vEB_min (clGet cl (vEB_min (some s)))) =
            idxPart lo s.min cf.min := by
          simp only [vEB_min]
          rw [hgf]
        have hhigh : highPart lo (idxPart lo s.min cf.min) = s.min :=
          idx_high lo s.min cf.min hsmin0 hcfmin0 hcfminlt
        have hlow : lowPart lo (idxPart lo s.min cf.min) = cf.min :=
          idx_low lo s.min cf.min hsmin0 hcfmin0 hcfminlt
        have hx1mc : vEB_member (clGet cl (highPart lo (idxPart lo s.min cf.min)))
            (lowPart lo (idxPart lo s.min cf.min)) = true := by
          rw [hhigh, hlow, hgf]
          exact member_min_self cf
        have hx1b := hclb s.min cf.min hsmin0 hsminlt hcfmin0 hcfminlt
          (by rw [hgf]; exact member_min_self cf)
        have hleast : ∀ h2 l2 : Int, 0 ≤ h2 → h2 < up → 0 ≤ l2 → l2 < lo →
            vEB_member (clGet cl h2) l2 = true → idxPart lo h2 l2 ≠ idxPart lo s.min cf.min →
            idxPart lo s.min cf.min < idxPart lo h2 l2 := by
          intro h2 l2 h20 h2lt l20 l2lo hm2 hne
          rcases hg2 : clGet cl h2 with _ | c2
          · rw [hg2] at hm2
            exact absurd hm2 (by simp [vEB_member_none])
          · rw [hg2] at hm2
            have hc2ne : c2.min ≠ -1 := by
              intro he
              rw [vinv_empty_no_mem' c2 (hIc c2 (clGet_mem hg2)) he _ l20] at hm2
              exact absurd hm2 (by simp)
            have hs2 : vEB_member (some s) h2 = true :=
              (hsum _ h20 h2lt).mpr (by rw [hg2]; simpa [vEB_min] using hc2ne)
            have hs2b := vinv_mem_bounds' s hIs h2 h20 hs2
            rcases lt_or_eq_of_le hs2b.2.1 with hlt | heq
            · exact (idx_lt_idx lo s.min cf.min h2 l2 hcfmin0 hcfminlt l20 l2lo).mpr
                (Or.inl hlt)
            · subst heq
              rw [hgf] at hg2
              cases hg2
              have hcfl := vinv_mem_bounds' cf hIcf l2 l20 hm2
              rcases lt_or_eq_of_le hcfl.2.1 with hlt2 | heq2
              · exact (idx_lt_idx lo s.min cf.min s.min l2 hcfmin0 hcfminlt l20 l2lo).mpr
                  (Or.inr ⟨rfl, hlt2⟩)
              · rw [heq2] at hne
                exact absurd rfl hne
        refine ⟨idxPart lo s.min cf.min, idxPart lo s.min cf.min,
          by rw [if_pos rfl]; exact hx1e, if_pos rfl,
          idx_nonneg lo s.min cf.min hsmin0 hcfmin0 (by omega),
          idx_lt lo up s.min cf.min hsminlt hcfmin0 hcfminlt,
          idx_nonneg lo s.min cf.min hsmin0 hcfmin0 (by omega),
          hx1b.2, hx1b.2, hx1mc, fun h => h, hleast, ?_⟩
        intro y hy P hP
        constructor
        · rintro (h | ⟨hp, hne⟩)
          · subst h
            exact ⟨Or.inr (hP.mpr hx1mc), by omega⟩
          · refine ⟨Or.inr hp, ?_⟩
            have := hcmB y hy (hP.mp hp)
            omega
        · rintro ⟨h | hp, hne⟩
          · omega
          · by_cases hyx1 : y = idxPart lo s.min cf.min
            · exact Or.inl hyx1
            · exact Or.inr ⟨hp, hyx1⟩
  · -- delete of a cluster-resident value
    have hxmc : vEB_member (clGet cl (highPart lo x)) (lowPart lo x) = true :=
      hxmemN.resolve_left hxmn
    have hxb := hcmB x hx hxmc
    refine ⟨x, mn, if_neg hxmn, if_neg hxmn, hx, by omega, hmn0, by omega, by omega,
      hxmc, fun _ => hmnx, ?_, ?_⟩
    · intro h2 l2 h20 h2lt l20 l2lo hm2 hne
      exact (hclb h2 l2 h20 h2lt l20 l2lo hm2).1
    · intro y hy P hP
      constructor
      · rintro (h | ⟨hp, hne⟩)
        · exact ⟨Or.inl h, by omega⟩
        · exact ⟨Or.inr hp, hne⟩
      · rintro ⟨h | hp, hne⟩
        · exact Or.inl h
        · exact Or.inr ⟨hp, hne⟩

/-- Membership after an internal-node delete, shared by both cluster-update
paths: the updated cluster loses exactly the low part of the removed key. -/
theorem delete_member_formula
    (mn mx lo up x1 mn1 mx1 x : Int) (s c cnew : VEB) (cl : List VEB)
    (sm1 : Option VEB)
    (hlo2 : (2 : Int) ≤ lo) (hup2 : (2 : Int) ≤ up)
    (hlen : cl.length = up.toNat)
    (hx1nn : 0 ≤ x1)
    (hhb : 0 ≤ highPart lo x1) (hhlt : highPart lo x1 < up)
    (hget : clGet cl (highPart lo x1) = some c)
    (hnewInv : VInv (VEB.mk (lo * up) mn1 mx1 lo up sm1
      (clSet cl (highPart lo x1) cnew)))
    (hcnewMem : ∀ l2 : Int, 0 ≤ l2 →
      (vEB_member (some cnew) l2 = true ↔
        (vEB_member (some c) l2 = true ∧ l2 ≠ lowPart lo x1)))
    (hnormV : ∀ y : Int, 0 ≤ y →
      (vEB_member (some (VEB.mk (lo * up) mn mx lo up (some s) cl)) y = true ↔
        (y = mn ∨ vEB_member (clGet cl (highPart lo y)) (lowPart lo y) = true)))
    (hset : ∀ y : Int, 0 ≤ y → ∀ P : Prop,
      (P ↔ vEB_member (clGet cl (highPart lo y)) (lowPart lo y) = true) →
      ((y = mn1 ∨ (P ∧ y ≠ x1)) ↔ ((y = mn ∨ P) ∧ y ≠ x))) :
    ∀ y : Int, 0 ≤ y →
      (vEB_member (some (VEB.mk (lo * up) mn1 mx1 lo up sm1
          (clSet cl (highPart lo x1) cnew))) y = true ↔
        (vEB_member (some (VEB.mk (lo * up) mn mx lo up (some s) cl)) y = true ∧ y ≠ x)) := by
  have hhlen : (highPart lo x1).toNat < cl.length := by
    rw [hlen]
    omega
  intro y hy
  rw [vinv_mem_norm _ hnewInv (by simp only [VEB.u]; nlinarith) y hy]
  simp only [VEB.min, VEB.cluster, VEB.lower_sqrt]
  rw [hnormV y hy]
  by_cases hhy : highPart lo y = highPart lo x1
  · rw [hhy, clGet_clSet_self cl _ _ hhb hhlen]
    rw [hcnewMem (lowPart lo y) (lowPart_bounds lo y hy (by omega)).1]
    have hiffl : lowPart lo y = lowPart lo x1 ↔ y = x1 := by
      constructor
      · intro h
        have h1 := idx_split lo y hy (by omega : (0 : Int) < lo)
        have h2 := idx_split lo x1 hx1nn (by omega : (0 : Int) < lo)
        rw [← h1, ← h2, hhy, h]
      · intro h
        rw [h]
    rw [hget]
    rw [show (lowPart lo y ≠ lowPart lo x1) ↔ y ≠ x1 from not_congr hiffl]
    exact hset y hy (vEB_member (some c) (lowPart lo y) = true) (by rw [hhy, hget])
  · rw [clGet_clSet_ne cl _ _ _ hhb hhy]
    have hyx1 : y ≠ x1 := by
      intro h
      rw [h] at hhy
      exact hhy rfl
    rw [← hset y hy (vEB_member (clGet cl (highPart lo y)) (lowPart lo y) = true) Iff.rfl]
    constructor
    · rintro (h | h)
      · exact Or.inl h
      · exact Or.inr ⟨h, hyx1⟩
    · rintro (h | ⟨h, _⟩)
      · exact Or.inl h
      · exact Or.inr h

/-- `vEB_delete` of a member on an invariant tree preserves the invariant
and removes exactly that member. -/
theorem delete_ok : ∀ (n : Nat) (V : VEB), V.u.toNat ≤ n → VInv V →
    ∀ x : Int, 0 ≤ x → vEB_member (some V) x = true →
    VInv (vEB_delete V x) ∧
    (∀ y : Int, 0 ≤ y → (vEB_member (some (vEB_delete V x)) y = true ↔
        (vEB_member (some V) y = true ∧ y ≠ x))) := by
  intro n
  induction n with
  | zero =>
    intro V hn hI
    have := vinv_u_ge V hI
    omega
  | succ n ih =>
    intro V hn hI x hx hmem
    cases hI with
    | base mn mx hst =>
      rw [member_base_iff] at hmem
      rw [vEB_delete_eq]
      rw [if_neg (by rcases hst with ⟨h1, h2⟩ | ⟨h1, h2⟩ | ⟨h1, h2⟩ | ⟨h1, h2⟩ <;> omega :
        ¬(x < 0 ∨ (2 : Int) ≤ x))]
      by_cases hmm2 : mn = mx
      · rw [if_pos hmm2]
        refine ⟨VInv.base (-1) (-1) (Or.inl ⟨rfl, rfl⟩), ?_⟩
        intro y hy
        rw [member_base_iff, member_base_iff]
        constructor
        · rintro (h | h) <;> omega
        · rintro ⟨h | h, hne⟩ <;> omega
      · rw [if_neg hmm2, if_pos rfl]
        dsimp only
        have hstate : mn = 0 ∧ mx = 1 := by
          rcases hst with ⟨h1, h2⟩ | ⟨h1, h2⟩ | ⟨h1, h2⟩ | ⟨h1, h2⟩ <;>
            first
              | exact absurd (h1.trans h2.symm) hmm2
              | exact ⟨h1, h2⟩
        obtain ⟨hmn0, hmx1⟩ := hstate
        subst hmn0
        subst hmx1
        by_cases hx0 : x = 0
        · rw [if_pos hx0]
          subst hx0
          refine ⟨VInv.base 1 1 (by norm_num), ?_⟩
          intro y hy
          rw [member_base_iff, member_base_iff]
          constructor
          · rintro (h | h) <;> omega
          · rintro ⟨h | h, hne⟩ <;> omega
        · rw [if_neg hx0]
          have hx1 : x = 1 := by omega
          subst hx1
          refine ⟨VInv.base 0 0 (by norm_num), ?_⟩
          intro y hy
          rw [member_base_iff, member_base_iff]
          constructor
          · rintro (h | h) <;> omega
          · rintro ⟨h | h, hne⟩ <;> omega
    | node mn mx lo up s cl a b ha1 hb1 hloPow hupPow hIs hsu hlen hIc hcu hm1 hbnds hsum hclb hmaxw hsing =>
      have hIV : VInv (VEB.mk (lo * up) mn mx lo up (some s) cl) :=
        VInv.node mn mx lo up s cl a b ha1 hb1 hloPow hupPow hIs hsu hlen hIc hcu hm1 hbnds
          hsum hclb hmaxw hsing
      have hlo2 : (2 : Int) ≤ lo := hloPow ▸ two_le_two_pow a ha1
      have hup2 : (2 : Int) ≤ up := hupPow ▸ two_le_two_pow b hb1
      have hu4 : (4 : Int) ≤ lo * up := by nlinarith
      simp only [VEB.u] at hn
      have hlon : lo.toNat ≤ n := by
        have h1 : lo < lo * up := by nlinarith
        omega
      have hupn : up.toNat ≤ n := by
        have h1 : up < lo * up := by nlinarith
        omega
      have hxb := vinv_mem_bounds' _ hIV x hx hmem
      simp only [VEB.min, VEB.max, VEB.u] at hxb
      have hnormV := fun (y : Int) (hy : 0 ≤ y) =>
        vinv_mem_norm _ hIV (by simp only [VEB.u]; omega) y hy
      simp only [VEB.min, VEB.cluster, VEB.lower_sqrt] at hnormV
      have hxmemN : x = mn ∨
          vEB_member (clGet cl (highPart lo x)) (lowPart lo x) = true :=
        (hnormV x hx).mp hmem
      rw [vEB_delete_eq]
      rw [if_neg (by omega : ¬(x < 0 ∨ lo * up ≤ x))]
      by_cases hmm2 : mn = mx
      · rw [if_pos hmm2]
        have hsing2 := hsing hmm2
        have hnewInv := vinv_delete_singleton mn mx lo up s cl a b ha1 hb1 hloPow hupPow
          hIs hsu hlen hIc hcu hsum hsing2
        refine ⟨hnewInv, ?_⟩
        intro y hy
        have hxeq : x = mn := by
          rcases hxmemN with h | h
          · exact h
          · rw [clusters_no_mem cl hIc hsing2 _ _ (lowPart_bounds lo x hx (by omega)).1] at h
            exact absurd h (by simp)
        rw [vinv_empty_no_mem' _ hnewInv rfl y hy]
        rw [hnormV y hy]
        rw [clusters_no_mem cl hIc hsing2 (highPart lo y) (lowPart lo y)
          (lowPart_bounds lo y hy (by omega)).1]
        constructor
        · intro h
          exact absurd h (by simp)
        · rintro ⟨h | h, hne⟩
          · exact absurd (h.trans hxeq.symm) hne
          · exact absurd h (by simp)
      · rw [if_neg hmm2, if_neg (by omega : ¬lo * up = 2)]
        dsimp only
        have hb3 : 0 ≤ mn ∧ mn ≤ mx ∧ mx < lo * up := ⟨by omega, by omega, by omega⟩
        obtain ⟨x1, mn1, hx1e, hmn1e, hx1nn, hx1lt, hmn1nn, hmn1mx, hx1mx, hx1mc,
            hmn1mxne, hrem, hset⟩ :=
          delete_case_bundle mn mx lo up x s cl hIV hIs hsu hlen hIc hcu hsum hclb hmaxw
            hlo2 hup2 hmm2 hb3 hx hxmemN
        rw [hx1e, hmn1e]
        have hhb : 0 ≤ highPart lo x1 := highPart_nonneg lo x1 hx1nn (by omega)
        have hhlt : highPart lo x1 < up := highPart_lt lo up x1 hx1nn (by omega) hx1lt
        have hlb := lowPart_bounds lo x1 hx1nn (by omega)
        rcases hget : clGet cl (highPart lo x1) with _ | c
        · exfalso
          rw [hget] at hx1mc
          exact absurd hx1mc (by simp [vEB_member_none])
        · simp only [hget]
          rw [hget] at hx1mc
          have hcin : c ∈ cl := clGet_mem hget
          have hIcc : VInv c := hIc c hcin
          have hcuc : c.u = lo := hcu c hcin
          have hcn2 : c.u.toNat ≤ n := by
            rw [hcuc]
            exact hlon
          obtain ⟨hc1Inv, hc1Mem⟩ := ih c hcn2 hIcc (lowPart lo x1) hlb.1 hx1mc
          by_cases hc1min : (vEB_delete c (lowPart lo x1)).min = -1
          · rw [if_pos hc1min]
            try dsimp only
            dsimp only [vEB_max]
            have hcne : c.min ≠ -1 := by
              intro he
              rw [vinv_empty_no_mem' c hIcc he _ hlb.1] at hx1mc
              exact absurd hx1mc (by simp)
            have hsmemh : vEB_member (some s) (highPart lo x1) = true :=
              (hsum _ hhb hhlt).mpr (by rw [hget]; simpa [vEB_min] using hcne)
            obtain ⟨hs1Inv, hs1Mem⟩ :=
              ih s (by rw [hsu]; exact hupn) hIs (highPart lo x1) hhb hsmemh
            have hnewInv := vinv_delete_empty_cluster mn mx lo up x1 mn1 s c cl a b
              ha1 hb1 hloPow hupPow hIs hsu hlen hIc hcu hsum hclb hmaxw hmm2 hb3
              hx1nn hx1lt hmn1nn hmn1mx hx1mx hmn1mxne hrem hhb hhlt hlb hget hIcc hcuc
              hx1mc hc1Inv hc1Mem hc1min hs1Inv hs1Mem
            exact ⟨hnewInv, delete_member_formula mn mx lo up x1 mn1 _ x s c _ cl _
              hlo2 hup2 hlen hx1nn hhb hhlt hget hnewInv hc1Mem hnormV hset⟩
          · rw [if_neg hc1min]
            try dsimp only
            have hnewInv := vinv_delete_full_cluster mn mx lo up x1 mn1 s c cl a b
              ha1 hb1 hloPow hupPow hIs hsu hlen hIc hcu hsum hclb hmaxw hmm2 hb3
              hx1nn hx1lt hmn1nn hmn1mx hx1mx hmn1mxne hrem hhb hhlt hlb hget hIcc hcuc
              hx1mc hc1Inv hc1Mem hc1min
            exact ⟨hnewInv, delete_member_formula mn mx lo up x1 mn1 _ x s c _ cl _
              hlo2 hup2 hlen hx1nn hhb hhlt hget hnewInv hc1Mem hnormV hset⟩

theorem idx_mono_l (lo h l1 l2 : Int) (h12 : l1 ≤ l2) :
    idxPart lo h l1 ≤ idxPart lo h l2 := by
  unfold idxPart
  linarith

/-- A value found in a cluster witnesses the cluster index in the summary. -/
theorem cluster_mem_summary
    (up : Int) (s : VEB) (cl : List VEB)
    (hsum : ∀ h : Int, 0 ≤ h → h < up →
       (vEB_member (some s) h = true ↔ vEB_min (clGet cl h) ≠ -1))
    (hIc : ∀ d ∈ cl, VInv d)
    (h2 l2 : Int) (h20 : 0 ≤ h2) (h2up : h2 < up) (l20 : 0 ≤ l2)
    (hm2 : vEB_member (clGet cl h2) l2 = true) :
    vEB_member (some s) h2 = true := by
  rcases hg2 : clGet cl h2 with _ | c2
  · rw [hg2] at hm2
    exact absurd hm2 (by simp [vEB_member_none])
  · rw [hg2] at hm2
    have hc2ne : c2.min ≠ -1 := by
      intro he
      rw [vinv_empty_no_mem' c2 (hIc c2 (clGet_mem hg2)) he _ l20] at hm2
      exact absurd hm2 (by simp)
    exact (hsum _ h20 h2up).mpr (by rw [hg2]; simpa [vEB_min] using hc2ne)

/-- `vEB_successor` on an invariant tree returns the least member strictly
above `x`, or `-1` when there is none. -/
theorem succ_ok : ∀ (n : Nat) (V : VEB), V.u.toNat ≤ n → VInv V →
    ∀ x : Int, 0 ≤ x → x < V.u →
    (vEB_successor V x = -1 ∨
      (x < vEB_successor V x ∧ vEB_successor V x < V.u ∧
       vEB_member (some V) (vEB_successor V x) = true)) ∧
    (∀ z : Int, x < z → z < V.u → vEB_member (some V) z = true →
      vEB_successor V x ≠ -1 ∧ vEB_successor V x ≤ z) := by
  intro n
  induction n with
  | zero =>
    intro V hn hI
    have := vinv_u_ge V hI
    omega
  | succ n ih =>
    intro V hn hI x hx hxu
    cases hI with
    | base mn mx hst =>
      simp only [VEB.u] at hxu ⊢
      rw [vEB_successor_eq, if_pos (by norm_num : (2 : Int) ≤ 2)]
      by_cases hc : x = 0 ∧ mx = 1
      · rw [if_pos hc]
        constructor
        · refine Or.inr ⟨by omega, by omega, ?_⟩
          rw [member_base_iff]
          exact Or.inr hc.2.symm
        · intro z hz1 hz2 hzm
          omega
      · rw [if_neg hc]
        refine ⟨Or.inl rfl, ?_⟩
        intro z hz1 hz2 hzm
        exfalso
        rw [member_base_iff] at hzm
        have hx0 : x = 0 := by omega
        have hz1' : z = 1 := by omega
        have hmx : mx = 1 := by
          rcases hst with ⟨h1, h2⟩ | ⟨h1, h2⟩ | ⟨h1, h2⟩ | ⟨h1, h2⟩ <;> omega
        exact hc ⟨hx0, hmx⟩
    | node mn mx lo up s cl a b ha1 hb1 hloPow hupPow hIs hsu hlen hIc hcu hm1 hbnds hsum hclb hmaxw hsing =>
      have hIV : VInv (VEB.mk (lo * up) mn mx lo up (some s) cl) :=
        VInv.node mn mx lo up s cl a b ha1 hb1 hloPow hupPow hIs hsu hlen hIc hcu hm1 hbnds
          hsum hclb hmaxw hsing
      have hlo2 : (2 : Int) ≤ lo := hloPow ▸ two_le_two_pow a ha1
      have hup2 : (2 : Int) ≤ up := hupPow ▸ two_le_two_pow b hb1
      have hu4 : (4 : Int) ≤ lo * up := by nlinarith
      simp only [VEB.u] at hn hxu ⊢
      have hlon : lo.toNat ≤ n := by
        have h1 : lo < lo * up := by nlinarith
        omega
      have hupn : up.toNat ≤ n := by
        have h1 : up < lo * up := by nlinarith
        omega
      have hnormV := fun (y : Int) (hy : 0 ≤ y) =>
        vinv_mem_norm _ hIV (by simp only [VEB.u]; omega) y hy
      simp only [VEB.min, VEB.cluster, VEB.lower_sqrt] at hnormV
      have hhb : 0 ≤ highPart lo x := highPart_nonneg lo x hx (by omega)
      have hhlt : highPart lo x < up := highPart_lt lo up x hx (by omega) hxu
      have hlb := lowPart_bounds lo x hx (by omega)
      have hxsplit := idx_split lo x hx (by omega : (0 : Int) < lo)
      rw [vEB_successor_eq, if_neg (by omega : ¬lo * up ≤ 2)]
      by_cases hsc : mn ≠ -1 ∧ x < mn
      · rw [if_pos hsc]
        have hbn := hbnds hsc.1
        constructor
        · refine Or.inr ⟨hsc.2, by omega, ?_⟩
          exact (hnormV mn (by omega)).mpr (Or.inl rfl)
        · intro z hz1 hz2 hzm
          have := vinv_mem_bounds' _ hIV z (by omega) hzm
          simp only [VEB.min] at this
          exact ⟨by omega, by omega⟩
      · rw [if_neg hsc]
        rcases hget : clGet cl (highPart lo x) with _ | c
        · exfalso
          obtain ⟨c, hc, _⟩ := clGet_pos cl (highPart lo x) hhb (by rw [hlen]; omega)
          rw [hget] at hc
          exact absurd hc (by simp)
        · simp only [hget]
          have hcin : c ∈ cl := clGet_mem hget
          have hIcc : VInv c := hIc c hcin
          have hcuc : c.u = lo := hcu c hcin
          have hcn2 : c.u.toNat ≤ n := by
            rw [hcuc]
            exact hlon
          -- decompose any witness z into cluster coordinates
          have hzdec : ∀ z : Int, x < z → z < lo * up →
              vEB_member (some (VEB.mk (lo * up) mn mx lo up (some s) cl)) z = true →
              vEB_member (clGet cl (highPart lo z)) (lowPart lo z) = true ∧
              (highPart lo x < highPart lo z ∨
               (highPart lo x = highPart lo z ∧ lowPart lo x < lowPart lo z)) := by
            intro z hz1 hz2 hzm
            have hz0 : 0 ≤ z := by omega
            have hzcm : vEB_member (clGet cl (highPart lo z)) (lowPart lo z) = true := by
              rcases (hnormV z hz0).mp hzm with h | h
              · exfalso
                omega
              · exact h
            have hzsplit := idx_split lo z hz0 (by omega : (0 : Int) < lo)
            have hzlb := lowPart_bounds lo z hz0 (by omega)
            have hzhb : 0 ≤ highPart lo z := highPart_nonneg lo z hz0 (by omega)
            have hord : x < z := hz1
            rw [← hxsplit, ← hzsplit] at hord
            exact ⟨hzcm, (idx_lt_idx lo (highPart lo x) (lowPart lo x) (highPart lo z)
              (lowPart lo z) hlb.1 hlb.2 hzlb.1 hzlb.2).mp hord⟩
          by_cases hcm : c.max ≠ -1 ∧ lowPart lo x < c.max
          · rw [if_pos hcm]
            obtain ⟨hcA, hcB⟩ := ih c hcn2 hIcc (lowPart lo x) hlb.1 (by rw [hcuc]; omega)
            have hcmaxb := vinv_nonempty_bounds c hIcc
              (fun h => hcm.1 ((vinv_minmax_link c hIcc).mp h))
            rw [hcuc] at hcmaxb
            obtain ⟨hcne, hcle⟩ := hcB c.max hcm.2 (by rw [hcuc]; omega) (member_max_self c)
            rcases hcA with h | ⟨hgt, hlt, hmemc⟩
            · exact absurd h hcne
            · rw [hcuc] at hlt
              constructor
              · refine Or.inr ⟨?_, ?_, ?_⟩
                · calc x = idxPart lo (highPart lo x) (lowPart lo x) := hxsplit.symm
                    _ < idxPart lo (highPart lo x) (vEB_successor c (lowPart lo x)) :=
                      (idx_lt_idx lo _ _ _ _ hlb.1 hlb.2 (by omega) hlt).mpr
                        (Or.inr ⟨rfl, hgt⟩)
                · exact idx_lt lo up _ _ hhlt (by omega) hlt
                · refine (hnormV _ (idx_nonneg lo _ _ hhb (by omega) (by omega))).mpr
                    (Or.inr ?_)
                  rw [idx_high lo _ _ hhb (by omega) hlt, idx_low lo _ _ hhb (by omega) hlt,
                    hget]
                  exact hmemc
              · intro z hz1 hz2 hzm
                have hz0 : 0 ≤ z := by omega
                obtain ⟨hzcm, hcase⟩ := hzdec z hz1 hz2 hzm
                have hzsplit := idx_split lo z hz0 (by omega : (0 : Int) < lo)
                have hzlb := lowPart_bounds lo z hz0 (by omega)
                have hresnn := idx_nonneg lo (highPart lo x)
                  (vEB_successor c (lowPart lo x)) hhb (by omega) (by omega)
                refine ⟨by omega, ?_⟩
                rcases hcase with hlt2 | ⟨heq2, hlt2⟩
                · refine le_of_lt ?_
                  calc idxPart lo (highPart lo x) (vEB_successor c (lowPart lo x))
                      < idxPart lo (highPart lo z) (lowPart lo z) :=
                        (idx_lt_idx lo _ _ _ _ (by omega) hlt hzlb.1 hzlb.2).mpr (Or.inl hlt2)
                    _ = z := hzsplit
                · rw [← heq2] at hzcm
                  rw [hget] at hzcm
                  obtain ⟨_, hle2⟩ := hcB (lowPart lo z) hlt2 (by rw [hcuc]; exact hzlb.2) hzcm
                  calc idxPart lo (highPart lo x) (vEB_successor c (lowPart lo x))
                      ≤ idxPart lo (highPart lo x) (lowPart lo z) := idx_mono_l lo _ _ _ hle2
                    _ = z := by rw [heq2]; exact hzsplit
          · rw [if_neg hcm]
            try dsimp only
            obtain ⟨hsA, hsB⟩ := ih s (by rw [hsu]; exact hupn) hIs (highPart lo x) hhb
              (by rw [hsu]; exact hhlt)
            -- no element of cluster (high x) exceeds (low x)
            have hnozc : ∀ lz : Int, lowPart lo x < lz → lz < lo →
                vEB_member (some c) lz = true → False := by
              intro lz hlz1 hlz2 hzm2
              have hlzb := vinv_mem_bounds' c hIcc lz (by omega) hzm2
              have : c.max ≠ -1 := by omega
              exact hcm ⟨this, by omega⟩
            by_cases hscc : vEB_successor s (highPart lo x) = -1
            · rw [if_pos hscc]
              refine ⟨Or.inl rfl, ?_⟩
              intro z hz1 hz2 hzm
              exfalso
              have hz0 : 0 ≤ z := by omega
              obtain ⟨hzcm, hcase⟩ := hzdec z hz1 hz2 hzm
              have hzlb := lowPart_bounds lo z hz0 (by omega)
              have hzhb : 0 ≤ highPart lo z := highPart_nonneg lo z hz0 (by omega)
              have hzhlt : highPart lo z < up := highPart_lt lo up z hz0 (by omega) hz2
              rcases hcase with hlt2 | ⟨heq2, hlt2⟩
              · have hs2 := cluster_mem_summary up s cl hsum hIc _ _ hzhb hzhlt hzlb.1 hzcm
                rw [← hsu] at hzhlt
                exact (hsB (highPart lo z) hlt2 hzhlt hs2).1 hscc
              · rw [← heq2, hget] at hzcm
                exact hnozc (lowPart lo z) hlt2 hzlb.2 hzcm
            · rw [if_neg hscc]
              rcases hsA with h | ⟨hsgt, hslt, hsmem⟩
              · exact absurd h hscc
              · rw [hsu] at hslt
                have h4 := (hsum _ (by omega) hslt).mp hsmem
                rcases hgn : clGet cl (vEB_successor s (highPart lo x)) with _ | cn
                · rw [hgn] at h4
                  exact absurd rfl h4
                · rw [hgn] at h4
                  simp only [vEB_min] at h4
                  have hcnb := vinv_nonempty_bounds cn (hIc cn (clGet_mem hgn)) h4
                  rw [hcu cn (clGet_mem hgn)] at hcnb
                  simp only [vEB_min]
                  constructor
                  · refine Or.inr ⟨?_, ?_, ?_⟩
                    · calc x = idxPart lo (highPart lo x) (lowPart lo x) := hxsplit.symm
                        _ < idxPart lo (vEB_successor s (highPart lo x)) cn.min :=
                          (idx_lt_idx lo _ _ _ _ hlb.1 hlb.2 (by omega) (by omega)).mpr
                            (Or.inl hsgt)
                    · exact idx_lt lo up _ _ hslt (by omega) (by omega)
                    · refine (hnormV _ (idx_nonneg lo _ _ (by omega) (by omega)
                        (by omega))).mpr (Or.inr ?_)
                      rw [idx_high lo _ _ (by omega) (by omega) (by omega),
                        idx_low lo _ _ (by omega) (by omega) (by omega), hgn]
                      exact member_min_self cn
                  · intro z hz1 hz2 hzm
                    have hz0 : 0 ≤ z := by omega
                    obtain ⟨hzcm, hcase⟩ := hzdec z hz1 hz2 hzm
                    have hzsplit := idx_split lo z hz0 (by omega : (0 : Int) < lo)
                    have hzlb := lowPart_bounds lo z hz0 (by omega)
                    have hzhb : 0 ≤ highPart lo z := highPart_nonneg lo z hz0 (by omega)
                    have hzhlt : highPart lo z < up := highPart_lt lo up z hz0 (by omega) hz2
                    have hresnn := idx_nonneg lo (vEB_successor s (highPart lo x)) cn.min
                      (by omega) (by omega) (by omega)
                    refine ⟨by omega, ?_⟩
                    rcases hcase with hlt2 | ⟨heq2, hlt2⟩
                    · have hs2 := cluster_mem_summary up s cl hsum hIc _ _ hzhb hzhlt
                        hzlb.1 hzcm
                      obtain ⟨_, hle2⟩ := hsB (highPart lo z) hlt2 (by rw [hsu]; exact hzhlt) hs2
                      rcases lt_or_eq_of_le hle2 with hlt3 | heq3
                      · refine le_of_lt ?_
                        calc idxPart lo (vEB_successor s (highPart lo x)) cn.min
                            < idxPart lo (highPart lo z) (lowPart lo z) :=
                              (idx_lt_idx lo _ _ _ _ (by omega) (by omega)
                                hzlb.1 hzlb.2).mpr (Or.inl hlt3)
                          _ = z := hzsplit
                      · rw [heq3] at hgn ⊢
                        rcases hg2 : clGet cl (highPart lo z) with _ | c2
                        · rw [hg2] at hzcm
                          exact absurd hzcm (by simp [vEB_member_none])
                        · rw [hg2] at hgn hzcm
                          injection hgn with hcneq
                          have := vinv_mem_bounds' c2 (hIc c2 (clGet_mem hg2))
                            (lowPart lo z) hzlb.1 hzcm
                          calc idxPart lo (highPart lo z) cn.min
                              ≤ idxPart lo (highPart lo z) (lowPart lo z) := by
                                refine idx_mono_l lo _ _ _ ?_
                                rw [← hcneq]
                                omega
                            _ = z := hzsplit
                    · rw [← heq2, hget] at hzcm
                      exact absurd (hnozc (lowPart lo z) hlt2 hzlb.2 hzcm) (fun h => h)

/-- `vEB_predecessor` on an invariant tree returns the greatest member
strictly below `x`, or `-1` when there is none. -/
theorem pred_ok : ∀ (n : Nat) (V : VEB), V.u.toNat ≤ n → VInv V →
    ∀ x : Int, 0 ≤ x → x < V.u →
    (vEB_predecessor V x = -1 ∨
      (0 ≤ vEB_predecessor V x ∧ vEB_predecessor V x < x ∧
       vEB_member (some V) (vEB_predecessor V x) = true)) ∧
    (∀ z : Int, 0 ≤ z → z < x → vEB_member (some V) z = true →
      vEB_predecessor V x ≠ -1 ∧ z ≤ vEB_predecessor V x) := by
  intro n
  induction n with
  | zero =>
    intro V hn hI
    have := vinv_u_ge V hI
    omega
  | succ n ih =>
    intro V hn hI x hx hxu
    cases hI with
    | base mn mx hst =>
      simp only [VEB.u] at hxu ⊢
      rw [vEB_predecessor_eq, if_pos (by norm_num : (2 : Int) ≤ 2)]
      by_cases hc : x = 1 ∧ mn = 0
      · rw [if_pos hc]
        constructor
        · refine Or.inr ⟨le_refl 0, by omega, ?_⟩
          rw [member_base_iff]
          exact Or.inl hc.2.symm
        · intro z hz0 hz1 hzm
          omega
      · rw [if_neg hc]
        refine ⟨Or.inl rfl, ?_⟩
        intro z hz0 hz1 hzm
        exfalso
        rw [member_base_iff] at hzm
        have hx1 : x = 1 := by omega
        have hz0' : z = 0 := by omega
        have hmn : mn = 0 := by
          rcases hst with ⟨h1, h2⟩ | ⟨h1, h2⟩ | ⟨h1, h2⟩ | ⟨h1, h2⟩ <;> omega
        exact hc ⟨hx1, hmn⟩
    | node mn mx lo up s cl a b ha1 hb1 hloPow hupPow hIs hsu hlen hIc hcu hm1 hbnds hsum hclb hmaxw hsing =>
      have hIV : VInv (VEB.mk (lo * up) mn mx lo up (some s) cl) :=
        VInv.node mn mx lo up s cl a b ha1 hb1 hloPow hupPow hIs hsu hlen hIc hcu hm1 hbnds
          hsum hclb hmaxw hsing
      have hlo2 : (2 : Int) ≤ lo := hloPow ▸ two_le_two_pow a ha1
      have hup2 : (2 : Int) ≤ up := hupPow ▸ two_le_two_pow b hb1
      have hu4 : (4 : Int) ≤ lo * up := by nlinarith
      simp only [VEB.u] at hn hxu ⊢
      have hlon : lo.toNat ≤ n := by
        have h1 : lo < lo * up := by nlinarith
        omega
      have hupn : up.toNat ≤ n := by
        have h1 : up < lo * up := by nlinarith
        omega
      have hnormV := fun (y : Int) (hy : 0 ≤ y) =>
        vinv_mem_norm _ hIV (by simp only [VEB.u]; omega) y hy
      simp only [VEB.min, VEB.cluster, VEB.lower_sqrt] at hnormV
      have hhb : 0 ≤ highPart lo x := highPart_nonneg lo x hx (by omega)
      have hhlt : highPart lo x < up := highPart_lt lo up x hx (by omega) hxu
      have hlb := lowPart_bounds lo x hx (by omega)
      have hxsplit := idx_split lo x hx (by omega : (0 : Int) < lo)
      -- decompose any witness z into cluster coordinates
      have hzdec : ∀ z : Int, 0 ≤ z → z < x →
          vEB_member (some (VEB.mk (lo * up) mn mx lo up (some s) cl)) z = true →
          z = mn ∨ (vEB_member (clGet cl (highPart lo z)) (lowPart lo z) = true ∧
            (highPart lo z < highPart lo x ∨
             (highPart lo z = highPart lo x ∧ lowPart lo z < lowPart lo x))) := by
        intro z hz0 hz1 hzm
        rcases (hnormV z hz0).mp hzm with h | h
        · exact Or.inl h
        · refine Or.inr ⟨h, ?_⟩
          have hzsplit := idx_split lo z hz0 (by omega : (0 : Int) < lo)
          have hzlb := lowPart_bounds lo z hz0 (by omega)
          have hord : z < x := hz1
          rw [← hxsplit, ← hzsplit] at hord
          exact (idx_lt_idx lo (highPart lo z) (lowPart lo z) (highPart lo x)
            (lowPart lo x) hzlb.1 hzlb.2 hlb.1 hlb.2).mp hord
      rw [vEB_predecessor_eq, if_neg (by omega : ¬lo * up ≤ 2)]
      by_cases hsc : mx ≠ -1 ∧ mx < x
      · rw [if_pos hsc]
        have hmne : mn ≠ -1 := fun h => hsc.1 (hm1 h)
        have hbn := hbnds hmne
        constructor
        · refine Or.inr ⟨by omega, hsc.2, ?_⟩
          exact member_max_self _
        · intro z hz0 hz1 hzm
          have := vinv_mem_bounds' _ hIV z hz0 hzm
          simp only [VEB.max] at this
          exact ⟨hsc.1, by omega⟩
      · rw [if_neg hsc]
        rcases hget : clGet cl (highPart lo x) with _ | c
        · exfalso
          obtain ⟨c, hc, _⟩ := clGet_pos cl (highPart lo x) hhb (by rw [hlen]; omega)
          rw [hget] at hc
          exact absurd hc (by simp)
        · simp only [hget]
          have hcin : c ∈ cl := clGet_mem hget
          have hIcc : VInv c := hIc c hcin
          have hcuc : c.u = lo := hcu c hcin
          have hcn2 : c.u.toNat ≤ n := by
            rw [hcuc]
            exact hlon
          by_cases hcm : c.min ≠ -1 ∧ c.min < lowPart lo x
          · rw [if_pos hcm]
            obtain ⟨hcA, hcB⟩ := ih c hcn2 hIcc (lowPart lo x) hlb.1 (by rw [hcuc]; exact hlb.2)
            have hcminb := vinv_nonempty_bounds c hIcc hcm.1
            rw [hcuc] at hcminb
            obtain ⟨hcne, hcle⟩ := hcB c.min (by omega) hcm.2 (member_min_self c)
            rcases hcA with h | ⟨hge, hlt, hmemc⟩
            · exact absurd h hcne
            · have hresnn := idx_nonneg lo (highPart lo x) (vEB_predecessor c (lowPart lo x))
                hhb hge (by omega)
              have hrescm : vEB_member (clGet cl (highPart lo
                  (idxPart lo (highPart lo x) (vEB_predecessor c (lowPart lo x)))))
                  (lowPart lo (idxPart lo (highPart lo x)
                    (vEB_predecessor c (lowPart lo x)))) = true := by
                rw [idx_high lo _ _ hhb hge (by omega), idx_low lo _ _ hhb hge (by omega), hget]
                exact hmemc
              constructor
              · refine Or.inr ⟨hresnn, ?_, ?_⟩
                · calc idxPart lo (highPart lo x) (vEB_predecessor c (lowPart lo x))
                      < idxPart lo (highPart lo x) (lowPart lo x) :=
                        (idx_lt_idx lo _ _ _ _ hge (by omega) hlb.1 hlb.2).mpr
                          (Or.inr ⟨rfl, hlt⟩)
                    _ = x := hxsplit
                · exact (hnormV _ hresnn).mpr (Or.inr hrescm)
              · intro z hz0 hz1 hzm
                refine ⟨by omega, ?_⟩
                rcases hzdec z hz0 hz1 hzm with h | ⟨hzcm, hcase⟩
                · have := hclb (highPart lo x) (vEB_predecessor c (lowPart lo x)) hhb hhlt
                    hge (by omega) (by rw [hget]; exact hmemc)
                  omega
                · have hzsplit := idx_split lo z hz0 (by omega : (0 : Int) < lo)
                  have hzlb := lowPart_bounds lo z hz0 (by omega)
                  rcases hcase with hlt2 | ⟨heq2, hlt2⟩
                  · refine le_of_lt ?_
                    calc z = idxPart lo (highPart lo z) (lowPart lo z) := hzsplit.symm
                      _ < idxPart lo (highPart lo x) (vEB_predecessor c (lowPart lo x)) :=
                        (idx_lt_idx lo _ _ _ _ hzlb.1 hzlb.2 hge (by omega)).mpr (Or.inl hlt2)
                  · rw [heq2, hget] at hzcm
                    obtain ⟨_, hle2⟩ := hcB (lowPart lo z) hzlb.1 hlt2 hzcm
                    calc z = idxPart lo (highPart lo z) (lowPart lo z) := hzsplit.symm
                      _ ≤ idxPart lo (highPart lo z) (vEB_predecessor c (lowPart lo x)) :=
                        idx_mono_l lo _ _ _ hle2
                      _ = idxPart lo (highPart lo x) (vEB_predecessor c (lowPart lo x)) := by
                        rw [heq2]
          · rw [if_neg hcm]
            try dsimp only
            obtain ⟨hsA, hsB⟩ := ih s (by rw [hsu]; exact hupn) hIs (highPart lo x) hhb
              (by rw [hsu]; exact hhlt)
            -- no element of cluster (high x) sits below (low x)
            have hnozc : ∀ lz : Int, 0 ≤ lz → lz < lowPart lo x →
                vEB_member (some c) lz = true → False := by
              intro lz hlz0 hlz1 hzm2
              have hlzb := vinv_mem_bounds' c hIcc lz hlz0 hzm2
              have hne : c.min ≠ -1 := by omega
              exact hcm ⟨hne, by omega⟩
            by_cases hpc : vEB_predecessor s (highPart lo x) = -1
            · rw [if_pos hpc]
              by_cases hfb : mn ≠ -1 ∧ mn < x
              · rw [if_pos hfb]
                have hbn := hbnds hfb.1
                constructor
                · exact Or.inr ⟨by omega, hfb.2, (hnormV mn (by omega)).mpr (Or.inl rfl)⟩
                · intro z hz0 hz1 hzm
                  refine ⟨by omega, ?_⟩
                  rcases hzdec z hz0 hz1 hzm with h | ⟨hzcm, hcase⟩
                  · omega
                  · exfalso
                    have hzlb := lowPart_bounds lo z hz0 (by omega)
                    have hzhb : 0 ≤ highPart lo z := highPart_nonneg lo z hz0 (by omega)
                    rcases hcase with hlt2 | ⟨heq2, hlt2⟩
                    · have hs2 := cluster_mem_summary up s cl hsum hIc _ _ hzhb
                        (by omega) hzlb.1 hzcm
                      exact (hsB (highPart lo z) hzhb hlt2 hs2).1 hpc
                    · rw [heq2, hget] at hzcm
                      exact hnozc (lowPart lo z) hzlb.1 hlt2 hzcm
              · rw [if_neg hfb]
                refine ⟨Or.inl rfl, ?_⟩
                intro z hz0 hz1 hzm
                exfalso
                by_cases hmne : mn = -1
                · rw [vinv_empty_no_mem' _ hIV (by simp only [VEB.min]; exact hmne) z hz0]
                    at hzm
                  exact absurd hzm (by simp)
                · have hxlemn : x ≤ mn := by
                    rcases not_and_or.mp hfb with h | h
                    · exact absurd hmne h
                    · omega
                  rcases hzdec z hz0 hz1 hzm with h | ⟨hzcm, hcase⟩
                  · omega
                  · have hzlb := lowPart_bounds lo z hz0 (by omega)
                    have hzhb : 0 ≤ highPart lo z := highPart_nonneg lo z hz0 (by omega)
                    have hzhlt : highPart lo z < up :=
                      highPart_lt lo up z hz0 (by omega) (by omega)
                    have := hclb (highPart lo z) (lowPart lo z) hzhb hzhlt hzlb.1 hzlb.2 hzcm
                    have hzsplit := idx_split lo z hz0 (by omega : (0 : Int) < lo)
                    omega
            · rw [if_neg hpc]
              rcases hsA with h | ⟨hge, hlt, hsmem⟩
              · exact absurd h hpc
              · have h4 := (hsum _ hge (by omega)).mp hsmem
                rcases hgp : clGet cl (vEB_predecessor s (highPart lo x)) with _ | cp
                · rw [hgp] at h4
                  exact absurd rfl h4
                · rw [hgp] at h4
                  simp only [vEB_min] at h4
                  have hcpb := vinv_nonempty_bounds cp (hIc cp (clGet_mem hgp)) h4
                  rw [hcu cp (clGet_mem hgp)] at hcpb
                  simp only [vEB_max]
                  have hresnn := idx_nonneg lo (vEB_predecessor s (highPart lo x)) cp.max
                    hge (by omega) (by omega)
                  have hrescm : vEB_member (clGet cl (highPart lo
                      (idxPart lo (vEB_predecessor s (highPart lo x)) cp.max)))
                      (lowPart lo (idxPart lo (vEB_predecessor s (highPart lo x))
                        cp.max)) = true := by
                    rw [idx_high lo _ _ hge (by omega) (by omega),
                      idx_low lo _ _ hge (by omega) (by omega), hgp]
                    exact member_max_self cp
                  constructor
                  · refine Or.inr ⟨hresnn, ?_, ?_⟩
                    · calc idxPart lo (vEB_predecessor s (highPart lo x)) cp.max
                          < idxPart lo (highPart lo x) (lowPart lo x) :=
                            (idx_lt_idx lo _ _ _ _ (by omega) (by omega) hlb.1 hlb.2).mpr
                              (Or.inl hlt)
                        _ = x := hxsplit
                    · exact (hnormV _ hresnn).mpr (Or.inr hrescm)
                  · intro z hz0 hz1 hzm
                    refine ⟨by omega, ?_⟩
                    rcases hzdec z hz0 hz1 hzm with h | ⟨hzcm, hcase⟩
                    · have := hclb (vEB_predecessor s (highPart lo x)) cp.max hge (by omega)
                        (by omega) (by omega) (by rw [hgp]; exact member_max_self cp)
                      omega
                    · have hzsplit := idx_split lo z hz0 (by omega : (0 : Int) < lo)
                      have hzlb := lowPart_bounds lo z hz0 (by omega)
                      have hzhb : 0 ≤ highPart lo z := highPart_nonneg lo z hz0 (by omega)
                      rcases hcase with hlt2 | ⟨heq2, hlt2⟩
                      · have hs2 := cluster_mem_summary up s cl hsum hIc _ _ hzhb
                          (by omega) hzlb.1 hzcm
                        obtain ⟨_, hle2⟩ := hsB (highPart lo z) hzhb hlt2 hs2
                        rcases lt_or_eq_of_le hle2 with hlt3 | heq3
                        · refine le_of_lt ?_
                          calc z = idxPart lo (highPart lo z) (lowPart lo z) := hzsplit.symm
                            _ < idxPart lo (vEB_predecessor s (highPart lo x)) cp.max :=
                              (idx_lt_idx lo _ _ _ _ hzlb.1 hzlb.2 (by omega)
                                (by omega)).mpr (Or.inl hlt3)
                        · rw [heq3] at hzcm
                          rw [hgp] at hzcm
                          have := vinv_mem_bounds' cp (hIc cp (clGet_mem hgp))
                            (lowPart lo z) hzlb.1 hzcm
                          calc z = idxPart lo (highPart lo z) (lowPart lo z) := hzsplit.symm
                            _ ≤ idxPart lo (highPart lo z) cp.max :=
                              idx_mono_l lo _ _ _ (by omega)
                            _ = idxPart lo (vEB_predecessor s (highPart lo x)) cp.max := by
                              rw [heq3]
                      · rw [heq2, hget] at hzcm
                        exact absurd (hnozc (lowPart lo z) hzlb.1 hlt2 hzcm) (fun h => h)

theorem create_min (U : Int) : (vEB_create U).min = -1 := by
  rw [vEB_create_eq]
  split
  · rfl
  · rfl

theorem clGet_replicate (n : Nat) (c : VEB) (h : Int) (h0 : 0 ≤ h) (hn : h.toNat < n) :
    clGet (List.replicate n c) h = some c := by
  obtain ⟨d, hd, hmem⟩ := clGet_pos (List.replicate n c) h h0
    (by rw [List.length_replicate]; exact hn)
  rw [hd, List.eq_of_mem_replicate hmem]

/-- A freshly created power-of-two tree satisfies the full invariant (it is
empty at every level). -/
theorem create_inv : ∀ (k : Nat), 1 ≤ k → VInv (vEB_create ((2 : Int) ^ k)) := by
  intro k
  induction k using Nat.strong_induction_on with
  | _ k ih =>
    intro hk
    by_cases hk1 : k = 1
    · subst hk1
      rw [vEB_create_eq]
      rw [if_neg (by norm_num)]
      exact VInv.base (-1) (-1) (Or.inl ⟨rfl, rfl⟩)
    · have hk2 : 2 ≤ k := by omega
      have hU : (2 : Int) < 2 ^ k := by
        calc (2 : Int) < 4 := by norm_num
        _ = 2 ^ 2 := by norm_num
        _ ≤ 2 ^ k := pow_le_pow_right (by norm_num) hk2
      rw [vEB_create_eq]
      rw [if_pos hU]
      dsimp only
      rw [log2_int_two_pow]
      rw [show Int.tdiv (k : Int) 2 = ((k / 2 : Nat) : Int) from (Int.ofNat_tdiv k 2).symm]
      rw [show (k : Int) - ((k / 2 : Nat) : Int) = ((k - k / 2 : Nat) : Int) from by
        have : k / 2 ≤ k := Nat.div_le_self k 2
        omega]
      rw [pow2_natCast, pow2_natCast]
      have hsplit : (2 : Int) ^ k = 2 ^ (k / 2) * 2 ^ (k - k / 2) := by
        rw [← pow_add]
        congr 1
        omega
      rw [hsplit]
      have hlow1 : 1 ≤ k / 2 := by omega
      have hup1 : 1 ≤ k - k / 2 := by omega
      have hlowlt : k / 2 < k := by omega
      have huplt : k - k / 2 < k := by omega
      have hIs := ih (k - k / 2) huplt hup1
      have hIco := ih (k / 2) hlowlt hlow1
      have hlo2 : (2 : Int) ≤ 2 ^ (k / 2) := two_le_two_pow _ hlow1
      have hup2 : (2 : Int) ≤ 2 ^ (k - k / 2) := two_le_two_pow _ hup1
      refine VInv.node (-1) (-1) _ _ _ _ (k / 2) (k - k / 2) hlow1 hup1 rfl rfl
        hIs (vEB_create_u _) (List.length_replicate _ _) ?_ ?_ (fun _ => rfl)
        (fun h => absurd rfl h) ?_ ?_ (fun h _ => absurd rfl h) ?_
      · intro c hc
        rw [List.eq_of_mem_replicate hc]
        exact hIco
      · intro c hc
        rw [List.eq_of_mem_replicate hc]
        exact vEB_create_u _
      · intro h h0 hup
        rw [vinv_empty_no_mem' _ hIs (create_min _) h h0]
        rw [clGet_replicate _ _ h h0 (by
          have h2 : h < 2 ^ (k - k / 2) := hup
          omega)]
        simp only [vEB_min, create_min]
        constructor
        · intro h2
          exact absurd h2 (by simp)
        · intro h2
          exact absurd rfl h2
      · intro h l h0 hup l0 llo hm
        exfalso
        rw [clGet_replicate _ _ h h0 (by omega)] at hm
        rw [vinv_empty_no_mem' _ hIco (create_min _) l l0] at hm
        exact absurd hm (by simp)
      · intro _ c hc
        rw [List.eq_of_mem_replicate hc]
        exact create_min _

/-- Every tree reachable by in-range inserts and member deletes satisfies
the invariant. -/
theorem goodreach_inv (V : VEB) (h : GoodReach V) : VInv V := by
  induction h with
  | create U k hk hU =>
    rw [hU]
    exact create_inv k hk
  | ins V x hR hx hxu ihg =>
    exact (insert_ok V.u.toNat V (Nat.le_refl _) ihg x hx hxu).1
  | del V x hR hx hmem ihg =>
    exact (delete_ok V.u.toNat V (Nat.le_refl _) ihg x hx hmem).1

/-- The summary/cluster synchronisation property at every internal node of a
tree, stated structurally: wherever a summary child exists, it contains
exactly the indices of the non-empty clusters. -/
inductive SummOk : VEB → Prop where
  | leaf (u mn mx lo up : Int) (cl : List VEB) : SummOk (.mk u mn mx lo up none cl)
  | node (u mn mx lo up : Int) (s : VEB) (cl : List VEB) :
      (∀ h : Int, 0 ≤ h → h < up →
        (vEB_member (some s) h = true ↔ vEB_min (clGet cl h) ≠ -1)) →
      SummOk s → (∀ c ∈ cl, SummOk c) →
      SummOk (.mk u mn mx lo up (some s) cl)

theorem vinv_summok (V : VEB) (h : VInv V) : SummOk V := by
  induction h with
  | base mn mx hst => exact SummOk.leaf _ _ _ _ _ _
  | node mn mx lo up s cl a b ha1 hb1 hloPow hupPow hIs hsu hlen hIc hcu hm1 hbnds hsum hclb hmaxw hsing ihs ihc =>
    exact SummOk.node _ _ _ _ _ _ _ hsum ihs ihc

/-- The cached-extremes property at every node of a tree, stated
structurally: `min = -1` iff `max = -1` iff no element is stored, and on a
non-empty node the cached `min`/`max` are stored elements bounding all
stored elements, within `[0, u-1]`. -/
inductive ExtOk : VEB → Prop where
  | mk (u mn mx lo up : Int) (sm : Option VEB) (cl : List VEB) :
      (mn = -1 ↔ mx = -1) →
      (mn ≠ -1 → 0 ≤ mn ∧ mn ≤ mx ∧ mx ≤ u - 1) →
      (mn = -1 → ∀ y : Int, 0 ≤ y →
        vEB_member (some (.mk u mn mx lo up sm cl)) y = false) →
      (mn ≠ -1 → vEB_member (some (.mk u mn mx lo up sm cl)) mn = true ∧
        vEB_member (some (.mk u mn mx lo up sm cl)) mx = true) →
      (∀ y : Int, 0 ≤ y → vEB_member (some (.mk u mn mx lo up sm cl)) y = true →
        mn ≤ y ∧ y ≤ mx) →
      (∀ s : VEB, sm = some s → ExtOk s) → (∀ c ∈ cl, ExtOk c) →
      ExtOk (.mk u mn mx lo up sm cl)

theorem vinv_extok (V : VEB) (h : VInv V) : ExtOk V := by
  induction h with
  | base mn mx hst =>
    have hIV : VInv (VEB.mk 2 mn mx 0 0 none []) := VInv.base mn mx hst
    refine ExtOk.mk _ _ _ _ _ _ _ ?_ ?_ ?_ ?_ ?_ ?_ ?_
    · simpa [VEB.min, VEB.max] using vinv_minmax_link _ hIV
    · intro h
      rcases hst with ⟨h1, h2⟩ | ⟨h1, h2⟩ | ⟨h1, h2⟩ | ⟨h1, h2⟩ <;>
        exact ⟨by omega, by omega, by omega⟩
    · intro h y hy
      exact vinv_empty_no_mem' _ hIV h y hy
    · intro h
      exact ⟨member_min_self _, member_max_self _⟩
    · intro y hy hm
      have := vinv_mem_bounds' _ hIV y hy hm
      simp only [VEB.min, VEB.max] at this
      exact ⟨this.2.1, this.2.2.1⟩
    · intro s hs
      exact absurd hs (by simp)
    · intro c hc
      exact absurd hc (List.not_mem_nil c)
  | node mn mx lo up s cl a b ha1 hb1 hloPow hupPow hIs hsu hlen hIc hcu hm1 hbnds hsum hclb hmaxw hsing ihs ihc =>
    have hIV : VInv (VEB.mk (lo * up) mn mx lo up (some s) cl) :=
      VInv.node mn mx lo up s cl a b ha1 hb1 hloPow hupPow hIs hsu hlen hIc hcu hm1 hbnds
        hsum hclb hmaxw hsing
    refine ExtOk.mk _ _ _ _ _ _ _ ?_ ?_ ?_ ?_ ?_ ?_ ?_
    · simpa [VEB.min, VEB.max] using vinv_minmax_link _ hIV
    · intro h
      have := hbnds h
      exact ⟨by omega, by omega, by omega⟩
    · intro h y hy
      exact vinv_empty_no_mem' _ hIV h y hy
    · intro h
      exact ⟨member_min_self _, member_max_self _⟩
    · intro y hy hm
      have := vinv_mem_bounds' _ hIV y hy hm
      simp only [VEB.min, VEB.max] at this
      exact ⟨this.2.1, this.2.2.1⟩
    · intro s2 hs2
      injection hs2 with h2
      rw [← h2]
      exact ihs
    · exact ihc

theorem tdiv_neg_cases (lo x : Int) (hlo : 0 < lo) (hx : x < 0) :
    Int.tdiv x lo < 0 ∨ (Int.tdiv x lo = 0 ∧ Int.tmod x lo = x ∧ -x < lo) := by
  rcases le_or_lt lo (-x) with h | h
  · left
    have h1 : Int.tdiv (-x) lo = (-x) / lo := highPart_eq_ediv lo (-x) (by omega) (by omega)
    have h2 : 1 ≤ (-x) / lo := by
      rw [Int.le_ediv_iff_mul_le hlo]
      omega
    have h3 : Int.tdiv x lo = -Int.tdiv (-x) lo := by
      rw [show x = -(-x) by ring, Int.neg_tdiv, neg_neg]
    omega
  · right
    have h1 : Int.tdiv (-x) lo = (-x) / lo := highPart_eq_ediv lo (-x) (by omega) (by omega)
    have h2 : (-x) / lo = 0 := Int.ediv_eq_zero_of_lt (by omega) h
    have h3 : Int.tdiv x lo = -Int.tdiv (-x) lo := by
      rw [show x = -(-x) by ring, Int.neg_tdiv, neg_neg]
    have h4 : Int.tdiv x lo = 0 := by omega
    refine ⟨h4, ?_⟩
    have h5 := Int.tdiv_add_tmod x lo
    rw [h4] at h5
    exact ⟨by omega, by omega⟩

/-- Fuel-indexed out-of-bounds observer for the MEMBER recursion: it takes
the exact branches of `memberF` (the cached-field comparisons, then the base
case, then the descent) and reports `true` as soon as the C code would
evaluate `V->cluster[high(V, x)]` (src/vEBTree.c line 95) with a subscript
outside the allocated cluster array — an out-of-bounds read, undefined
behaviour in C.  When the MEMBER recursion completes without leaving the
array, the observer returns `false`. -/
def memberUBF : Nat → Option VEB → Int → Bool
  | 0, _, _ => false
  | _ + 1, none, _ => false
  | fuel + 1, some (.mk u mn mx lo _ _ cl), x =>
    if x = mn ∨ x = mx then false
    else if u ≤ 2 then false
    else if highPart lo x < 0 ∨ (cl.length : Int) ≤ highPart lo x then true
    else memberUBF fuel (clGet cl (highPart lo x)) (lowPart lo x)

/-- Whether a MEMBER probe performs an out-of-bounds cluster read. -/
def vEB_memberUB (o : Option VEB) (x : Int) : Bool := memberUBF (optSize o) o x

theorem memberUBF_congr : ∀ (n m : Nat) (o : Option VEB) (x : Int),
    optSize o ≤ n → optSize o ≤ m → memberUBF n o x = memberUBF m o x := by
  intro n
  induction n with
  | zero =>
    intro m o x h1 _
    have := optSize_pos o
    omega
  | succ n ih =>
    intro m o x h1 h2
    match m with
    | 0 =>
      have := optSize_pos o
      omega
    | m + 1 =>
      match o with
      | none => simp [memberUBF]
      | some (.mk u mn mx lo up sm cl) =>
        simp only [memberUBF]
        by_cases hx : x = mn ∨ x = mx
        · rw [if_pos hx, if_pos hx]
        · rw [if_neg hx, if_neg hx]
          by_cases hu : u ≤ 2
          · rw [if_pos hu, if_pos hu]
          · rw [if_neg hu, if_neg hu]
            by_cases hb : highPart lo x < 0 ∨ (cl.length : Int) ≤ highPart lo x
            · rw [if_pos hb, if_pos hb]
            · rw [if_neg hb, if_neg hb]
              have hsz : 2 + clsSize cl ≤ optSize (some (VEB.mk u mn mx lo up sm cl)) := by
                have := optSize_pos sm
                simp [optSize, VEB.size]
                omega
              have hcl := clGet_size cl (highPart lo x)
              exact ih m (clGet cl (highPart lo x)) (lowPart lo x) (by omega) (by omega)

theorem memberUBF_eq_memberUB (n : Nat) (o : Option VEB) (x : Int) (h : optSize o ≤ n) :
    memberUBF n o x = vEB_memberUB o x :=
  memberUBF_congr n (optSize o) o x h (Nat.le_refl _)

/-- The recursion of the out-of-bounds observer, fuel-free. -/
theorem vEB_memberUB_eq (u mn mx lo up : Int) (sm : Option VEB) (cl : List VEB) (x : Int) :
    vEB_memberUB (some (.mk u mn mx lo up sm cl)) x =
      (if x = mn ∨ x = mx then false
       else if u ≤ 2 then false
       else if highPart lo x < 0 ∨ (cl.length : Int) ≤ highPart lo x then true
       else vEB_memberUB (clGet cl (highPart lo x)) (lowPart lo x)) := by
  have hsz : 2 + clsSize cl ≤ optSize (some (VEB.mk u mn mx lo up sm cl)) := by
    have := optSize_pos sm
    simp [optSize, VEB.size]
    omega
  show memberUBF (optSize (some (VEB.mk u mn mx lo up sm cl))) _ _ = _
  rcases hk : optSize (some (VEB.mk u mn mx lo up sm cl)) with _ | k
  · omega
  · simp only [memberUBF]
    by_cases hx : x = mn ∨ x = mx
    · rw [if_pos hx, if_pos hx]
    · rw [if_neg hx, if_neg hx]
      by_cases hu : u ≤ 2
      · rw [if_pos hu, if_pos hu]
      · rw [if_neg hu, if_neg hu]
        by_cases hb : highPart lo x < 0 ∨ (cl.length : Int) ≤ highPart lo x
        · rw [if_pos hb, if_pos hb]
        · rw [if_neg hb, if_neg hb]
          have hcl := clGet_size cl (highPart lo x)
          exact memberUBF_eq_memberUB k _ _ (by omega)

/-- On an invariant tree with `u > 2`, a MEMBER probe with `x ≥ u` or
`x ≤ -2` always reaches an out-of-bounds cluster read: the cached fields
never match such an `x`, and the subscript `high(V, x)` is at least
`upper_sqrt` (for `x ≥ u`), negative, or zero with the probe value passed
unchanged into a cluster that again satisfies `u > 2`. -/
theorem memberUB_out : ∀ (n : Nat) (V : VEB), V.u.toNat ≤ n → VInv V → 2 < V.u →
    ∀ x : Int, V.u ≤ x ∨ x ≤ -2 → vEB_memberUB (some V) x = true := by
  intro n
  induction n with
  | zero =>
    intro V hn hI
    have := vinv_u_ge V hI
    omega
  | succ n ih =>
    intro V hn hI hu2 x hx
    cases hI with
    | base mn mx hst =>
      simp only [VEB.u] at hu2
      omega
    | node mn mx lo up s cl a b ha1 hb1 hloPow hupPow hIs hsu hlen hIc hcu hm1 hbnds hsum hclb hmaxw hsing =>
      have hlo2 : (2 : Int) ≤ lo := hloPow ▸ two_le_two_pow a ha1
      have hup2 : (2 : Int) ≤ up := hupPow ▸ two_le_two_pow b hb1
      simp only [VEB.u] at hn hx
      have hlon : lo.toNat ≤ n := by
        have h1 : lo < lo * up := by nlinarith
        omega
      have hmnr : mn = -1 ∨ (0 ≤ mn ∧ mn < lo * up) := by
        by_cases h : mn = -1
        · exact Or.inl h
        · have := hbnds h
          exact Or.inr ⟨by omega, by omega⟩
      have hmxr : mx = -1 ∨ (0 ≤ mx ∧ mx < lo * up) := by
        by_cases h : mn = -1
        · exact Or.inl (hm1 h)
        · have := hbnds h
          exact Or.inr ⟨by omega, by omega⟩
      have hlenI : (cl.length : Int) = up := by
        rw [hlen]
        omega
      have hu4 : (4 : Int) ≤ lo * up := by nlinarith
      rw [vEB_memberUB_eq]
      rw [if_neg (by omega : ¬(x = mn ∨ x = mx))]
      rw [if_neg (by nlinarith : ¬lo * up ≤ 2)]
      rcases hx with hge | hle
      · have hnn : 0 ≤ x := by nlinarith
        have hhigh : up ≤ highPart lo x := by
          rw [highPart_eq_ediv lo x hnn (by omega)]
          rw [Int.le_ediv_iff_mul_le (by omega : (0 : Int) < lo)]
          nlinarith
        rw [if_pos (show highPart lo x < 0 ∨ (cl.length : Int) ≤ highPart lo x from
          Or.inr (by omega))]
      · rcases tdiv_neg_cases lo x (by omega) (by omega) with hneg | ⟨hz, hmod, hxlo⟩
        · rw [if_pos (show highPart lo x < 0 ∨ (cl.length : Int) ≤ highPart lo x from
            Or.inl hneg)]
        · have hcond : ¬(highPart lo x < 0 ∨ (cl.length : Int) ≤ highPart lo x) := by
            unfold highPart
            rw [hz]
            omega
          rw [if_neg hcond]
          unfold highPart lowPart
          rw [hz, hmod]
          rcases hg0 : clGet cl 0 with _ | c0
          · exfalso
            obtain ⟨c, hc, _⟩ := clGet_pos cl 0 (le_refl 0) (by omega)
            rw [hg0] at hc
            exact absurd hc (by simp)
          · have hc0 := clGet_mem hg0
            exact ih c0 (by rw [hcu c0 hc0]; exact hlon) (hIc c0 hc0)
              (by rw [hcu c0 hc0]; omega) x (Or.inr hle)

/-- C1 (amended): on every tree reachable by in-range inserts and deletes of
members only, inserting an in-range `x` makes `Member(tree, x)` true, and a
subsequent `Delete(tree, x)` makes `Member(tree, x)` false.  Over all
reachable trees (which include deletes of absent values) the claim is false:
see the counterexample theorem. -/
theorem claim_C1 (V : VEB) (x : Int) (hR : GoodReach V) (h0 : 0 ≤ x) (hu : x < V.u) :
    vEB_member (some (vEB_insert V x)) x = true ∧
    vEB_member (some (vEB_delete (vEB_insert V x) x)) x = false := by
  have hI := goodreach_inv V hR
  obtain ⟨hI1, _, _, hMem1⟩ := insert_ok V.u.toNat V (Nat.le_refl _) hI x h0 hu
  have hm : vEB_member (some (vEB_insert V x)) x = true := (hMem1 x h0).mpr (Or.inr rfl)
  refine ⟨hm, ?_⟩
  obtain ⟨_, hMem2⟩ := delete_ok (vEB_insert V x).u.toNat _ (Nat.le_refl _) hI1 x h0 hm
  by_contra hne
  have hb : vEB_member (some (vEB_delete (vEB_insert V x) x)) x = true := by
    simpa using hne
  exact ((hMem2 x h0).mp hb).2 rfl

/-- Witness for C1 on the fresh universe-4 tree with `x = 2`. -/
theorem claim_C1_witness :
    vEB_member (some (vEB_insert (vEB_create 4) 2)) 2 = true ∧
    vEB_member (some (vEB_delete (vEB_insert (vEB_create 4) 2) 2)) 2 = false :=
  claim_C1 (vEB_create 4) 2 (GoodReach.create 4 2 (by decide) (by decide))
    (by decide) (by decide)

/-- C2 (amended): on every tree reachable by in-range inserts and deletes of
members only, `Successor(tree, x)` returns `-1` or a member in `(x, U)`, and
is a lower bound of every member above `x`; `Predecessor(tree, x)` returns
`-1` or a member in `[0, x)`, and is an upper bound of every member below
`x`; `x` need not be a member.  Over all reachable trees the claim is false:
see the counterexample theorem. -/
theorem claim_C2 (V : VEB) (x : Int) (hR : GoodReach V) (h0 : 0 ≤ x) (hu : x < V.u) :
    ((vEB_successor V x = -1 ∨
      (x < vEB_successor V x ∧ vEB_successor V x < V.u ∧
       vEB_member (some V) (vEB_successor V x) = true)) ∧
     (∀ z : Int, x < z → z < V.u → vEB_member (some V) z = true →
       vEB_successor V x ≠ -1 ∧ vEB_successor V x ≤ z)) ∧
    ((vEB_predecessor V x = -1 ∨
      (0 ≤ vEB_predecessor V x ∧ vEB_predecessor V x < x ∧
       vEB_member (some V) (vEB_predecessor V x) = true)) ∧
     (∀ z : Int, 0 ≤ z → z < x → vEB_member (some V) z = true →
       vEB_predecessor V x ≠ -1 ∧ z ≤ vEB_predecessor V x)) := by
  have hI := goodreach_inv V hR
  exact ⟨succ_ok V.u.toNat V (Nat.le_refl _) hI x h0 hu,
         pred_ok V.u.toNat V (Nat.le_refl _) hI x h0 hu⟩

/-- Witness for C2 on the tree `{1}` (universe 4) with `x = 0`: the
successor of 0 exists and is at most the member 1. -/
theorem claim_C2_witness :
    vEB_successor (vEB_insert (vEB_create 4) 1) 0 ≠ -1 ∧
    vEB_successor (vEB_insert (vEB_create 4) 1) 0 ≤ 1 :=
  (claim_C2 (vEB_insert (vEB_create 4) 1) 0
    (GoodReach.ins (vEB_create 4) 1 (GoodReach.create 4 2 (by decide) (by decide))
      (by decide) (by decide))
    (by decide) (by decide)).1.2 1 (by decide) (by decide) (by decide)

/-- C3 (amended): on every tree reachable by in-range inserts and deletes of
members only, every internal node keeps its summary synchronised with its
clusters: the summary contains index `i` exactly when cluster `i` is
non-empty.  Over all reachable trees (in-range deletes of absent values
included) the claim is false: see the counterexample theorem. -/
theorem claim_C3 (V : VEB) (hR : GoodReach V) : SummOk V :=
  vinv_summok V (goodreach_inv V hR)

/-- Witness for C3 on the tree `{1}` of universe 4. -/
theorem claim_C3_witness : SummOk (vEB_insert (vEB_create 4) 1) :=
  claim_C3 (vEB_insert (vEB_create 4) 1)
    (GoodReach.ins (vEB_create 4) 1 (GoodReach.create 4 2 (by decide) (by decide))
      (by decide) (by decide))

/-- C5 (amended): `Member` performs no bounds validation, and out-of-range
probes are not uniformly "not found".  For `x = -1` it can return true even
on a fresh empty tree, because `-1` matches the empty sentinel cached in
`minimum` (see the counterexample theorem).  For `x ≥ U` or `x ≤ -2` on a
tree reachable by in-range inserts and deletes of members only: when
`U = 2` the base case returns false without touching the clusters, but when
`U > 2` the recursion evaluates `V->cluster[high(V, x)]` with a subscript
outside the allocated array — an out-of-bounds read (undefined behaviour in
C), not a "not found" result. -/
theorem claim_C5 (V : VEB) (x : Int) (hR : GoodReach V) (hx : V.u ≤ x ∨ x ≤ -2) :
    (V.u = 2 → vEB_member (some V) x = false) ∧
    (2 < V.u → vEB_memberUB (some V) x = true) := by
  have hI := goodreach_inv V hR
  constructor
  · intro h2
    cases hI with
    | base mn mx hst =>
      simp only [VEB.u] at hx
      rw [vEB_member_eq]
      rw [if_neg (by rcases hst with ⟨h1a, h2a⟩ | ⟨h1a, h2a⟩ | ⟨h1a, h2a⟩ | ⟨h1a, h2a⟩ <;>
        omega : ¬(x = mn ∨ x = mx))]
      rw [if_pos (by norm_num : (2 : Int) ≤ 2)]
    | node mn mx lo up s cl a b ha1 hb1 hloPow hupPow hIs hsu hlen hIc hcu hm1 hbnds hsum hclb hmaxw hsing =>
      exfalso
      have hlo2 : (2 : Int) ≤ lo := hloPow ▸ two_le_two_pow a ha1
      have hup2 : (2 : Int) ≤ up := hupPow ▸ two_le_two_pow b hb1
      simp only [VEB.u] at h2
      nlinarith
  · intro h2
    exact memberUB_out V.u.toNat V (Nat.le_refl _) hI h2 x hx

/-- Witness for C5: probing 7 on the fresh universe-4 tree and probing -2 on
the fresh universe-16 tree both run off the end of a cluster array. -/
theorem claim_C5_witness :
    vEB_memberUB (some (vEB_create 4)) 7 = true ∧
    vEB_memberUB (some (vEB_create 16)) (-2) = true :=
  ⟨(claim_C5 (vEB_create 4) 7 (GoodReach.create 4 2 (by decide) (by decide))
      (Or.inl (by decide))).2 (by decide),
   (claim_C5 (vEB_create 16) (-2) (GoodReach.create 16 4 (by decide) (by decide))
      (Or.inr (by decide))).2 (by decide)⟩

/-- C8 (amended): on every tree reachable by in-range inserts and deletes of
members only, every node satisfies the extremes invariant: `minimum = -1`
iff `maximum = -1` iff the node stores no element, and on a non-empty node
`0 ≤ minimum ≤ maximum ≤ U - 1` with `minimum` and `maximum` stored elements
bounding all stored elements.  Over all reachable trees the claim is false:
see the counterexample theorem. -/
theorem claim_C8 (V : VEB) (hR : GoodReach V) : ExtOk V :=
  vinv_extok V (goodreach_inv V hR)

/-- Witness for C8 on the tree `{5}` of universe 8. -/
theorem claim_C8_witness : ExtOk (vEB_insert (vEB_create 8) 5) :=
  claim_C8 (vEB_insert (vEB_create 8) 5)
    (GoodReach.ins (vEB_create 8) 5 (GoodReach.create 8 3 (by decide) (by decide))
      (by decide) (by decide))
